import Mathlib

/-!
# Formal model of the grid pathfinding engine

This file gives a shallow embedding of the search engine of the
ai-pathfinding repository: the grid model, the terrain cost provider, the
stable priority queue used by A*, and the three traversal algorithms
`bfs`, `dfs` and `aStar`, together with theorems about them.

Modelling conventions:
* a JS `{row, col}` object is a `Pos` (mathematical integers; JS numbers
  holding small integers are exact);
* the grid is the `Array<Array<string>>` of the source; only the
  comparison `grid[r][c] !== 'obstacle'` matters, so a cell is either
  `empty` or `obstacle`.  An out-of-range inner read (`undefined` in JS)
  also satisfies `!== 'obstacle'`, which the `getD`-defaults reproduce;
  the row/column bound checks of the source are modelled before any read,
  exactly as the source short-circuits them;
* a JS `Set` of `"row,col"` keys is a `List Pos` (the key encoding is
  injective on integer pairs);
* the `gScore` JS object is an association list; assignment prepends and
  `gLookup` takes the most recent binding;
* wall-clock fields (`executionTime`, `nodesPerSecond`) derive from
  `performance.now()` and are not modelled; all other result fields are;
* JS object literals that omit a key (`totalSuccessors` in the returned
  records) are modelled by an `Option` field set to `none`;
* the `while` loops are modelled with a fuel parameter that strictly
  bounds the number of iterations; the fuel chosen for each algorithm is
  proved sufficient, so the fuelless JS behaviour is captured exactly;
* real-number arithmetic of JS (`Math.sqrt` in the Euclidean heuristic)
  is idealised as exact real arithmetic.
-/

/-- A grid position, the `{row, col}` objects of the source. -/
structure Pos where
  row : Int
  col : Int
deriving DecidableEq

/-- A grid cell: the source stores the strings `'empty'`/`'obstacle'`
and only ever tests `!== 'obstacle'`. -/
inductive Cell where
  | empty
  | obstacle
deriving DecidableEq

/-- The maze grid, `Array<Array<string>>` in the source. -/
abbrev Grid := List (List Cell)

/-- A terrain overlay: the per-cell `cost` fields of the terrain matrix
(the `type` tag is never read by the engine). -/
abbrev Terrain := List (List Nat)

/-- `grid.length`. -/
def gridRows (g : Grid) : Nat := g.length

/-- `grid[0].length`. -/
def gridCols (g : Grid) : Nat := (g.headD []).length

/-- `grid[p.row][p.col]`; reads are always guarded by the bound checks of
`validCell`, so the defaults are never decisive. -/
def cellAt (g : Grid) (p : Pos) : Cell :=
  (g.getD p.row.toNat []).getD p.col.toNat Cell.empty

/-- The bound check `newRow >= 0 && newRow < rows && newCol >= 0 && newCol < cols`. -/
def inBoundsPos (g : Grid) (p : Pos) : Bool :=
  decide (0 ≤ p.row) && decide (p.row < (gridRows g : Int)) &&
    decide (0 ≤ p.col) && decide (p.col < (gridCols g : Int))

/-- The full neighbour validity check of the three algorithms: in bounds
and `grid[newRow][newCol] !== 'obstacle'`. -/
def validCell (g : Grid) (p : Pos) : Bool :=
  inBoundsPos g p && decide (cellAt g p ≠ Cell.obstacle)

/-- `getTerrainCost`: `1` without a terrain overlay, else the stored cost. -/
def getTerrainCost (terrain : Option Terrain) (p : Pos) : Nat :=
  match terrain with
  | none => 1
  | some t => (t.getD p.row.toNat []).getD p.col.toNat 1

/-- The double counting loop for `totalFreeSpaces`. -/
def totalFreeSpaces (g : Grid) : Nat :=
  ((List.range (gridRows g)).map (fun r =>
    ((List.range (gridCols g)).filter
      (fun c => (g.getD r []).getD c Cell.empty != Cell.obstacle)).length)).sum

/-- The direction table: up, right, down, left. -/
def directions : List Pos := [⟨-1, 0⟩, ⟨0, 1⟩, ⟨1, 0⟩, ⟨0, -1⟩]

/-- `{row: p.row + d.row, col: p.col + d.col}`. -/
def stepPos (p d : Pos) : Pos := ⟨p.row + d.row, p.col + d.col⟩

/-- One legal move of the engine: `b` is a 4-neighbour of `a` and passes
the validity check. -/
def isStep (g : Grid) (a b : Pos) : Bool :=
  directions.any (fun d => decide (stepPos a d = b)) && validCell g b

/-- A valid traversal from `s` to `t`: starts at `s`, ends at `t`, every
position is in bounds and free, consecutive positions are 4-adjacent. -/
def IsPath (g : Grid) (s t : Pos) (l : List Pos) : Prop :=
  l.head? = some s ∧ l.getLast? = some t ∧ validCell g s = true ∧
    l.Chain' (fun a b => isStep g a b = true)

/-- The accumulated cost of a traversal: the terrain costs of all
positions after the start (each move pays for the cell it enters). -/
def walkCost (terrain : Option Terrain) (l : List Pos) : Nat :=
  ((l.drop 1).map (getTerrainCost terrain)).sum

/-- Executable check of the move chain of a traversal (used only to
decide `IsPath` on concrete inputs). -/
def chainOk (g : Grid) : List Pos → Bool
  | [] => true
  | [_] => true
  | a :: b :: l => isStep g a b && chainOk g (b :: l)

/-- `t` is reachable from `s` through free 4-adjacent cells. -/
def Reach (g : Grid) (s t : Pos) : Prop := ∃ l, IsPath g s t l

/-- The set of position counts of valid traversals from `s` to `t`. -/
def lenSet (g : Grid) (s t : Pos) : Set Nat :=
  {n | ∃ l, IsPath g s t l ∧ l.length = n}

/-- The set of costs of valid traversals from `s` to `t`. -/
def costSet (g : Grid) (terrain : Option Terrain) (s t : Pos) : Set Nat :=
  {c | ∃ l, IsPath g s t l ∧ walkCost terrain l = c}

/-- Fewest number of positions on a valid traversal from `s` to `t`
(a specification-level quantity, not part of the program). -/
noncomputable def shortestLen (g : Grid) (s t : Pos) : Nat := sInf (lenSet g s t)

/-- Minimum accumulated cost over all valid traversals from `s` to `t`
(a specification-level quantity, not part of the program). -/
noncomputable def minCost (g : Grid) (terrain : Option Terrain) (s t : Pos) : Nat :=
  sInf (costSet g terrain s t)

/-- An element of the `items` array of the `PriorityQueue` class. -/
structure PQItem (ι : Type) (α : Type) where
  item : ι
  priority : α

namespace PriorityQueue

/-- Insert an element into a list, behind every element whose priority is
less than or equal to its own.  This is where a stable sort places a
newly appended element. -/
def insertBehindLE {ι α : Type} [LinearOrder α] (x : PQItem ι α) :
    List (PQItem ι α) → List (PQItem ι α)
  | [] => [x]
  | y :: l => if x.priority < y.priority then x :: y :: l else y :: insertBehindLE x l

/-- Model of `items.sort((a, b) => a.priority - b.priority)`.  ECMAScript
`Array.prototype.sort` is stable and the comparator orders by priority,
so the sort is a stable sort by priority, here a stable insertion sort. -/
def sortByPriority {ι α : Type} [LinearOrder α] (l : List (PQItem ι α)) :
    List (PQItem ι α) :=
  l.foldl (fun acc x => insertBehindLE x acc) []

/-- `enqueue(item, priority)`: push then re-sort the whole array. -/
def enqueue {ι α : Type} [LinearOrder α] (items : List (PQItem ι α))
    (it : ι) (pr : α) : List (PQItem ι α) :=
  sortByPriority (items ++ [⟨it, pr⟩])

/-- `dequeue()` returns `items.shift().item`: the front element. -/
def dequeue {ι α : Type} (items : List (PQItem ι α)) : Option (PQItem ι α) :=
  items.head?

/-- `isEmpty()`. -/
def isEmpty {ι α : Type} (items : List (PQItem ι α)) : Bool := items.isEmpty

/-- `size()`. -/
def size {ι α : Type} (items : List (PQItem ι α)) : Nat := items.length

end PriorityQueue

/-- An operation on a `PriorityQueue`.  To reason about insertion order
the enqueued payload is the serial number of the enqueue operation. -/
inductive PQOp where
  | enq (priority : ℚ)
  | deq

/-- A priority queue state together with the next fresh serial number. -/
structure PQTrace where
  items : List (PQItem Nat ℚ)
  nextTag : Nat

/-- Execute one queue operation. -/
def PQrunStep (st : PQTrace) (op : PQOp) : PQTrace :=
  match op with
  | .enq p => ⟨PriorityQueue.enqueue st.items st.nextTag p, st.nextTag + 1⟩
  | .deq => ⟨st.items.tail, st.nextTag⟩

/-- Execute a sequence of queue operations from the empty queue. -/
def PQrun (ops : List PQOp) : PQTrace :=
  ops.foldl PQrunStep ⟨[], 0⟩

/-- A search node of `bfs`/`dfs`: position, path taken, accumulated cost. -/
structure SearchEntry where
  pos : Pos
  path : List Pos
  cost : Nat
deriving DecidableEq

/-- The result record shared by `bfs` and `dfs`.  `totalSuccessors`,
`pathCost`, `pathOptimalityRatio`, `searchEfficiencyRate`, `penetrance`
and `optimalPathLength` are `Option`s because the source return
statements include these keys only in some branches (`totalSuccessors`
in none). -/
structure SearchResult where
  success : Bool
  path : List Pos
  visitedNodes : List Pos
  nodesExpanded : Nat
  totalSuccessors : Option Nat
  pathLength : Nat
  pathCost : Option Nat
  branchingFactor : ℚ
  pathOptimalityRatio : Option ℚ
  searchEfficiencyRate : Option ℚ
  penetrance : Option ℚ
  completionPercentage : ℚ
  totalFreeSpaces : Nat
  optimalPathLength : Option ℚ
  isWeighted : Bool
deriving DecidableEq

/-- The mutable state of the `bfs`/`dfs` loops.  For `bfs` the queue is a
FIFO list (front = next to pop, push appends); for `dfs` it is a stack
with its top at the head. -/
structure SearchState where
  queue : List SearchEntry
  visited : List Pos
  visitedNodes : List Pos
  nodesExpanded : Nat
  totalSuccessors : Nat
deriving DecidableEq

/-- Initial state: the start entry `{...start, path: [start], cost: 0}`
with the start position already marked visited. -/
def searchInit (start : Pos) : SearchState :=
  ⟨[⟨start, [start], 0⟩], [start], [], 0, 0⟩

/-- The failure record built when the queue/stack empties
(`success: false`; no `totalSuccessors`, `pathCost`,
`pathOptimalityRatio`, `searchEfficiencyRate`, `penetrance` or
`optimalPathLength` key). -/
def searchFailResult (g : Grid) (terrain : Option Terrain) (st : SearchState) :
    SearchResult :=
  { success := false
    path := []
    visitedNodes := st.visitedNodes
    nodesExpanded := st.nodesExpanded
    totalSuccessors := none
    pathLength := 0
    pathCost := none
    branchingFactor :=
      if st.nodesExpanded > 0 then (st.totalSuccessors : ℚ) / st.nodesExpanded else 0
    pathOptimalityRatio := none
    searchEfficiencyRate := none
    penetrance := none
    completionPercentage := (st.nodesExpanded : ℚ) / (totalFreeSpaces g) * 100
    totalFreeSpaces := totalFreeSpaces g
    optimalPathLength := none
    isWeighted := terrain.isSome }

/-- The success record built when the popped position is the goal
(`st` is the state after the pop was counted; no `totalSuccessors` key). -/
def searchSuccessResult (g : Grid) (opt : ℚ) (terrain : Option Terrain)
    (cur : SearchEntry) (st : SearchState) : SearchResult :=
  { success := true
    path := cur.path
    visitedNodes := st.visitedNodes
    nodesExpanded := st.nodesExpanded
    totalSuccessors := none
    pathLength := cur.path.length
    pathCost := some cur.cost
    branchingFactor := (st.totalSuccessors : ℚ) / st.nodesExpanded
    pathOptimalityRatio := some (opt / (cur.path.length : ℚ))
    searchEfficiencyRate := some ((cur.path.length : ℚ) / st.nodesExpanded * 100)
    penetrance := some ((cur.path.length : ℚ) / st.nodesExpanded)
    completionPercentage := (st.nodesExpanded : ℚ) / (totalFreeSpaces g) * 100
    totalFreeSpaces := totalFreeSpaces g
    optimalPathLength := some opt
    isWeighted := terrain.isSome }

/-- Neighbour handling of `bfs` for one direction: if the neighbour is in
bounds, free and not yet visited, mark it visited, count it, and append
it to the queue with extended path and accumulated cost. -/
def bfsExpandDir (g : Grid) (terrain : Option Terrain) (cur : SearchEntry)
    (st : SearchState) (d : Pos) : SearchState :=
  let n := stepPos cur.pos d
  if validCell g n = true ∧ n ∉ st.visited then
    { st with
      visited := n :: st.visited
      totalSuccessors := st.totalSuccessors + 1
      queue := st.queue ++ [⟨n, cur.path ++ [n], cur.cost + getTerrainCost terrain n⟩] }
  else st

/-- One iteration of the `bfs` while loop: empty queue returns the
failure record; otherwise shift the front entry, count and record it,
return success at the goal, else expand the four directions in order. -/
def bfsStep (g : Grid) (goal : Pos) (opt : ℚ) (terrain : Option Terrain)
    (st : SearchState) : SearchResult ⊕ SearchState :=
  match st.queue with
  | [] => .inl (searchFailResult g terrain st)
  | cur :: rest =>
    let st1 : SearchState :=
      { st with
        queue := rest
        nodesExpanded := st.nodesExpanded + 1
        visitedNodes := st.visitedNodes ++ [cur.pos] }
    if cur.pos = goal then .inl (searchSuccessResult g opt terrain cur st1)
    else .inr (directions.foldl (bfsExpandDir g terrain cur) st1)

/-- The `bfs` while loop, with fuel strictly bounding its iterations. -/
def bfsLoop (g : Grid) (goal : Pos) (opt : ℚ) (terrain : Option Terrain) :
    Nat → SearchState → SearchResult
  | 0, st => searchFailResult g terrain st
  | fuel + 1, st =>
    match bfsStep g goal opt terrain st with
    | .inl r => r
    | .inr st' => bfsLoop g goal opt terrain fuel st'

/-- Fuel for `bfs`/`dfs`; proved sufficient below. -/
def searchFuel (g : Grid) : Nat := 2 * (gridRows g * gridCols g) + 2

/-- `bfs(grid, start, goal, optimalPathLength, terrain)` (the JS default
for `terrain` is `null`, i.e. `none`). -/
def bfs (grid : Grid) (start goal : Pos) (optimalPathLength : ℚ)
    (terrain : Option Terrain) : SearchResult :=
  bfsLoop grid goal optimalPathLength terrain (searchFuel grid) (searchInit start)

/-- Neighbour handling of `dfs` for one direction: as in `bfs` but the
new entry is pushed on top of the stack (the head here). -/
def dfsExpandDir (g : Grid) (terrain : Option Terrain) (cur : SearchEntry)
    (st : SearchState) (d : Pos) : SearchState :=
  let n := stepPos cur.pos d
  if validCell g n = true ∧ n ∉ st.visited then
    { st with
      visited := n :: st.visited
      totalSuccessors := st.totalSuccessors + 1
      queue := ⟨n, cur.path ++ [n], cur.cost + getTerrainCost terrain n⟩ :: st.queue }
  else st

/-- One iteration of the `dfs` while loop: pop the top of the stack and
push the successors iterating the directions in reverse order, so that
`up` ends on top, exactly as the source's reverse `for` loop does. -/
def dfsStep (g : Grid) (goal : Pos) (opt : ℚ) (terrain : Option Terrain)
    (st : SearchState) : SearchResult ⊕ SearchState :=
  match st.queue with
  | [] => .inl (searchFailResult g terrain st)
  | cur :: rest =>
    let st1 : SearchState :=
      { st with
        queue := rest
        nodesExpanded := st.nodesExpanded + 1
        visitedNodes := st.visitedNodes ++ [cur.pos] }
    if cur.pos = goal then .inl (searchSuccessResult g opt terrain cur st1)
    else .inr (directions.reverse.foldl (dfsExpandDir g terrain cur) st1)

/-- The `dfs` while loop. -/
def dfsLoop (g : Grid) (goal : Pos) (opt : ℚ) (terrain : Option Terrain) :
    Nat → SearchState → SearchResult
  | 0, st => searchFailResult g terrain st
  | fuel + 1, st =>
    match dfsStep g goal opt terrain st with
    | .inl r => r
    | .inr st' => dfsLoop g goal opt terrain fuel st'

/-- `dfs(grid, start, goal, optimalPathLength, terrain)`. -/
def dfs (grid : Grid) (start goal : Pos) (optimalPathLength : ℚ)
    (terrain : Option Terrain) : SearchResult :=
  dfsLoop grid goal optimalPathLength terrain (searchFuel grid) (searchInit start)

/-- The ratio computed by the metrics display component: `foundValue` is
`pathCost` in weighted mode and `pathLength` otherwise, and the displayed
ratio is `optimalPathLength / foundValue`. -/
def metricsFoundValue (isWeighted : Bool) (pathCost pathLength : ℚ) : ℚ :=
  if isWeighted then pathCost else pathLength

/-- `optimalityRatio` of the metrics display component. -/
def metricsOptimalityRatio (optimalValue : ℚ) (isWeighted : Bool)
    (pathCost pathLength : ℚ) : ℚ :=
  optimalValue / metricsFoundValue isWeighted pathCost pathLength

/-- The heuristic names accepted by `aStar`. -/
inductive HeuristicName where
  | manhattan
  | euclidean
  | chebyshev
deriving DecidableEq

/-- `manhattanDistance`: `|Δrow| + |Δcol|`. -/
noncomputable def manhattanDistance (a b : Pos) : ℝ :=
  |(a.row : ℝ) - b.row| + |(a.col : ℝ) - b.col|

/-- `euclideanDistance`: `sqrt(Δrow² + Δcol²)`. -/
noncomputable def euclideanDistance (a b : Pos) : ℝ :=
  Real.sqrt (((a.row : ℝ) - b.row) ^ 2 + ((a.col : ℝ) - b.col) ^ 2)

/-- `chebyshevDistance`: `max(|Δrow|, |Δcol|)`. -/
noncomputable def chebyshevDistance (a b : Pos) : ℝ :=
  max |(a.row : ℝ) - b.row| |(a.col : ℝ) - b.col|

/-- The `HEURISTICS` lookup table (only the `func` members are read by
the engine). -/
noncomputable def HEURISTICS : HeuristicName → Pos → Pos → ℝ
  | .manhattan => manhattanDistance
  | .euclidean => euclideanDistance
  | .chebyshev => chebyshevDistance

/-- A search node of `aStar`: position, path taken, g-score. -/
structure AStarEntry where
  pos : Pos
  path : List Pos
  g : Nat
deriving DecidableEq

/-- The result record of `aStar` (first document of the A* module, whose
return statements include no `totalSuccessors` key). -/
structure AStarResult where
  success : Bool
  path : List Pos
  visitedNodes : List Pos
  nodesExpanded : Nat
  totalSuccessors : Option Nat
  pathLength : Nat
  pathCost : Option Nat
  heuristic : HeuristicName
  branchingFactor : ℝ
  pathOptimalityRatio : Option ℝ
  searchEfficiencyRate : Option ℝ
  penetrance : Option ℝ
  completionPercentage : ℝ
  totalFreeSpaces : Nat
  finalPathCost : Option Nat
  avgHeuristic : ℝ
  avgFValue : ℝ
  optimalPathLength : Option ℝ
  isWeighted : Bool

/-- The mutable state of the `aStar` loop. -/
structure AStarState where
  queue : List (PQItem AStarEntry ℝ)
  visited : List Pos
  gScore : List (Pos × Nat)
  visitedNodes : List Pos
  nodesExpanded : Nat
  totalSuccessors : Nat
  totalHeuristic : ℝ
  totalFValue : ℝ

/-- `gScore[key]`: the most recent binding of a position, if any. -/
def gLookup (m : List (Pos × Nat)) (p : Pos) : Option Nat :=
  (m.find? (fun e => decide (e.1 = p))).map (fun e => e.2)

/-- The update test `!gScore[neighborKey] || newG < gScore[neighborKey]`:
a missing binding is falsy, and so is a recorded score of `0` (JS number
truthiness). -/
def gUpdateGuard (v : Option Nat) (newG : Nat) : Bool :=
  match v with
  | none => true
  | some old => decide (old = 0) || decide (newG < old)

/-- The update test the specification describes: no score recorded, or
the tentative score strictly improves the recorded one. -/
def gIdealGuard (v : Option Nat) (newG : Nat) : Prop :=
  v = none ∨ ∃ old, v = some old ∧ newG < old

/-- Neighbour handling of `aStar` for one direction: if the neighbour is
in bounds, free and not closed, and the update test passes, record the
tentative g-score, count the successor, and enqueue the neighbour at
priority `f = g' + h(neighbor, goal)`. -/
noncomputable def aStarExpandDir (g : Grid) (goal : Pos) (terrain : Option Terrain)
    (h : Pos → Pos → ℝ) (cur : AStarEntry) (st : AStarState) (d : Pos) : AStarState :=
  let n := stepPos cur.pos d
  if validCell g n = true ∧ n ∉ st.visited then
    let newG := cur.g + getTerrainCost terrain n
    if gUpdateGuard (gLookup st.gScore n) newG = true then
      { st with
        gScore := (n, newG) :: st.gScore
        totalSuccessors := st.totalSuccessors + 1
        queue := PriorityQueue.enqueue st.queue
          ⟨n, cur.path ++ [n], newG⟩ ((newG : ℝ) + h n goal) }
    else st
  else st

/-- The failure record of `aStar` (no `totalSuccessors`, `pathCost`,
`pathOptimalityRatio`, `searchEfficiencyRate`, `penetrance`,
`finalPathCost` or `optimalPathLength` key; `pathLength: 0`). -/
noncomputable def aStarFailResult (g : Grid) (hn : HeuristicName)
    (terrain : Option Terrain) (st : AStarState) : AStarResult :=
  { success := false
    path := []
    visitedNodes := st.visitedNodes
    nodesExpanded := st.nodesExpanded
    totalSuccessors := none
    pathLength := 0
    pathCost := none
    heuristic := hn
    branchingFactor :=
      if st.nodesExpanded > 0 then (st.totalSuccessors : ℝ) / st.nodesExpanded else 0
    pathOptimalityRatio := none
    searchEfficiencyRate := none
    penetrance := none
    completionPercentage := (st.nodesExpanded : ℝ) / (totalFreeSpaces g) * 100
    totalFreeSpaces := totalFreeSpaces g
    finalPathCost := none
    avgHeuristic :=
      if st.nodesExpanded > 0 then st.totalHeuristic / st.nodesExpanded else 0
    avgFValue :=
      if st.nodesExpanded > 0 then st.totalFValue / st.nodesExpanded else 0
    optimalPathLength := none
    isWeighted := terrain.isSome }

/-- The success record of `aStar`, built from the goal entry and the
state after the pop was counted. -/
noncomputable def aStarSuccessResult (g : Grid) (hn : HeuristicName) (opt : ℝ)
    (terrain : Option Terrain) (cur : AStarEntry) (st : AStarState) : AStarResult :=
  { success := true
    path := cur.path
    visitedNodes := st.visitedNodes
    nodesExpanded := st.nodesExpanded
    totalSuccessors := none
    pathLength := cur.path.length
    pathCost := some cur.g
    heuristic := hn
    branchingFactor := (st.totalSuccessors : ℝ) / st.nodesExpanded
    pathOptimalityRatio := some (opt / (cur.path.length : ℝ))
    searchEfficiencyRate := some ((cur.path.length : ℝ) / st.nodesExpanded * 100)
    penetrance := some ((cur.path.length : ℝ) / st.nodesExpanded)
    completionPercentage := (st.nodesExpanded : ℝ) / (totalFreeSpaces g) * 100
    totalFreeSpaces := totalFreeSpaces g
    finalPathCost := some cur.g
    avgHeuristic := st.totalHeuristic / st.nodesExpanded
    avgFValue := st.totalFValue / st.nodesExpanded
    optimalPathLength := some opt
    isWeighted := terrain.isSome }

/-- One iteration of the `aStar` while loop: dequeue the front (minimal
f) item; skip it if its position is already closed; otherwise close it,
count it and accumulate its h- and f-values; return success at the goal,
else expand the four directions in order. -/
noncomputable def aStarStep (g : Grid) (goal : Pos) (hn : HeuristicName) (opt : ℝ)
    (terrain : Option Terrain) (st : AStarState) : AStarResult ⊕ AStarState :=
  match st.queue with
  | [] => .inl (aStarFailResult g hn terrain st)
  | itm :: rest =>
    let cur := itm.item
    if cur.pos ∈ st.visited then .inr { st with queue := rest }
    else
      let hv := HEURISTICS hn cur.pos goal
      let st1 : AStarState :=
        { st with
          queue := rest
          visited := cur.pos :: st.visited
          nodesExpanded := st.nodesExpanded + 1
          visitedNodes := st.visitedNodes ++ [cur.pos]
          totalHeuristic := st.totalHeuristic + hv
          totalFValue := st.totalFValue + ((cur.g : ℝ) + hv) }
      if cur.pos = goal then .inl (aStarSuccessResult g hn opt terrain cur st1)
      else .inr (directions.foldl (aStarExpandDir g goal terrain (HEURISTICS hn) cur) st1)

/-- The `aStar` while loop, with fuel strictly bounding its iterations. -/
noncomputable def aStarLoop (g : Grid) (goal : Pos) (hn : HeuristicName) (opt : ℝ)
    (terrain : Option Terrain) : Nat → AStarState → AStarResult
  | 0, st => aStarFailResult g hn terrain st
  | fuel + 1, st =>
    match aStarStep g goal hn opt terrain st with
    | .inl r => r
    | .inr st' => aStarLoop g goal hn opt terrain fuel st'

/-- Initial `aStar` state: the open set holds the start entry at priority
`h(start, goal)`, the closed set is empty, `gScore` maps the start to 0. -/
noncomputable def aStarInit (start goal : Pos) (h : Pos → Pos → ℝ) : AStarState :=
  { queue := PriorityQueue.enqueue [] ⟨start, [start], 0⟩ (h start goal)
    visited := []
    gScore := [(start, 0)]
    visitedNodes := []
    nodesExpanded := 0
    totalSuccessors := 0
    totalHeuristic := 0
    totalFValue := 0 }

/-- Fuel for `aStar`; proved sufficient below. -/
def aStarFuel (g : Grid) : Nat := 5 * (gridRows g * gridCols g) + 10

/-- `aStar(grid, start, goal, heuristicName, optimalPathLength, terrain)`
(the JS defaults are `'manhattan'` and `null`). -/
noncomputable def aStar (grid : Grid) (start goal : Pos) (heuristicName : HeuristicName)
    (optimalPathLength : ℝ) (terrain : Option Terrain) : AStarResult :=
  aStarLoop grid goal heuristicName optimalPathLength terrain (aStarFuel grid)
    (aStarInit start goal (HEURISTICS heuristicName))

/-- All in-bounds positions of a grid, as a finite set (for counting). -/
def inBoundsFinset (g : Grid) : Finset Pos :=
  (Finset.range (gridRows g) ×ˢ Finset.range (gridCols g)).image
    (fun rc => ⟨(rc.1 : Int), (rc.2 : Int)⟩)

/-- All free in-bounds positions of a grid, as a finite set. -/
def freeFinset (g : Grid) : Finset Pos :=
  (inBoundsFinset g).filter (fun p => validCell g p = true)

/-- Termination measure of the `bfs`/`dfs` loops. -/
def searchMeasure (g : Grid) (st : SearchState) : Nat :=
  st.queue.length + 2 * ((inBoundsFinset g) \ st.visited.toFinset).card

/-- Termination measure of the `aStar` loop. -/
def aStarMeasure (g : Grid) (st : AStarState) : Nat :=
  st.queue.length + 5 * ((inBoundsFinset g) \ st.visited.toFinset).card

/-- The states the `bfs` loop can step through. -/
def BfsReaches (g : Grid) (goal : Pos) (opt : ℚ) (terrain : Option Terrain)
    (st st' : SearchState) : Prop :=
  Relation.ReflTransGen (fun a b => bfsStep g goal opt terrain a = .inr b) st st'

/-- The states the `dfs` loop can step through. -/
def DfsReaches (g : Grid) (goal : Pos) (opt : ℚ) (terrain : Option Terrain)
    (st st' : SearchState) : Prop :=
  Relation.ReflTransGen (fun a b => dfsStep g goal opt terrain a = .inr b) st st'

/-- The states the `aStar` loop can step through. -/
def AStarReaches (g : Grid) (goal : Pos) (hn : HeuristicName) (opt : ℝ)
    (terrain : Option Terrain) (st st' : AStarState) : Prop :=
  Relation.ReflTransGen (fun a b => aStarStep g goal hn opt terrain a = .inr b) st st'

/-- The loop invariant of `bfs` (the last three fields are the
breadth-first layering facts behind its fewest-steps guarantee). -/
structure BfsInv (g : Grid) (start goal : Pos) (terrain : Option Terrain)
    (st : SearchState) : Prop where
  q_path : ∀ e ∈ st.queue, IsPath g start e.pos e.path
  q_cost : ∀ e ∈ st.queue, e.cost = walkCost terrain e.path
  visited_eq : ∀ p, p ∈ st.visited ↔ p ∈ st.visitedNodes ∨ ∃ e ∈ st.queue, e.pos = p
  nodup : (st.visitedNodes ++ st.queue.map (fun e => e.pos)).Nodup
  count : st.nodesExpanded = st.visitedNodes.length
  closure : ∀ w ∈ st.visitedNodes, ∀ d ∈ directions,
    validCell g (stepPos w d) = true → stepPos w d ∈ st.visited
  start_mem : start ∈ st.visited
  goal_not : goal ∉ st.visitedNodes
  vn_valid : ∀ p ∈ st.visitedNodes, validCell g p = true
  geo : ∀ e ∈ st.queue, e.path.length = shortestLen g start e.pos
  lens : st.queue.Pairwise (fun a b => a.path.length ≤ b.path.length ∧
    b.path.length ≤ a.path.length + 1)
  frontier : ∀ e, st.queue.head? = some e → ∀ p, Reach g start p →
    shortestLen g start p ≤ e.path.length → p ∈ st.visited

/-- The loop invariant of `dfs`. -/
structure DfsInv (g : Grid) (start goal : Pos) (terrain : Option Terrain)
    (st : SearchState) : Prop where
  q_path : ∀ e ∈ st.queue, IsPath g start e.pos e.path
  q_cost : ∀ e ∈ st.queue, e.cost = walkCost terrain e.path
  visited_eq : ∀ p, p ∈ st.visited ↔ p ∈ st.visitedNodes ∨ ∃ e ∈ st.queue, e.pos = p
  nodup : (st.visitedNodes ++ st.queue.map (fun e => e.pos)).Nodup
  count : st.nodesExpanded = st.visitedNodes.length
  closure : ∀ w ∈ st.visitedNodes, ∀ d ∈ directions,
    validCell g (stepPos w d) = true → stepPos w d ∈ st.visited
  start_mem : start ∈ st.visited
  goal_not : goal ∉ st.visitedNodes
  vn_valid : ∀ p ∈ st.visitedNodes, validCell g p = true

/-- The loop invariant of `aStar`. -/
structure AStarInv (g : Grid) (start goal : Pos) (terrain : Option Terrain)
    (h : Pos → Pos → ℝ) (st : AStarState) : Prop where
  q_path : ∀ it ∈ st.queue, IsPath g start it.item.pos it.item.path
  q_cost : ∀ it ∈ st.queue, it.item.g = walkCost terrain it.item.path
  q_pr : ∀ it ∈ st.queue, it.priority = (it.item.g : ℝ) + h it.item.pos goal
  q_sorted : st.queue.Pairwise (fun a b => a.priority ≤ b.priority)
  g_path : ∀ p v, gLookup st.gScore p = some v →
    ∃ l, IsPath g start p l ∧ walkCost terrain l = v
  g_entry : ∀ p v, gLookup st.gScore p = some v → p ∉ st.visited →
    ∃ it ∈ st.queue, it.item.pos = p ∧ it.item.g = v
  g_le : ∀ it ∈ st.queue, ∃ v, gLookup st.gScore it.item.pos = some v ∧ v ≤ it.item.g
  closed_opt : ∀ u ∈ st.visited, gLookup st.gScore u = some (minCost g terrain start u)
  closed_edge : ∀ u ∈ st.visited, ∀ d ∈ directions, validCell g (stepPos u d) = true →
    stepPos u d ∉ st.visited → ∃ v, gLookup st.gScore (stepPos u d) = some v ∧
      v ≤ minCost g terrain start u + getTerrainCost terrain (stepPos u d)
  g_start : gLookup st.gScore start = some 0
  g_pos : ∀ p v, p ≠ start → gLookup st.gScore p = some v → 1 ≤ v
  fresh_start : st.visited = [] → ∀ it ∈ st.queue, it.item.pos = start
  closed_start : st.visited ≠ [] → start ∈ st.visited
  vn_rev : st.visited = st.visitedNodes.reverse
  vn_nodup : st.visitedNodes.Nodup
  count : st.nodesExpanded = st.visitedNodes.length
  goal_not : goal ∉ st.visited
  nonempty : st.queue ≠ [] ∨ st.visited ≠ []

instance (g : Grid) (s t : Pos) (l : List Pos) : Decidable (IsPath g s t l) :=
  decidable_of_iff (l.head? = some s ∧ l.getLast? = some t ∧
    validCell g s = true ∧ chainOk g l = true)
    (by
      have hiff : ∀ l' : List Pos,
          chainOk g l' = true ↔ l'.Chain' (fun a b => isStep g a b = true) := by
        intro l'
        induction l' with
        | nil => simp [chainOk]
        | cons a l' ih =>
          cases l' with
          | nil => simp [chainOk]
          | cons b l'' =>
            simp only [chainOk, Bool.and_eq_true, List.chain'_cons, ih]
      unfold IsPath
      rw [hiff])

/-! ## Basic facts about moves and traversals -/

theorem isStep_valid {g : Grid} {a b : Pos} (h : isStep g a b = true) :
    validCell g b = true := by
  simp only [isStep, Bool.and_eq_true] at h
  exact h.2

theorem isStep_dir {g : Grid} {a b : Pos} (h : isStep g a b = true) :
    ∃ d ∈ directions, stepPos a d = b := by
  simp only [isStep, Bool.and_eq_true, List.any_eq_true, decide_eq_true_eq] at h
  exact h.1

theorem isStep_of_dir {g : Grid} {a b : Pos} (hd : ∃ d ∈ directions, stepPos a d = b)
    (hv : validCell g b = true) : isStep g a b = true := by
  simp only [isStep, Bool.and_eq_true, List.any_eq_true, decide_eq_true_eq]
  exact ⟨hd, hv⟩

theorem IsPath.ne_nil {g : Grid} {s t : Pos} {l : List Pos} (h : IsPath g s t l) :
    l ≠ [] := by
  intro hl
  rw [hl] at h
  simp [IsPath] at h

theorem IsPath.single {g : Grid} {s : Pos} (hv : validCell g s = true) :
    IsPath g s s [s] := by
  refine ⟨rfl, rfl, hv, ?_⟩
  simp

theorem IsPath.start_eq {g : Grid} {s t p : Pos} {l : List Pos}
    (h : IsPath g s t (p :: l)) : p = s := by
  have := h.1
  simp at this
  exact this

theorem IsPath.single_eq {g : Grid} {s t p : Pos} (h : IsPath g s t [p]) :
    p = s ∧ p = t := by
  obtain ⟨h1, h2, _, _⟩ := h
  simp at h1 h2
  exact ⟨h1, h2⟩

theorem IsPath.append {g : Grid} {s w v : Pos} {l : List Pos}
    (h : IsPath g s w l) (hstep : isStep g w v = true) : IsPath g s v (l ++ [v]) := by
  obtain ⟨h1, h2, h3, h4⟩ := h
  refine ⟨?_, ?_, h3, ?_⟩
  · cases l with
    | nil => simp at h1
    | cons a l => simpa using h1
  · simp
  · rw [List.chain'_append]
    refine ⟨h4, by simp, ?_⟩
    intro x hx y hy
    simp at hy
    rw [h2] at hx
    simp at hx
    rw [← hx, ← hy]
    exact hstep

theorem IsPath.front {g : Grid} {s t : Pos} {l : List Pos}
    (h : IsPath g s t l) (hlen : 2 ≤ l.length) :
    ∃ l' w, l = l' ++ [t] ∧ IsPath g s w l' ∧ isStep g w t = true := by
  obtain ⟨h1, h2, h3, h4⟩ := h
  obtain ⟨l', rfl⟩ := List.getLast?_eq_some_iff.mp h2
  have hl' : l' ≠ [] := by
    intro hnil
    rw [hnil] at hlen
    simp at hlen
  refine ⟨l', l'.getLast hl', rfl, ⟨?_, ?_, h3, ?_⟩, ?_⟩
  · rwa [List.head?_append_of_ne_nil _ hl'] at h1
  · exact List.getLast?_eq_getLast l' hl'
  · exact (List.chain'_append.mp h4).1
  · have := (List.chain'_append.mp h4).2.2
    apply this
    · exact List.getLast?_eq_getLast l' hl'
    · simp

theorem IsPath.last_valid {g : Grid} {s t : Pos} {l : List Pos}
    (h : IsPath g s t l) : validCell g t = true := by
  rcases Nat.lt_or_ge l.length 2 with hlen | hlen
  · have hne := h.ne_nil
    match l, hne with
    | [p], _ =>
      obtain ⟨hs, ht⟩ := h.single_eq
      rw [← ht, hs]
      exact h.2.2.1
    | p :: q :: l', _ => simp at hlen; omega
  · obtain ⟨l', w, _, _, hstep⟩ := h.front hlen
    exact isStep_valid hstep

theorem IsPath.mem_valid {g : Grid} {s t : Pos} {l : List Pos}
    (h : IsPath g s t l) : ∀ p ∈ l, validCell g p = true := by
  induction l generalizing s with
  | nil => intro p hp; simp at hp
  | cons a l ih =>
    intro p hp
    have ha : a = s := h.start_eq
    cases l with
    | nil =>
      simp at hp
      rw [hp, ha]
      exact h.2.2.1
    | cons b l' =>
      rcases List.mem_cons.mp hp with rfl | hp'
      · rw [ha]; exact h.2.2.1
      · obtain ⟨h1, h2, h3, h4⟩ := h
        have hstep : isStep g a b = true := (List.chain'_cons.mp h4).1
        have htail : IsPath g b t (b :: l') := by
          refine ⟨rfl, ?_, isStep_valid hstep, (List.chain'_cons.mp h4).2⟩
          simpa using h2
        exact ih htail p hp'

theorem walkCost_single (terrain : Option Terrain) (p : Pos) :
    walkCost terrain [p] = 0 := rfl

theorem walkCost_append_last (terrain : Option Terrain) {l : List Pos} (v : Pos)
    (hl : l ≠ []) :
    walkCost terrain (l ++ [v]) = walkCost terrain l + getTerrainCost terrain v := by
  match l, hl with
  | a :: l, _ =>
    simp [walkCost]

/-! ## Reachability, shortest lengths and minimum costs -/

theorem Reach.of_valid {g : Grid} {s : Pos} (hv : validCell g s = true) :
    Reach g s s := ⟨[s], IsPath.single hv⟩

theorem Reach.snoc {g : Grid} {s w v : Pos} (h : Reach g s w)
    (hstep : isStep g w v = true) : Reach g s v := by
  obtain ⟨l, hl⟩ := h
  exact ⟨l ++ [v], hl.append hstep⟩

theorem lenSet_nonempty {g : Grid} {s t : Pos} (h : Reach g s t) :
    (lenSet g s t).Nonempty := by
  obtain ⟨l, hl⟩ := h
  exact ⟨l.length, l, hl, rfl⟩

theorem costSet_nonempty {g : Grid} {terrain : Option Terrain} {s t : Pos}
    (h : Reach g s t) : (costSet g terrain s t).Nonempty := by
  obtain ⟨l, hl⟩ := h
  exact ⟨walkCost terrain l, l, hl, rfl⟩

theorem shortestLen_mem {g : Grid} {s t : Pos} (h : Reach g s t) :
    shortestLen g s t ∈ lenSet g s t :=
  Nat.sInf_mem (lenSet_nonempty h)

theorem shortestLen_le {g : Grid} {s t : Pos} {n : Nat} (h : n ∈ lenSet g s t) :
    shortestLen g s t ≤ n :=
  Nat.sInf_le h

theorem minCost_mem {g : Grid} {terrain : Option Terrain} {s t : Pos}
    (h : Reach g s t) : minCost g terrain s t ∈ costSet g terrain s t :=
  Nat.sInf_mem (costSet_nonempty h)

theorem minCost_le {g : Grid} {terrain : Option Terrain} {s t : Pos} {c : Nat}
    (h : c ∈ costSet g terrain s t) : minCost g terrain s t ≤ c :=
  Nat.sInf_le h

theorem shortestLen_pos {g : Grid} {s t : Pos} (h : Reach g s t) :
    1 ≤ shortestLen g s t := by
  obtain ⟨l, hl, hlen⟩ := shortestLen_mem h
  have := hl.ne_nil
  rw [← hlen]
  exact Nat.one_le_iff_ne_zero.mpr (by simpa using this)

theorem shortestLen_start {g : Grid} {s : Pos} (hv : validCell g s = true) :
    shortestLen g s s = 1 :=
  le_antisymm (shortestLen_le ⟨[s], IsPath.single hv, rfl⟩)
    (shortestLen_pos (Reach.of_valid hv))

theorem eq_start_of_shortestLen_le_one {g : Grid} {s p : Pos} (h : Reach g s p)
    (hlen : shortestLen g s p ≤ 1) : p = s := by
  obtain ⟨l, hl, hlenl⟩ := shortestLen_mem h
  have h1 : 1 ≤ shortestLen g s p := shortestLen_pos h
  have : l.length = 1 := by omega
  match l, this with
  | [q], _ =>
    obtain ⟨hqs, hqt⟩ := hl.single_eq
    rw [← hqt, hqs]

theorem shortestLen_le_succ {g : Grid} {s w v : Pos} (hw : Reach g s w)
    (hstep : isStep g w v = true) :
    shortestLen g s v ≤ shortestLen g s w + 1 := by
  obtain ⟨l, hl, hlen⟩ := shortestLen_mem hw
  refine shortestLen_le ⟨l ++ [v], hl.append hstep, ?_⟩
  simp [hlen]

theorem minCost_le_step {g : Grid} {terrain : Option Terrain} {s w v : Pos}
    (hw : Reach g s w) (hstep : isStep g w v = true) :
    minCost g terrain s v ≤ minCost g terrain s w + getTerrainCost terrain v := by
  obtain ⟨l, hl, hc⟩ := @minCost_mem g terrain s w hw
  refine minCost_le ⟨l ++ [v], hl.append hstep, ?_⟩
  rw [walkCost_append_last _ _ hl.ne_nil, hc]

theorem exists_pred_of_shortestLen {g : Grid} {s p : Pos} {m : Nat}
    (h : Reach g s p) (hlen : shortestLen g s p = m + 2) :
    ∃ w, isStep g w p = true ∧ Reach g s w ∧ shortestLen g s w = m + 1 := by
  obtain ⟨l, hl, hlenl⟩ := shortestLen_mem h
  have h2 : 2 ≤ l.length := by omega
  obtain ⟨l', w, rfl, hl', hstep⟩ := hl.front h2
  have hreach : Reach g s w := ⟨l', hl'⟩
  have hle : shortestLen g s w ≤ m + 1 := by
    refine shortestLen_le ⟨l', hl', ?_⟩
    have hlen2 : (l' ++ [p]).length = m + 2 := by rw [hlenl, hlen]
    simp at hlen2
    omega
  have hge : m + 1 ≤ shortestLen g s w := by
    by_contra hlt
    push_neg at hlt
    obtain ⟨l2, hl2, hlen2⟩ := shortestLen_mem hreach
    have : shortestLen g s p ≤ l2.length + 1 := by
      refine shortestLen_le ⟨l2 ++ [p], hl2.append hstep, ?_⟩
      simp
    omega
  exact ⟨w, hstep, hreach, le_antisymm hle hge⟩

theorem optimal_front {g : Grid} {terrain : Option Terrain} {s t : Pos} {l : List Pos}
    (hopt : IsPath g s t l) (hc : walkCost terrain l = minCost g terrain s t)
    (hlen : 2 ≤ l.length) :
    ∃ l' w, l = l' ++ [t] ∧ IsPath g s w l' ∧ isStep g w t = true ∧
      walkCost terrain l' = minCost g terrain s w ∧
      minCost g terrain s t = minCost g terrain s w + getTerrainCost terrain t := by
  obtain ⟨l', w, rfl, hl', hstep⟩ := hopt.front hlen
  have hreach : Reach g s w := ⟨l', hl'⟩
  have hsplit : walkCost terrain (l' ++ [t]) =
      walkCost terrain l' + getTerrainCost terrain t :=
    walkCost_append_last _ _ hl'.ne_nil
  have hle : minCost g terrain s w ≤ walkCost terrain l' :=
    minCost_le ⟨l', hl', rfl⟩
  have heq : walkCost terrain l' = minCost g terrain s w := by
    rcases lt_or_eq_of_le hle with hlt | heq
    · exfalso
      obtain ⟨l2, hl2, hlen2⟩ := @minCost_mem g terrain s w hreach
      have hmem : minCost g terrain s t ≤ walkCost terrain (l2 ++ [t]) :=
        minCost_le ⟨l2 ++ [t], hl2.append hstep, rfl⟩
      rw [walkCost_append_last _ _ hl2.ne_nil, hlen2] at hmem
      omega
    · exact heq.symm
  exact ⟨l', w, rfl, hl', hstep, heq, by omega⟩

/-! ## Priority queue: order and stability -/

namespace PriorityQueue

theorem mem_insertBehindLE {ι α : Type} [LinearOrder α] {x a : PQItem ι α}
    {l : List (PQItem ι α)} : a ∈ insertBehindLE x l ↔ a = x ∨ a ∈ l := by
  induction l with
  | nil => simp [insertBehindLE]
  | cons y l ih =>
    rw [insertBehindLE]
    split
    · simp
    · simp [ih]
      tauto

theorem insertBehindLE_sorted {ι α : Type} [LinearOrder α] {x : PQItem ι α}
    {l : List (PQItem ι α)} (h : l.Pairwise (fun a b => a.priority ≤ b.priority)) :
    (insertBehindLE x l).Pairwise (fun a b => a.priority ≤ b.priority) := by
  induction l with
  | nil => simp [insertBehindLE]
  | cons y l ih =>
    rw [insertBehindLE]
    rcases List.pairwise_cons.mp h with ⟨hy, hl⟩
    split
    · rename_i hlt
      refine List.pairwise_cons.mpr ⟨?_, h⟩
      intro z hz
      rcases List.mem_cons.mp hz with rfl | hz'
      · exact le_of_lt hlt
      · exact le_trans (le_of_lt hlt) (hy z hz')
    · rename_i hge
      push_neg at hge
      refine List.pairwise_cons.mpr ⟨?_, ih hl⟩
      intro z hz
      rcases mem_insertBehindLE.mp hz with rfl | hz'
      · exact hge
      · exact hy z hz'

theorem insertBehindLE_stable {ι α : Type} [LinearOrder α] (r : ι → ι → Prop)
    {x : PQItem ι α} {l : List (PQItem ι α)}
    (hsorted : l.Pairwise (fun a b => a.priority ≤ b.priority))
    (hst : l.Pairwise (fun a b => a.priority = b.priority → r a.item b.item))
    (hx : ∀ a ∈ l, a.priority = x.priority → r a.item x.item) :
    (insertBehindLE x l).Pairwise
      (fun a b => a.priority = b.priority → r a.item b.item) := by
  induction l with
  | nil => simp [insertBehindLE]
  | cons y l ih =>
    rw [insertBehindLE]
    rcases List.pairwise_cons.mp hsorted with ⟨hy, hl⟩
    rcases List.pairwise_cons.mp hst with ⟨hys, hls⟩
    split
    · rename_i hlt
      refine List.pairwise_cons.mpr ⟨?_, hst⟩
      intro z hz heq
      exfalso
      rcases List.mem_cons.mp hz with rfl | hz'
      · exact absurd heq (ne_of_lt hlt)
      · exact absurd heq (ne_of_lt (lt_of_lt_of_le hlt (hy z hz')))
    · refine List.pairwise_cons.mpr ⟨?_, ih hl hls ?_⟩
      · intro z hz
        rcases mem_insertBehindLE.mp hz with rfl | hz'
        · exact hx y (List.mem_cons_self y l)
        · exact hys z hz'
      · intro a ha
        exact hx a (List.mem_cons_of_mem y ha)

theorem mem_foldl_insert {ι α : Type} [LinearOrder α] {a : PQItem ι α} :
    ∀ {l acc : List (PQItem ι α)},
      a ∈ l.foldl (fun acc x => insertBehindLE x acc) acc ↔ a ∈ l ∨ a ∈ acc := by
  intro l
  induction l with
  | nil => simp
  | cons x l ih =>
    intro acc
    rw [List.foldl_cons, ih, mem_insertBehindLE]
    simp
    tauto

theorem foldl_insert_sorted {ι α : Type} [LinearOrder α] :
    ∀ (l acc : List (PQItem ι α)),
      acc.Pairwise (fun a b => a.priority ≤ b.priority) →
      (l.foldl (fun acc x => insertBehindLE x acc) acc).Pairwise
        (fun a b => a.priority ≤ b.priority) := by
  intro l
  induction l with
  | nil => intro acc h; simpa using h
  | cons x l ih =>
    intro acc h
    rw [List.foldl_cons]
    exact ih _ (insertBehindLE_sorted h)

theorem foldl_insert_stable {ι α : Type} [LinearOrder α] (r : ι → ι → Prop) :
    ∀ (l acc : List (PQItem ι α)),
      acc.Pairwise (fun a b => a.priority ≤ b.priority) →
      acc.Pairwise (fun a b => a.priority = b.priority → r a.item b.item) →
      l.Pairwise (fun a b => a.priority = b.priority → r a.item b.item) →
      (∀ a ∈ acc, ∀ x ∈ l, a.priority = x.priority → r a.item x.item) →
      (l.foldl (fun acc x => insertBehindLE x acc) acc).Pairwise
        (fun a b => a.priority = b.priority → r a.item b.item) := by
  intro l
  induction l with
  | nil => intro acc _ h2 _ _; simpa using h2
  | cons x l ih =>
    intro acc h1 h2 h3 h4
    rw [List.foldl_cons]
    rcases List.pairwise_cons.mp h3 with ⟨hx, hl⟩
    refine ih _ (insertBehindLE_sorted h1) ?_ hl ?_
    · refine insertBehindLE_stable r h1 h2 ?_
      intro a ha heq
      exact h4 a ha x (List.mem_cons_self x l) heq
    · intro a ha y hy heq
      rcases mem_insertBehindLE.mp ha with rfl | ha'
      · exact hx y hy heq
      · exact h4 a ha' y (List.mem_cons_of_mem x hy) heq

theorem sortByPriority_sorted {ι α : Type} [LinearOrder α] (l : List (PQItem ι α)) :
    (sortByPriority l).Pairwise (fun a b => a.priority ≤ b.priority) :=
  foldl_insert_sorted l [] (by simp)

theorem mem_sortByPriority {ι α : Type} [LinearOrder α] {a : PQItem ι α}
    {l : List (PQItem ι α)} : a ∈ sortByPriority l ↔ a ∈ l := by
  rw [sortByPriority, mem_foldl_insert]
  simp

theorem sortByPriority_stable {ι α : Type} [LinearOrder α] (r : ι → ι → Prop)
    {l : List (PQItem ι α)}
    (h : l.Pairwise (fun a b => a.priority = b.priority → r a.item b.item)) :
    (sortByPriority l).Pairwise
      (fun a b => a.priority = b.priority → r a.item b.item) :=
  foldl_insert_stable r l [] (by simp) (by simp) h (by simp)

theorem mem_enqueue {ι α : Type} [LinearOrder α] {a : PQItem ι α}
    {items : List (PQItem ι α)} {it : ι} {pr : α} :
    a ∈ enqueue items it pr ↔ a = ⟨it, pr⟩ ∨ a ∈ items := by
  rw [enqueue, mem_sortByPriority]
  simp
  tauto

theorem enqueue_sorted {ι α : Type} [LinearOrder α] (items : List (PQItem ι α))
    (it : ι) (pr : α) :
    (enqueue items it pr).Pairwise (fun a b => a.priority ≤ b.priority) :=
  sortByPriority_sorted _

end PriorityQueue

/-- Invariant of a priority-queue trace: after any sequence of operations
the `items` array is sorted by priority, entries of equal priority keep
their insertion order (their serial numbers increase), and all serial
numbers are below the next fresh one. -/
theorem PQrun_invariant (ops : List PQOp) :
    (PQrun ops).items.Pairwise (fun a b => a.priority ≤ b.priority) ∧
    (PQrun ops).items.Pairwise
      (fun a b => a.priority = b.priority → a.item < b.item) ∧
    ∀ a ∈ (PQrun ops).items, a.item < (PQrun ops).nextTag := by
  have main : ∀ (ops : List PQOp) (st : PQTrace),
      st.items.Pairwise (fun a b => a.priority ≤ b.priority) →
      st.items.Pairwise (fun a b => a.priority = b.priority → a.item < b.item) →
      (∀ a ∈ st.items, a.item < st.nextTag) →
      (ops.foldl PQrunStep st).items.Pairwise (fun a b => a.priority ≤ b.priority) ∧
      (ops.foldl PQrunStep st).items.Pairwise
        (fun a b => a.priority = b.priority → a.item < b.item) ∧
      ∀ a ∈ (ops.foldl PQrunStep st).items, a.item < (ops.foldl PQrunStep st).nextTag := by
    intro ops
    induction ops with
    | nil => intro st h1 h2 h3; exact ⟨h1, h2, h3⟩
    | cons op ops ih =>
      intro st h1 h2 h3
      rw [List.foldl_cons]
      apply ih
      · cases op with
        | enq p => exact PriorityQueue.enqueue_sorted _ _ _
        | deq => exact h1.tail
      · cases op with
        | enq p =>
          apply PriorityQueue.sortByPriority_stable
          rw [List.pairwise_append]
          refine ⟨h2, by simp, ?_⟩
          intro a ha b hb _
          simp at hb
          rw [hb]
          exact h3 a ha
        | deq => exact h2.tail
      · cases op with
        | enq p =>
          intro a ha
          rcases PriorityQueue.mem_enqueue.mp ha with rfl | ha'
          · exact Nat.lt_succ_self _
          · exact Nat.lt_succ_of_lt (h3 a ha')
        | deq =>
          intro a ha
          exact h3 a (List.mem_of_mem_tail ha)
  exact main ops ⟨[], 0⟩ (by simp) (by simp) (by simp)

/-- The head of a sorted item list has minimal priority. -/
theorem head_min_of_sorted {ι α : Type} [LinearOrder α] {items : List (PQItem ι α)}
    (h : items.Pairwise (fun a b => a.priority ≤ b.priority))
    {x : PQItem ι α} (hx : items.head? = some x) :
    ∀ y ∈ items, x.priority ≤ y.priority := by
  match items, hx with
  | a :: l, hx =>
    simp at hx
    intro y hy
    rcases List.mem_cons.mp hy with rfl | hy'
    · rw [hx]
    · rw [← hx]
      exact (List.pairwise_cons.mp h).1 y hy'


/-! ## Counting free cells -/

theorem mem_inBoundsFinset {g : Grid} {p : Pos} :
    p ∈ inBoundsFinset g ↔ inBoundsPos g p = true := by
  simp only [inBoundsFinset, Finset.mem_image, Finset.mem_product, Finset.mem_range,
    inBoundsPos, Bool.and_eq_true, decide_eq_true_eq]
  constructor
  · rintro ⟨⟨r, c⟩, ⟨hr, hc⟩, rfl⟩
    refine ⟨⟨⟨?_, ?_⟩, ?_⟩, ?_⟩
    · exact Int.natCast_nonneg r
    · show (r : Int) < (gridRows g : Int)
      exact_mod_cast hr
    · exact Int.natCast_nonneg c
    · show (c : Int) < (gridCols g : Int)
      exact_mod_cast hc
  · rintro ⟨⟨⟨h1, h2⟩, h3⟩, h4⟩
    refine ⟨(p.row.toNat, p.col.toNat), ⟨?_, ?_⟩, ?_⟩
    · omega
    · omega
    · show Pos.mk _ _ = p
      cases p with
      | mk pr pc =>
        simp only [Pos.mk.injEq]
        simp only at h1 h2 h3 h4
        omega

theorem mem_freeFinset {g : Grid} {p : Pos} :
    p ∈ freeFinset g ↔ validCell g p = true := by
  simp only [freeFinset, Finset.mem_filter, mem_inBoundsFinset]
  constructor
  · rintro ⟨_, h⟩; exact h
  · intro h
    refine ⟨?_, h⟩
    simp only [validCell, Bool.and_eq_true] at h
    exact h.1

theorem inBoundsFinset_card_le (g : Grid) :
    (inBoundsFinset g).card ≤ gridRows g * gridCols g := by
  calc (inBoundsFinset g).card
      ≤ (Finset.range (gridRows g) ×ˢ Finset.range (gridCols g)).card :=
        Finset.card_image_le
    _ = gridRows g * gridCols g := by simp [Finset.card_product]

theorem list_sum_range_eq {M : Type} [AddCommMonoid M] (f : Nat → M) (n : Nat) :
    ((List.range n).map f).sum = ∑ i ∈ Finset.range n, f i := by
  induction n with
  | zero => simp
  | succ n ih => rw [List.range_succ, Finset.sum_range_succ, List.map_append,
      List.sum_append, ih]; simp

theorem list_filter_range_card (b : Nat → Bool) (n : Nat) :
    ((List.range n).filter b).length =
      ((Finset.range n).filter (fun c => b c = true)).card := by
  induction n with
  | zero => simp
  | succ n ih =>
    rw [List.range_succ, List.filter_append, List.length_append,
      Finset.range_succ, Finset.filter_insert]
    by_cases hb : b n = true
    · rw [if_pos hb]
      rw [Finset.card_insert_of_not_mem (by simp)]
      simp [hb, ih]
    · rw [if_neg hb]
      simp [hb, ih]

theorem freeFinset_eq_biUnion (g : Grid) :
    freeFinset g = (Finset.range (gridRows g)).biUnion (fun r =>
      ((Finset.range (gridCols g)).filter
        (fun c => ((g.getD r []).getD c Cell.empty != Cell.obstacle) = true)).image
          (fun c : Nat => Pos.mk (r : Int) (c : Int))) := by
  ext p
  rw [mem_freeFinset]
  simp only [Finset.mem_biUnion, Finset.mem_image, Finset.mem_filter, Finset.mem_range,
    validCell, inBoundsPos, Bool.and_eq_true, decide_eq_true_eq, bne_iff_ne]
  constructor
  · rintro ⟨⟨⟨⟨h1, h2⟩, h3⟩, h4⟩, h5⟩
    refine ⟨p.row.toNat, by omega, p.col.toNat, ⟨by omega, ?_⟩, ?_⟩
    · simpa [cellAt] using h5
    · cases p with
      | mk pr pc =>
        simp only [Pos.mk.injEq]
        simp only at h1 h2 h3 h4
        omega
  · rintro ⟨r, hr, c, ⟨hc, hcell⟩, rfl⟩
    refine ⟨⟨⟨⟨Int.natCast_nonneg r, ?_⟩, Int.natCast_nonneg c⟩, ?_⟩, ?_⟩
    · show (r : Int) < (gridRows g : Int)
      exact_mod_cast hr
    · show (c : Int) < (gridCols g : Int)
      exact_mod_cast hc
    · simpa [cellAt] using hcell

theorem totalFreeSpaces_eq_card (g : Grid) :
    totalFreeSpaces g = (freeFinset g).card := by
  rw [freeFinset_eq_biUnion, Finset.card_biUnion]
  · rw [totalFreeSpaces, list_sum_range_eq]
    apply Finset.sum_congr rfl
    intro r _
    rw [Finset.card_image_of_injective _ (fun a b hab => by
      simpa using congrArg Pos.col hab)]
    exact list_filter_range_card _ _
  · intro r _ r' _ hrr'
    apply Finset.disjoint_left.mpr
    rintro p hp hp'
    simp only [Finset.mem_image, Finset.mem_filter] at hp hp'
    obtain ⟨c, _, rfl⟩ := hp
    obtain ⟨c', _, heq⟩ := hp'
    apply hrr'
    have h2 := congrArg Pos.row heq
    simp only at h2
    exact_mod_cast h2.symm

/-! ## The bfs loop: termination measure and genuine exits -/

theorem sdiff_insert_card_lt {s t : Finset Pos} {a : Pos} (h : a ∈ s \ t) :
    (s \ insert a t).card < (s \ t).card := by
  have heq : s \ insert a t = (s \ t).erase a := by
    ext x
    simp only [Finset.mem_sdiff, Finset.mem_erase, Finset.mem_insert]
    tauto
  rw [heq]
  exact Finset.card_erase_lt_of_mem h

theorem valid_mem_inBounds {g : Grid} {p : Pos} (h : validCell g p = true) :
    p ∈ inBoundsFinset g := by
  rw [mem_inBoundsFinset]
  simp only [validCell, Bool.and_eq_true] at h
  exact h.1

theorem bfsExpandDir_measure (g : Grid) (terrain : Option Terrain)
    (cur : SearchEntry) (st : SearchState) (d : Pos) :
    searchMeasure g (bfsExpandDir g terrain cur st d) ≤ searchMeasure g st := by
  rw [bfsExpandDir]
  split
  · rename_i hcond
    have hmem : stepPos cur.pos d ∈ inBoundsFinset g \ st.visited.toFinset := by
      rw [Finset.mem_sdiff, List.mem_toFinset]
      exact ⟨valid_mem_inBounds hcond.1, hcond.2⟩
    have hlt := sdiff_insert_card_lt hmem
    simp only [searchMeasure, List.toFinset_cons, List.length_append,
      List.length_singleton]
    omega
  · exact le_refl _

theorem bfs_foldExpand_measure (g : Grid) (terrain : Option Terrain)
    (cur : SearchEntry) :
    ∀ (ds : List Pos) (st : SearchState),
      searchMeasure g (ds.foldl (bfsExpandDir g terrain cur) st) ≤ searchMeasure g st := by
  intro ds
  induction ds with
  | nil => intro st; exact le_refl _
  | cons d ds ih =>
    intro st
    rw [List.foldl_cons]
    exact le_trans (ih _) (bfsExpandDir_measure g terrain cur st d)

theorem bfsStep_nil {g : Grid} {goal : Pos} {opt : ℚ} {terrain : Option Terrain}
    {st : SearchState} (hq : st.queue = []) :
    bfsStep g goal opt terrain st = .inl (searchFailResult g terrain st) := by
  rw [bfsStep, hq]

theorem bfsStep_goal {g : Grid} {goal : Pos} {opt : ℚ} {terrain : Option Terrain}
    {st : SearchState} {cur : SearchEntry} {rest : List SearchEntry}
    (hq : st.queue = cur :: rest) (hg : cur.pos = goal) :
    bfsStep g goal opt terrain st = .inl (searchSuccessResult g opt terrain cur
      { st with
        queue := rest
        nodesExpanded := st.nodesExpanded + 1
        visitedNodes := st.visitedNodes ++ [cur.pos] }) := by
  rw [bfsStep, hq]
  simp [hg]

theorem bfsStep_expand {g : Grid} {goal : Pos} {opt : ℚ} {terrain : Option Terrain}
    {st : SearchState} {cur : SearchEntry} {rest : List SearchEntry}
    (hq : st.queue = cur :: rest) (hg : cur.pos ≠ goal) :
    bfsStep g goal opt terrain st = .inr (directions.foldl (bfsExpandDir g terrain cur)
      { st with
        queue := rest
        nodesExpanded := st.nodesExpanded + 1
        visitedNodes := st.visitedNodes ++ [cur.pos] }) := by
  rw [bfsStep, hq]
  simp [hg]

theorem bfsStep_inr_elim {g : Grid} {goal : Pos} {opt : ℚ} {terrain : Option Terrain}
    {st st' : SearchState} (h : bfsStep g goal opt terrain st = .inr st') :
    ∃ cur rest, st.queue = cur :: rest ∧ cur.pos ≠ goal ∧
      st' = directions.foldl (bfsExpandDir g terrain cur)
        { st with
          queue := rest
          nodesExpanded := st.nodesExpanded + 1
          visitedNodes := st.visitedNodes ++ [cur.pos] } := by
  cases hq : st.queue with
  | nil => rw [bfsStep_nil hq] at h; exact absurd h (by simp)
  | cons cur rest =>
    by_cases hg : cur.pos = goal
    · rw [bfsStep_goal hq hg] at h; exact absurd h (by simp)
    · rw [bfsStep_expand hq hg] at h
      injection h with h
      exact ⟨cur, rest, rfl, hg, h.symm⟩

theorem bfsStep_inl_elim {g : Grid} {goal : Pos} {opt : ℚ} {terrain : Option Terrain}
    {st : SearchState} {r : SearchResult} (h : bfsStep g goal opt terrain st = .inl r) :
    (st.queue = [] ∧ r = searchFailResult g terrain st) ∨
    (∃ cur rest, st.queue = cur :: rest ∧ cur.pos = goal ∧
      r = searchSuccessResult g opt terrain cur
        { st with
          queue := rest
          nodesExpanded := st.nodesExpanded + 1
          visitedNodes := st.visitedNodes ++ [cur.pos] }) := by
  cases hq : st.queue with
  | nil =>
    rw [bfsStep_nil hq] at h
    injection h with h
    exact Or.inl ⟨rfl, h.symm⟩
  | cons cur rest =>
    by_cases hg : cur.pos = goal
    · rw [bfsStep_goal hq hg] at h
      injection h with h
      exact Or.inr ⟨cur, rest, rfl, hg, h.symm⟩
    · rw [bfsStep_expand hq hg] at h
      exact absurd h (by simp)

theorem bfsStep_measure {g : Grid} {goal : Pos} {opt : ℚ} {terrain : Option Terrain}
    {st st' : SearchState} (h : bfsStep g goal opt terrain st = .inr st') :
    searchMeasure g st' < searchMeasure g st := by
  obtain ⟨cur, rest, hq, _, rfl⟩ := bfsStep_inr_elim h
  calc searchMeasure g _ ≤ _ := bfs_foldExpand_measure g terrain cur directions _
  _ < searchMeasure g st := by
    simp only [searchMeasure, hq]
    simp

theorem bfsLoop_exit (g : Grid) (goal : Pos) (opt : ℚ) (terrain : Option Terrain) :
    ∀ (fuel : Nat) (st : SearchState), searchMeasure g st ≤ fuel →
      ∃ stf, BfsReaches g goal opt terrain st stf ∧
        bfsStep g goal opt terrain stf = .inl (bfsLoop g goal opt terrain fuel st) := by
  intro fuel
  induction fuel with
  | zero =>
    intro st hm
    have hq : st.queue = [] := by
      simp only [searchMeasure, Nat.le_zero] at hm
      exact List.length_eq_zero.mp (by omega)
    exact ⟨st, Relation.ReflTransGen.refl, by rw [bfsLoop, bfsStep_nil hq]⟩
  | succ fuel ih =>
    intro st hm
    rw [bfsLoop]
    match h : bfsStep g goal opt terrain st with
    | .inl r => exact ⟨st, Relation.ReflTransGen.refl, h⟩
    | .inr st' =>
      have hlt := bfsStep_measure h
      obtain ⟨stf, hreach, hexit⟩ := ih st' (by omega)
      exact ⟨stf, Relation.ReflTransGen.head h hreach, hexit⟩

theorem searchMeasure_init_le (g : Grid) (start : Pos) :
    searchMeasure g (searchInit start) ≤ searchFuel g := by
  have h1 : ((inBoundsFinset g) \ (searchInit start).visited.toFinset).card ≤
      gridRows g * gridCols g :=
    le_trans (Finset.card_le_card (Finset.sdiff_subset)) (inBoundsFinset_card_le g)
  simp only [searchMeasure, searchInit, searchFuel] at h1 ⊢
  simp only [List.length_singleton]
  omega

/-- What one pass of the `bfs` neighbour loop does to the state, described
by the list of entries it pushes. -/
theorem bfsExpand_spec (g : Grid) (terrain : Option Terrain) (cur : SearchEntry) :
    ∀ (ds : List Pos) (st : SearchState),
      ∃ pushed : List SearchEntry,
        (ds.foldl (bfsExpandDir g terrain cur) st).queue = st.queue ++ pushed ∧
        (ds.foldl (bfsExpandDir g terrain cur) st).visited =
          (pushed.map (fun e => e.pos)).reverse ++ st.visited ∧
        (ds.foldl (bfsExpandDir g terrain cur) st).visitedNodes = st.visitedNodes ∧
        (ds.foldl (bfsExpandDir g terrain cur) st).nodesExpanded = st.nodesExpanded ∧
        (pushed.map (fun e => e.pos)).Nodup ∧
        (∀ e ∈ pushed, e.pos ∉ st.visited ∧ e.path = cur.path ++ [e.pos] ∧
          e.cost = cur.cost + getTerrainCost terrain e.pos ∧ validCell g e.pos = true ∧
          ∃ d ∈ ds, stepPos cur.pos d = e.pos) ∧
        (∀ d ∈ ds, validCell g (stepPos cur.pos d) = true →
          stepPos cur.pos d ∈ (ds.foldl (bfsExpandDir g terrain cur) st).visited) := by
  intro ds
  induction ds with
  | nil =>
    intro st
    exact ⟨[], by simp, by simp, rfl, rfl, by simp, by simp, by simp⟩
  | cons d ds ih =>
    intro st
    rw [List.foldl_cons]
    by_cases hcond : validCell g (stepPos cur.pos d) = true ∧ stepPos cur.pos d ∉ st.visited
    · have hexp : bfsExpandDir g terrain cur st d =
          { st with
            visited := stepPos cur.pos d :: st.visited
            totalSuccessors := st.totalSuccessors + 1
            queue := st.queue ++ [⟨stepPos cur.pos d, cur.path ++ [stepPos cur.pos d],
              cur.cost + getTerrainCost terrain (stepPos cur.pos d)⟩] } := by
        simp only [bfsExpandDir]
        rw [if_pos hcond]
      obtain ⟨pushed, hqu, hvis, hvn, hne, hnd, hent, hclo⟩ := ih (bfsExpandDir g terrain cur st d)
      refine ⟨⟨stepPos cur.pos d, cur.path ++ [stepPos cur.pos d],
        cur.cost + getTerrainCost terrain (stepPos cur.pos d)⟩ :: pushed, ?_, ?_, ?_, ?_, ?_, ?_, ?_⟩
      · rw [hqu, hexp]
        simp
      · rw [hvis, hexp]
        simp
      · rw [hvn, hexp]
      · rw [hne, hexp]
      · simp only [List.map_cons, List.nodup_cons]
        refine ⟨?_, hnd⟩
        intro hmem
        simp only [List.mem_map] at hmem
        obtain ⟨e, he, hpos⟩ := hmem
        have := (hent e he).1
        rw [hexp] at this
        simp at this
        exact this.1 hpos
      · intro e he
        rcases List.mem_cons.mp he with rfl | he'
        · exact ⟨hcond.2, rfl, rfl, hcond.1, d, List.mem_cons_self d ds, rfl⟩
        · obtain ⟨h1, h2, h3, h4, dd, hdd, h5⟩ := hent e he'
          rw [hexp] at h1
          simp at h1
          exact ⟨h1.2, h2, h3, h4, dd, List.mem_cons_of_mem d hdd, h5⟩
      · intro d' hd' hvalid
        rcases List.mem_cons.mp hd' with rfl | hd''
        · rw [hvis, hexp]
          simp
        · exact hclo d' hd'' hvalid
    · have hexp : bfsExpandDir g terrain cur st d = st := by
        simp only [bfsExpandDir]
        rw [if_neg hcond]
      rw [hexp]
      obtain ⟨pushed, hqu, hvis, hvn, hne, hnd, hent, hclo⟩ := ih st
      refine ⟨pushed, hqu, hvis, hvn, hne, hnd, ?_, ?_⟩
      · intro e he
        obtain ⟨h1, h2, h3, h4, dd, hdd, h5⟩ := hent e he
        exact ⟨h1, h2, h3, h4, dd, List.mem_cons_of_mem d hdd, h5⟩
      · intro d' hd' hvalid
        rcases List.mem_cons.mp hd' with rfl | hd''
        · have hmem : stepPos cur.pos d' ∈ st.visited := by
            by_contra hno
            exact hcond ⟨hvalid, hno⟩
          rw [hvis]
          simp [hmem]
        · exact hclo d' hd'' hvalid

/-! ## The bfs loop invariant -/

theorem bfsInv_init {g : Grid} {start goal : Pos} {terrain : Option Terrain}
    (hs : validCell g start = true) :
    BfsInv g start goal terrain (searchInit start) := by
  refine ⟨?_, ?_, ?_, ?_, ?_, ?_, ?_, ?_, ?_, ?_, ?_, ?_⟩
  · intro e he
    simp only [searchInit, List.mem_singleton] at he
    rw [he]
    exact IsPath.single hs
  · intro e he
    simp only [searchInit, List.mem_singleton] at he
    rw [he]
    rfl
  · intro p
    simp [searchInit, eq_comm]
  · simp [searchInit]
  · rfl
  · intro w hw
    simp [searchInit] at hw
  · simp [searchInit]
  · simp [searchInit]
  · intro p hp
    simp [searchInit] at hp
  · intro e he
    simp only [searchInit, List.mem_singleton] at he
    rw [he]
    exact (shortestLen_start hs).symm
  · simp [searchInit]
  · intro e he p hreach hlen
    simp only [searchInit, List.head?_cons, Option.some.injEq] at he
    rw [← he] at hlen
    simp only [List.length_singleton] at hlen
    have := eq_start_of_shortestLen_le_one hreach hlen
    simp [searchInit, this]

theorem bfsInv_step {g : Grid} {start goal : Pos} {opt : ℚ} {terrain : Option Terrain}
    {st st' : SearchState} (hinv : BfsInv g start goal terrain st)
    (h : bfsStep g goal opt terrain st = .inr st') :
    BfsInv g start goal terrain st' := by
  obtain ⟨cur, rest, hq, hg, rfl⟩ := bfsStep_inr_elim h
  obtain ⟨pushed, hqu, hvis, hvn, hne, hnd, hent, hclo⟩ :=
    bfsExpand_spec g terrain cur directions
      { st with
        queue := rest
        nodesExpanded := st.nodesExpanded + 1
        visitedNodes := st.visitedNodes ++ [cur.pos] }
  simp only at hqu hvis hvn hne hent hclo
  have hcur_mem : cur ∈ st.queue := by rw [hq]; exact List.mem_cons_self _ _
  have hcurpath : IsPath g start cur.pos cur.path := hinv.q_path cur hcur_mem
  have hReach_cur : Reach g start cur.pos := ⟨cur.path, hcurpath⟩
  have hcur_geo : cur.path.length = shortestLen g start cur.pos := hinv.geo cur hcur_mem
  have hfront : ∀ p, Reach g start p →
      shortestLen g start p ≤ cur.path.length → p ∈ st.visited :=
    hinv.frontier cur (by rw [hq]; rfl)
  have hLpos : 1 ≤ cur.path.length := List.length_pos.mpr hcurpath.ne_nil
  -- facts about each pushed entry
  have hstep_pushed : ∀ e ∈ pushed, isStep g cur.pos e.pos = true := by
    intro e he
    obtain ⟨_, _, _, hvalid, hd⟩ := hent e he
    exact isStep_of_dir hd hvalid
  have hpath_pushed : ∀ e ∈ pushed, IsPath g start e.pos e.path := by
    intro e he
    obtain ⟨_, hpath, _, _, _⟩ := hent e he
    rw [hpath]
    exact hcurpath.append (hstep_pushed e he)
  have hlen_pushed : ∀ e ∈ pushed, e.path.length = cur.path.length + 1 := by
    intro e he
    obtain ⟨_, hpath, _, _, _⟩ := hent e he
    rw [hpath]
    simp
  have hgeo_pushed : ∀ e ∈ pushed, shortestLen g start e.pos = cur.path.length + 1 := by
    intro e he
    obtain ⟨hnv, _, _, _, _⟩ := hent e he
    have hle : shortestLen g start e.pos ≤ shortestLen g start cur.pos + 1 :=
      shortestLen_le_succ hReach_cur (hstep_pushed e he)
    have hge : cur.path.length + 1 ≤ shortestLen g start e.pos := by
      by_contra hlt
      push_neg at hlt
      have : e.pos ∈ st.visited :=
        hfront e.pos (hReach_cur.snoc (hstep_pushed e he)) (by omega)
      exact hnv this
    omega
  have hrest_lens : ∀ e ∈ rest, cur.path.length ≤ e.path.length ∧
      e.path.length ≤ cur.path.length + 1 := by
    have := hinv.lens
    rw [hq] at this
    exact (List.pairwise_cons.mp this).1
  have hrest_pairwise : rest.Pairwise (fun a b => a.path.length ≤ b.path.length ∧
      b.path.length ≤ a.path.length + 1) := by
    have := hinv.lens
    rw [hq] at this
    exact (List.pairwise_cons.mp this).2
  -- membership in the new visited set
  have hvis_mem : ∀ p, p ∈ (directions.foldl (bfsExpandDir g terrain cur)
      { st with
        queue := rest
        nodesExpanded := st.nodesExpanded + 1
        visitedNodes := st.visitedNodes ++ [cur.pos] }).visited ↔
      (∃ e ∈ pushed, e.pos = p) ∨ p ∈ st.visited := by
    intro p
    rw [hvis]
    simp only [List.mem_append, List.mem_reverse, List.mem_map]
  have hvisited_sub : ∀ p, p ∈ st.visited → p ∈ (directions.foldl (bfsExpandDir g terrain cur)
      { st with
        queue := rest
        nodesExpanded := st.nodesExpanded + 1
        visitedNodes := st.visitedNodes ++ [cur.pos] }).visited := by
    intro p hp
    rw [hvis_mem]
    exact Or.inr hp
  refine ⟨?_, ?_, ?_, ?_, ?_, ?_, ?_, ?_, ?_, ?_, ?_, ?_⟩
  · -- q_path
    intro e he
    rw [hqu] at he
    rcases List.mem_append.mp he with he' | he'
    · exact hinv.q_path e (by rw [hq]; exact List.mem_cons_of_mem _ he')
    · exact hpath_pushed e he'
  · -- q_cost
    intro e he
    rw [hqu] at he
    rcases List.mem_append.mp he with he' | he'
    · exact hinv.q_cost e (by rw [hq]; exact List.mem_cons_of_mem _ he')
    · obtain ⟨_, hpath, hcost, _, _⟩ := hent e he'
      rw [hcost, hpath, walkCost_append_last _ _ hcurpath.ne_nil,
        hinv.q_cost cur hcur_mem]
  · -- visited_eq
    intro p
    rw [hvis_mem, hvn, hqu]
    have hold := hinv.visited_eq p
    rw [hq] at hold
    simp only [List.mem_cons] at hold
    simp only [List.mem_append, List.mem_singleton]
    constructor
    · rintro (⟨e, he, rfl⟩ | hp)
      · exact Or.inr ⟨e, Or.inr he, rfl⟩
      · rcases hold.mp hp with hvn' | ⟨e, he, rfl⟩
        · exact Or.inl (Or.inl hvn')
        · rcases he with rfl | he'
          · exact Or.inl (Or.inr rfl)
          · exact Or.inr ⟨e, Or.inl he', rfl⟩
    · rintro ((hvn' | rfl) | ⟨e, he, rfl⟩)
      · exact Or.inr (hold.mpr (Or.inl hvn'))
      · exact Or.inr (hold.mpr (Or.inr ⟨cur, Or.inl rfl, rfl⟩))
      · rcases he with he' | he'
        · exact Or.inr (hold.mpr (Or.inr ⟨e, Or.inr he', rfl⟩))
        · exact Or.inl ⟨e, he', rfl⟩
  · -- nodup
    rw [hqu, hvn]
    simp only [List.map_append]
    have hre : st.visitedNodes ++ [cur.pos] ++ (rest.map (fun e => e.pos) ++
        pushed.map (fun e => e.pos)) = (st.visitedNodes ++ cur.pos :: rest.map (fun e => e.pos))
        ++ pushed.map (fun e => e.pos) := by
      simp
    rw [hre, List.nodup_append]
    have holdnodup := hinv.nodup
    rw [hq] at holdnodup
    simp only [List.map_cons] at holdnodup
    refine ⟨holdnodup, hnd, ?_⟩
    intro p hp hp'
    simp only [List.mem_map] at hp'
    obtain ⟨e, he, rfl⟩ := hp'
    obtain ⟨hnv, _, _, _, _⟩ := hent e he
    apply hnv
    rw [hinv.visited_eq]
    rcases List.mem_append.mp hp with hvn' | hqp
    · exact Or.inl hvn'
    · rcases List.mem_cons.mp hqp with heq | hqp'
      · refine Or.inr ⟨cur, hcur_mem, heq.symm⟩
      · simp only [List.mem_map] at hqp'
        obtain ⟨e', he', heq⟩ := hqp'
        exact Or.inr ⟨e', by rw [hq]; exact List.mem_cons_of_mem _ he', heq⟩
  · -- count
    rw [hvn, hne]
    simp [hinv.count]
  · -- closure
    intro w hw d hd hvalid
    rw [hvn] at hw
    rcases List.mem_append.mp hw with hw' | hw'
    · exact hvisited_sub _ (hinv.closure w hw' d hd hvalid)
    · rw [List.mem_singleton] at hw'
      rw [hw'] at hvalid ⊢
      exact hclo d hd hvalid
  · -- start_mem
    exact hvisited_sub _ hinv.start_mem
  · -- goal_not
    rw [hvn]
    simp only [List.mem_append, List.mem_singleton]
    rintro (hgn | rfl)
    · exact hinv.goal_not hgn
    · exact hg rfl
  · -- vn_valid
    intro p hp
    rw [hvn] at hp
    rcases List.mem_append.mp hp with hp' | hp'
    · exact hinv.vn_valid p hp'
    · rw [List.mem_singleton] at hp'
      rw [hp']
      exact hcurpath.last_valid
  · -- geo
    intro e he
    rw [hqu] at he
    rcases List.mem_append.mp he with he' | he'
    · exact hinv.geo e (by rw [hq]; exact List.mem_cons_of_mem _ he')
    · rw [hlen_pushed e he', hgeo_pushed e he']
  · -- lens
    rw [hqu, List.pairwise_append]
    refine ⟨hrest_pairwise, ?_, ?_⟩
    · refine List.pairwise_of_forall_mem_list ?_
      intro a ha b hb
      rw [hlen_pushed a ha, hlen_pushed b hb]
      omega
    · intro a ha b hb
      have h1 := hrest_lens a ha
      have h2 := hlen_pushed b hb
      omega
  · -- frontier
    intro eh heh p hreach hlen
    rw [hqu] at heh
    have heh_mem : eh ∈ rest ++ pushed := by
      cases hre : rest ++ pushed with
      | nil => rw [hre] at heh; simp at heh
      | cons a l =>
        rw [hre] at heh
        simp at heh
        subst heh
        exact List.mem_cons_self _ _
    have heh_len : eh.path.length ≤ cur.path.length + 1 := by
      rcases List.mem_append.mp heh_mem with he' | he'
      · exact (hrest_lens eh he').2
      · rw [hlen_pushed eh he']
    rcases Nat.lt_or_ge (shortestLen g start p) (cur.path.length + 1) with hcase | hcase
    · exact hvisited_sub _ (hfront p hreach (by omega))
    · -- shortestLen p = cur.path.length + 1
      have hsl : shortestLen g start p = cur.path.length + 1 := by omega
      have hL2 : ∃ m, shortestLen g start p = m + 2 := ⟨cur.path.length - 1, by omega⟩
      obtain ⟨m, hm⟩ := hL2
      obtain ⟨w, hwstep, hwreach, hwlen⟩ := exists_pred_of_shortestLen hreach hm
      have hwlen' : shortestLen g start w = cur.path.length := by omega
      have hw_vis : w ∈ st.visited := hfront w hwreach (by omega)
      rw [hinv.visited_eq] at hw_vis
      rcases hw_vis with hw_vn | ⟨e0, he0, he0pos⟩
      · -- w was expanded before: closure gives p visited
        obtain ⟨d, hd, hdp⟩ := isStep_dir hwstep
        have := hinv.closure w hw_vn d hd (by rw [hdp]; exact isStep_valid hwstep)
        rw [hdp] at this
        exact hvisited_sub _ this
      · rw [hq] at he0
        rcases List.mem_cons.mp he0 with rfl | he0'
        · -- w is the position just expanded
          obtain ⟨d, hd, hdp⟩ := isStep_dir hwstep
          rw [← he0pos] at hdp
          have := hclo d hd (by rw [hdp]; exact isStep_valid hwstep)
          rw [hdp] at this
          exact this
        · -- an entry of rest at the old layer: impossible at the new front
          exfalso
          have he0len : e0.path.length = cur.path.length := by
            rw [hinv.geo e0 (by rw [hq]; exact List.mem_cons_of_mem _ he0'), he0pos, hwlen']
          -- the new head has length cur.path.length + 1
          have hhead_len : cur.path.length + 1 ≤ eh.path.length := by
            omega
          -- eh is the head of rest ++ pushed; if rest nonempty eh is its head
          cases hrestc : rest with
          | nil => rw [hrestc] at he0'; simp at he0'
          | cons a l =>
            rw [hrestc] at heh
            simp at heh
            subst heh
            rw [hrestc] at he0'
            rcases List.mem_cons.mp he0' with he0a | he0''
            · -- e0 is the head: its length is both L and at least L + 1
              rw [he0a] at he0len
              omega
            · -- e0 comes after the head in rest, which is sorted
              have hle0 : a.path.length ≤ e0.path.length := by
                rw [hrestc] at hrest_pairwise
                exact ((List.pairwise_cons.mp hrest_pairwise).1 e0 he0'').1
              omega

theorem bfsInv_reaches {g : Grid} {start goal : Pos} {opt : ℚ} {terrain : Option Terrain}
    {st stf : SearchState} (hinv : BfsInv g start goal terrain st)
    (h : BfsReaches g goal opt terrain st stf) : BfsInv g start goal terrain stf := by
  induction h with
  | refl => exact hinv
  | tail _ hstep ih => exact bfsInv_step ih hstep

/-- A set of positions containing `s` and closed under valid moves
contains everything reachable from `s`. -/
theorem reach_subset_of_closed {g : Grid} {V : List Pos} {s : Pos}
    (hs : s ∈ V)
    (hclosed : ∀ w ∈ V, ∀ d ∈ directions,
      validCell g (stepPos w d) = true → stepPos w d ∈ V) :
    ∀ p, Reach g s p → p ∈ V := by
  have aux : ∀ (l : List Pos) (s' p : Pos), s' ∈ V → IsPath g s' p l → p ∈ V := by
    intro l
    induction l with
    | nil => intro s' p _ hpath; exact absurd rfl hpath.ne_nil
    | cons a l ih =>
      intro s' p hs' hpath
      have ha : a = s' := hpath.start_eq
      cases l with
      | nil =>
        obtain ⟨h1, h2⟩ := hpath.single_eq
        rw [← h2, h1]
        exact hs'
      | cons b l' =>
        obtain ⟨h1, h2, h3, h4⟩ := hpath
        have hstep : isStep g a b = true := (List.chain'_cons.mp h4).1
        obtain ⟨d, hd, hdb⟩ := isStep_dir hstep
        have hb : b ∈ V := by
          rw [← hdb]
          rw [ha] at hdb ⊢
          exact hclosed s' hs' d hd (by rw [hdb]; exact isStep_valid hstep)
        have htail : IsPath g b p (b :: l') := by
          refine ⟨rfl, ?_, isStep_valid hstep, (List.chain'_cons.mp h4).2⟩
          simpa using h2
        exact ih b p hb htail
  rintro p ⟨l, hl⟩
  exact aux l s p hs hl

/-- Everything the returned record of `bfs` guarantees, for a valid start
position: path validity and cost on success, fewest-position optimality
of the returned path, empty path on failure, counter consistency, and
success exactly on reachability. -/
theorem bfs_run_spec {g : Grid} {start goal : Pos} {opt : ℚ} {terrain : Option Terrain}
    (hs : validCell g start = true) {r : SearchResult}
    (hr : r = bfs g start goal opt terrain) :
    (r.success = true →
      IsPath g start goal r.path ∧
      r.pathCost = some (walkCost terrain r.path) ∧
      r.pathLength = r.path.length ∧
      IsLeast (lenSet g start goal) r.pathLength ∧
      r.pathOptimalityRatio = some (opt / (r.pathLength : ℚ))) ∧
    (r.success = false → r.path = [] ∧ r.pathCost = none ∧ goal ∉ r.visitedNodes) ∧
    r.nodesExpanded = r.visitedNodes.length ∧
    r.visitedNodes.Nodup ∧
    (∀ p ∈ r.visitedNodes, validCell g p = true) ∧
    r.completionPercentage = (r.nodesExpanded : ℚ) / (r.totalFreeSpaces : ℚ) * 100 ∧
    r.totalFreeSpaces = totalFreeSpaces g ∧
    r.totalSuccessors = none ∧
    (r.success = true ↔ Reach g start goal) := by
  obtain ⟨stf, hreach, hexit⟩ := bfsLoop_exit g goal opt terrain (searchFuel g)
    (searchInit start) (searchMeasure_init_le g start)
  rw [← bfs] at hexit
  have hinvf : BfsInv g start goal terrain stf :=
    bfsInv_reaches (bfsInv_init hs) hreach
  rw [← hr] at hexit
  rcases bfsStep_inl_elim hexit with ⟨hqnil, rfl⟩ | ⟨cur, rest, hq, hgoal, rfl⟩
  · -- failure: the queue emptied without reaching the goal
    have hnotreach : ¬ Reach g start goal := by
      intro hre
      have hclosed : ∀ w ∈ stf.visited, ∀ d ∈ directions,
          validCell g (stepPos w d) = true → stepPos w d ∈ stf.visited := by
        intro w hw d hd hv
        have hw' : w ∈ stf.visitedNodes := by
          rcases (hinvf.visited_eq w).mp hw with h' | ⟨e, he, _⟩
          · exact h'
          · rw [hqnil] at he; simp at he
        exact hinvf.closure w hw' d hd hv
      have hgv : goal ∈ stf.visited :=
        reach_subset_of_closed hinvf.start_mem hclosed goal hre
      rcases (hinvf.visited_eq goal).mp hgv with h' | ⟨e, he, _⟩
      · exact hinvf.goal_not h'
      · rw [hqnil] at he; simp at he
    refine ⟨?_, ?_, ?_, ?_, ?_, ?_, ?_, ?_, ?_⟩
    · intro hsucc
      simp [searchFailResult] at hsucc
    · intro _
      exact ⟨rfl, rfl, hinvf.goal_not⟩
    · exact hinvf.count
    · have := hinvf.nodup
      exact (List.nodup_append.mp this).1
    · exact hinvf.vn_valid
    · rfl
    · rfl
    · rfl
    · constructor
      · intro hsucc
        simp [searchFailResult] at hsucc
      · intro hre
        exact absurd hre hnotreach
  · -- success: the popped entry is the goal
    have hcur_mem : cur ∈ stf.queue := by rw [hq]; exact List.mem_cons_self _ _
    have hcurpath : IsPath g start goal cur.path := by
      have := hinvf.q_path cur hcur_mem
      rwa [hgoal] at this
    have hnodup1 : (stf.visitedNodes ++ [cur.pos]).Nodup := by
      have := hinvf.nodup
      rw [hq] at this
      simp only [List.map_cons] at this
      have heq : stf.visitedNodes ++ cur.pos :: (rest.map (fun e => e.pos)) =
          (stf.visitedNodes ++ [cur.pos]) ++ rest.map (fun e => e.pos) := by simp
      rw [heq] at this
      exact (List.nodup_append.mp this).1
    refine ⟨?_, ?_, ?_, ?_, ?_, ?_, ?_, ?_, ?_⟩
    · intro _
      refine ⟨hcurpath, ?_, rfl, ?_, rfl⟩
      · simp only [searchSuccessResult]
        rw [hinvf.q_cost cur hcur_mem]
      · constructor
        · exact ⟨cur.path, hcurpath, rfl⟩
        · intro n hn
          have hg := hinvf.geo cur hcur_mem
          rw [hgoal] at hg
          simp only [searchSuccessResult]
          rw [hg]
          exact shortestLen_le hn
    · intro hsucc
      simp [searchSuccessResult] at hsucc
    · simp only [searchSuccessResult]
      simp [hinvf.count]
    · exact hnodup1
    · intro p hp
      simp only [searchSuccessResult] at hp
      rcases List.mem_append.mp hp with hp' | hp'
      · exact hinvf.vn_valid p hp'
      · rw [List.mem_singleton] at hp'
        rw [hp', hgoal]
        exact hcurpath.last_valid
    · rfl
    · rfl
    · rfl
    · constructor
      · intro _
        exact ⟨cur.path, hcurpath⟩
      · intro _
        rfl

/-! ## The dfs loop -/

theorem dfsExpandDir_measure (g : Grid) (terrain : Option Terrain)
    (cur : SearchEntry) (st : SearchState) (d : Pos) :
    searchMeasure g (dfsExpandDir g terrain cur st d) ≤ searchMeasure g st := by
  rw [dfsExpandDir]
  split
  · rename_i hcond
    have hmem : stepPos cur.pos d ∈ inBoundsFinset g \ st.visited.toFinset := by
      rw [Finset.mem_sdiff, List.mem_toFinset]
      exact ⟨valid_mem_inBounds hcond.1, hcond.2⟩
    have hlt := sdiff_insert_card_lt hmem
    simp only [searchMeasure, List.toFinset_cons, List.length_cons]
    omega
  · exact le_refl _

theorem dfs_foldExpand_measure (g : Grid) (terrain : Option Terrain)
    (cur : SearchEntry) :
    ∀ (ds : List Pos) (st : SearchState),
      searchMeasure g (ds.foldl (dfsExpandDir g terrain cur) st) ≤ searchMeasure g st := by
  intro ds
  induction ds with
  | nil => intro st; exact le_refl _
  | cons d ds ih =>
    intro st
    rw [List.foldl_cons]
    exact le_trans (ih _) (dfsExpandDir_measure g terrain cur st d)

theorem dfsStep_nil {g : Grid} {goal : Pos} {opt : ℚ} {terrain : Option Terrain}
    {st : SearchState} (hq : st.queue = []) :
    dfsStep g goal opt terrain st = .inl (searchFailResult g terrain st) := by
  rw [dfsStep, hq]

theorem dfsStep_goal {g : Grid} {goal : Pos} {opt : ℚ} {terrain : Option Terrain}
    {st : SearchState} {cur : SearchEntry} {rest : List SearchEntry}
    (hq : st.queue = cur :: rest) (hg : cur.pos = goal) :
    dfsStep g goal opt terrain st = .inl (searchSuccessResult g opt terrain cur
      { st with
        queue := rest
        nodesExpanded := st.nodesExpanded + 1
        visitedNodes := st.visitedNodes ++ [cur.pos] }) := by
  rw [dfsStep, hq]
  simp [hg]

theorem dfsStep_expand {g : Grid} {goal : Pos} {opt : ℚ} {terrain : Option Terrain}
    {st : SearchState} {cur : SearchEntry} {rest : List SearchEntry}
    (hq : st.queue = cur :: rest) (hg : cur.pos ≠ goal) :
    dfsStep g goal opt terrain st = .inr (directions.reverse.foldl (dfsExpandDir g terrain cur)
      { st with
        queue := rest
        nodesExpanded := st.nodesExpanded + 1
        visitedNodes := st.visitedNodes ++ [cur.pos] }) := by
  rw [dfsStep, hq]
  simp [hg]

theorem dfsStep_inr_elim {g : Grid} {goal : Pos} {opt : ℚ} {terrain : Option Terrain}
    {st st' : SearchState} (h : dfsStep g goal opt terrain st = .inr st') :
    ∃ cur rest, st.queue = cur :: rest ∧ cur.pos ≠ goal ∧
      st' = directions.reverse.foldl (dfsExpandDir g terrain cur)
        { st with
          queue := rest
          nodesExpanded := st.nodesExpanded + 1
          visitedNodes := st.visitedNodes ++ [cur.pos] } := by
  cases hq : st.queue with
  | nil => rw [dfsStep_nil hq] at h; exact absurd h (by simp)
  | cons cur rest =>
    by_cases hg : cur.pos = goal
    · rw [dfsStep_goal hq hg] at h; exact absurd h (by simp)
    · rw [dfsStep_expand hq hg] at h
      injection h with h
      exact ⟨cur, rest, rfl, hg, h.symm⟩

theorem dfsStep_inl_elim {g : Grid} {goal : Pos} {opt : ℚ} {terrain : Option Terrain}
    {st : SearchState} {r : SearchResult} (h : dfsStep g goal opt terrain st = .inl r) :
    (st.queue = [] ∧ r = searchFailResult g terrain st) ∨
    (∃ cur rest, st.queue = cur :: rest ∧ cur.pos = goal ∧
      r = searchSuccessResult g opt terrain cur
        { st with
          queue := rest
          nodesExpanded := st.nodesExpanded + 1
          visitedNodes := st.visitedNodes ++ [cur.pos] }) := by
  cases hq : st.queue with
  | nil =>
    rw [dfsStep_nil hq] at h
    injection h with h
    exact Or.inl ⟨rfl, h.symm⟩
  | cons cur rest =>
    by_cases hg : cur.pos = goal
    · rw [dfsStep_goal hq hg] at h
      injection h with h
      exact Or.inr ⟨cur, rest, rfl, hg, h.symm⟩
    · rw [dfsStep_expand hq hg] at h
      exact absurd h (by simp)

theorem dfsStep_measure {g : Grid} {goal : Pos} {opt : ℚ} {terrain : Option Terrain}
    {st st' : SearchState} (h : dfsStep g goal opt terrain st = .inr st') :
    searchMeasure g st' < searchMeasure g st := by
  obtain ⟨cur, rest, hq, _, rfl⟩ := dfsStep_inr_elim h
  calc searchMeasure g _ ≤ _ := dfs_foldExpand_measure g terrain cur directions.reverse _
  _ < searchMeasure g st := by
    simp only [searchMeasure, hq]
    simp

theorem dfsLoop_exit (g : Grid) (goal : Pos) (opt : ℚ) (terrain : Option Terrain) :
    ∀ (fuel : Nat) (st : SearchState), searchMeasure g st ≤ fuel →
      ∃ stf, DfsReaches g goal opt terrain st stf ∧
        dfsStep g goal opt terrain stf = .inl (dfsLoop g goal opt terrain fuel st) := by
  intro fuel
  induction fuel with
  | zero =>
    intro st hm
    have hq : st.queue = [] := by
      simp only [searchMeasure, Nat.le_zero] at hm
      exact List.length_eq_zero.mp (by omega)
    exact ⟨st, Relation.ReflTransGen.refl, by rw [dfsLoop, dfsStep_nil hq]⟩
  | succ fuel ih =>
    intro st hm
    rw [dfsLoop]
    match h : dfsStep g goal opt terrain st with
    | .inl r => exact ⟨st, Relation.ReflTransGen.refl, h⟩
    | .inr st' =>
      have hlt := dfsStep_measure h
      obtain ⟨stf, hreach, hexit⟩ := ih st' (by omega)
      exact ⟨stf, Relation.ReflTransGen.head h hreach, hexit⟩

/-- What one pass of the `dfs` neighbour loop does to the state. -/
theorem dfsExpand_spec (g : Grid) (terrain : Option Terrain) (cur : SearchEntry) :
    ∀ (ds : List Pos) (st : SearchState),
      ∃ pushed : List SearchEntry,
        (ds.foldl (dfsExpandDir g terrain cur) st).queue = pushed ++ st.queue ∧
        (∀ p, p ∈ (ds.foldl (dfsExpandDir g terrain cur) st).visited ↔
          (∃ e ∈ pushed, e.pos = p) ∨ p ∈ st.visited) ∧
        (ds.foldl (dfsExpandDir g terrain cur) st).visitedNodes = st.visitedNodes ∧
        (ds.foldl (dfsExpandDir g terrain cur) st).nodesExpanded = st.nodesExpanded ∧
        (pushed.map (fun e => e.pos)).Nodup ∧
        (∀ e ∈ pushed, e.pos ∉ st.visited ∧ e.path = cur.path ++ [e.pos] ∧
          e.cost = cur.cost + getTerrainCost terrain e.pos ∧ validCell g e.pos = true ∧
          ∃ d ∈ ds, stepPos cur.pos d = e.pos) ∧
        (∀ d ∈ ds, validCell g (stepPos cur.pos d) = true →
          stepPos cur.pos d ∈ (ds.foldl (dfsExpandDir g terrain cur) st).visited) := by
  intro ds
  induction ds with
  | nil =>
    intro st
    exact ⟨[], by simp, by simp, rfl, rfl, by simp, by simp, by simp⟩
  | cons d ds ih =>
    intro st
    rw [List.foldl_cons]
    by_cases hcond : validCell g (stepPos cur.pos d) = true ∧ stepPos cur.pos d ∉ st.visited
    · have hexp : dfsExpandDir g terrain cur st d =
          { st with
            visited := stepPos cur.pos d :: st.visited
            totalSuccessors := st.totalSuccessors + 1
            queue := ⟨stepPos cur.pos d, cur.path ++ [stepPos cur.pos d],
              cur.cost + getTerrainCost terrain (stepPos cur.pos d)⟩ :: st.queue } := by
        simp only [dfsExpandDir]
        rw [if_pos hcond]
      obtain ⟨pushed, hqu, hvis, hvn, hne, hnd, hent, hclo⟩ := ih (dfsExpandDir g terrain cur st d)
      refine ⟨pushed ++ [⟨stepPos cur.pos d, cur.path ++ [stepPos cur.pos d],
        cur.cost + getTerrainCost terrain (stepPos cur.pos d)⟩], ?_, ?_, ?_, ?_, ?_, ?_, ?_⟩
      · rw [hqu, hexp]
        simp
      · intro p
        rw [hvis p, hexp]
        simp only [List.mem_append, List.mem_cons]
        constructor
        · rintro (⟨e, he, rfl⟩ | hp)
          · exact Or.inl ⟨e, Or.inl he, rfl⟩
          · rcases hp with rfl | hp'
            · exact Or.inl ⟨_, Or.inr (Or.inl rfl), rfl⟩
            · exact Or.inr hp'
        · rintro (⟨e, he | he, rfl⟩ | hp)
          · exact Or.inl ⟨e, he, rfl⟩
          · rcases he with rfl | h0
            · exact Or.inr (Or.inl rfl)
            · simp at h0
          · exact Or.inr (Or.inr hp)
      · rw [hvn, hexp]
      · rw [hne, hexp]
      · simp only [List.map_append, List.map_singleton]
        rw [List.nodup_append]
        refine ⟨hnd, List.nodup_singleton _, ?_⟩
        intro p hp hp'
        simp only [List.mem_singleton] at hp'
        simp only [List.mem_map] at hp
        obtain ⟨e, he, rfl⟩ := hp
        have := (hent e he).1
        rw [hexp] at this
        simp only [List.mem_cons] at this
        push_neg at this
        exact this.1 hp'
      · intro e he
        rcases List.mem_append.mp he with he' | he'
        · obtain ⟨h1, h2, h3, h4, dd, hdd, h5⟩ := hent e he'
          rw [hexp] at h1
          simp only [List.mem_cons] at h1
          push_neg at h1
          exact ⟨h1.2, h2, h3, h4, dd, List.mem_cons_of_mem d hdd, h5⟩
        · rw [List.mem_singleton] at he'
          rw [he']
          exact ⟨hcond.2, rfl, rfl, hcond.1, d, List.mem_cons_self d ds, rfl⟩
      · intro d' hd' hvalid
        rcases List.mem_cons.mp hd' with rfl | hd''
        · rw [hvis]
          refine Or.inr ?_
          rw [hexp]
          exact List.mem_cons_self _ _
        · exact hclo d' hd'' hvalid
    · have hexp : dfsExpandDir g terrain cur st d = st := by
        simp only [dfsExpandDir]
        rw [if_neg hcond]
      rw [hexp]
      obtain ⟨pushed, hqu, hvis, hvn, hne, hnd, hent, hclo⟩ := ih st
      refine ⟨pushed, hqu, hvis, hvn, hne, hnd, ?_, ?_⟩
      · intro e he
        obtain ⟨h1, h2, h3, h4, dd, hdd, h5⟩ := hent e he
        exact ⟨h1, h2, h3, h4, dd, List.mem_cons_of_mem d hdd, h5⟩
      · intro d' hd' hvalid
        rcases List.mem_cons.mp hd' with rfl | hd''
        · have hmem : stepPos cur.pos d' ∈ st.visited := by
            by_contra hno
            exact hcond ⟨hvalid, hno⟩
          rw [hvis]
          exact Or.inr hmem
        · exact hclo d' hd'' hvalid

theorem dfsInv_init {g : Grid} {start goal : Pos} {terrain : Option Terrain}
    (hs : validCell g start = true) :
    DfsInv g start goal terrain (searchInit start) := by
  refine ⟨?_, ?_, ?_, ?_, ?_, ?_, ?_, ?_, ?_⟩
  · intro e he
    simp only [searchInit, List.mem_singleton] at he
    rw [he]
    exact IsPath.single hs
  · intro e he
    simp only [searchInit, List.mem_singleton] at he
    rw [he]
    rfl
  · intro p
    simp [searchInit, eq_comm]
  · simp [searchInit]
  · rfl
  · intro w hw
    simp [searchInit] at hw
  · simp [searchInit]
  · simp [searchInit]
  · intro p hp
    simp [searchInit] at hp

theorem dfsInv_step {g : Grid} {start goal : Pos} {opt : ℚ} {terrain : Option Terrain}
    {st st' : SearchState} (hinv : DfsInv g start goal terrain st)
    (h : dfsStep g goal opt terrain st = .inr st') :
    DfsInv g start goal terrain st' := by
  obtain ⟨cur, rest, hq, hg, rfl⟩ := dfsStep_inr_elim h
  obtain ⟨pushed, hqu, hvis, hvn, hne, hnd, hent, hclo⟩ :=
    dfsExpand_spec g terrain cur directions.reverse
      { st with
        queue := rest
        nodesExpanded := st.nodesExpanded + 1
        visitedNodes := st.visitedNodes ++ [cur.pos] }
  simp only at hqu hvis hvn hne hent hclo
  have hcur_mem : cur ∈ st.queue := by rw [hq]; exact List.mem_cons_self _ _
  have hcurpath : IsPath g start cur.pos cur.path := hinv.q_path cur hcur_mem
  have hstep_pushed : ∀ e ∈ pushed, isStep g cur.pos e.pos = true := by
    intro e he
    obtain ⟨_, _, _, hvalid, hd⟩ := hent e he
    obtain ⟨d, hd', hdp⟩ := hd
    exact isStep_of_dir ⟨d, List.mem_reverse.mp hd', hdp⟩ hvalid
  have hvisited_sub : ∀ p, p ∈ st.visited →
      p ∈ (directions.reverse.foldl (dfsExpandDir g terrain cur)
      { st with
        queue := rest
        nodesExpanded := st.nodesExpanded + 1
        visitedNodes := st.visitedNodes ++ [cur.pos] }).visited := by
    intro p hp
    rw [hvis]
    exact Or.inr hp
  refine ⟨?_, ?_, ?_, ?_, ?_, ?_, ?_, ?_, ?_⟩
  · -- q_path
    intro e he
    rw [hqu] at he
    rcases List.mem_append.mp he with he' | he'
    · obtain ⟨_, hpath, _, _, _⟩ := hent e he'
      rw [hpath]
      exact hcurpath.append (hstep_pushed e he')
    · exact hinv.q_path e (by rw [hq]; exact List.mem_cons_of_mem _ he')
  · -- q_cost
    intro e he
    rw [hqu] at he
    rcases List.mem_append.mp he with he' | he'
    · obtain ⟨_, hpath, hcost, _, _⟩ := hent e he'
      rw [hcost, hpath, walkCost_append_last _ _ hcurpath.ne_nil,
        hinv.q_cost cur hcur_mem]
    · exact hinv.q_cost e (by rw [hq]; exact List.mem_cons_of_mem _ he')
  · -- visited_eq
    intro p
    rw [hvis, hvn, hqu]
    have hold := hinv.visited_eq p
    rw [hq] at hold
    simp only [List.mem_cons] at hold
    simp only [List.mem_append, List.mem_singleton]
    constructor
    · rintro (⟨e, he, rfl⟩ | hp)
      · exact Or.inr ⟨e, Or.inl he, rfl⟩
      · rcases hold.mp hp with hvn' | ⟨e, he, rfl⟩
        · exact Or.inl (Or.inl hvn')
        · rcases he with rfl | he'
          · exact Or.inl (Or.inr rfl)
          · exact Or.inr ⟨e, Or.inr he', rfl⟩
    · rintro ((hvn' | rfl) | ⟨e, he, rfl⟩)
      · exact Or.inr (hold.mpr (Or.inl hvn'))
      · exact Or.inr (hold.mpr (Or.inr ⟨cur, Or.inl rfl, rfl⟩))
      · rcases he with he' | he'
        · exact Or.inl ⟨e, he', rfl⟩
        · exact Or.inr (hold.mpr (Or.inr ⟨e, Or.inr he', rfl⟩))
  · -- nodup
    rw [hqu, hvn]
    simp only [List.map_append]
    have holdnodup := hinv.nodup
    rw [hq] at holdnodup
    simp only [List.map_cons] at holdnodup
    -- target : (VN ++ [cur.pos]) ++ (pushedPos ++ restPos) with old (VN ++ cur.pos :: restPos)
    rw [List.nodup_append]
    have hold2 := List.nodup_append.mp (by
      have heq : st.visitedNodes ++ cur.pos :: (rest.map (fun e => e.pos)) =
          (st.visitedNodes ++ [cur.pos]) ++ rest.map (fun e => e.pos) := by simp
      rw [heq] at holdnodup
      exact holdnodup)
    refine ⟨hold2.1, ?_, ?_⟩
    · rw [List.nodup_append]
      refine ⟨hnd, hold2.2.1, ?_⟩
      intro p hp hp'
      simp only [List.mem_map] at hp
      obtain ⟨e, he, rfl⟩ := hp
      apply (hent e he).1
      rw [hinv.visited_eq]
      simp only [List.mem_map] at hp'
      obtain ⟨e', he', heq⟩ := hp'
      exact Or.inr ⟨e', by rw [hq]; exact List.mem_cons_of_mem _ he', heq⟩
    · intro p hp hp'
      rcases List.mem_append.mp hp' with hp'' | hp''
      · simp only [List.mem_map] at hp''
        obtain ⟨e, he, rfl⟩ := hp''
        apply (hent e he).1
        rw [hinv.visited_eq]
        rcases List.mem_append.mp hp with hvn' | hcurp
        · exact Or.inl hvn'
        · rw [List.mem_singleton] at hcurp
          exact Or.inr ⟨cur, hcur_mem, hcurp.symm⟩
      · exact hold2.2.2 hp hp''
  · -- count
    rw [hvn, hne]
    simp [hinv.count]
  · -- closure
    intro w hw d hd hvalid
    rw [hvn] at hw
    rcases List.mem_append.mp hw with hw' | hw'
    · exact hvisited_sub _ (hinv.closure w hw' d hd hvalid)
    · rw [List.mem_singleton] at hw'
      rw [hw'] at hvalid ⊢
      exact hclo d (List.mem_reverse.mpr hd) hvalid
  · -- start_mem
    exact hvisited_sub _ hinv.start_mem
  · -- goal_not
    rw [hvn]
    simp only [List.mem_append, List.mem_singleton]
    rintro (hgn | rfl)
    · exact hinv.goal_not hgn
    · exact hg rfl
  · -- vn_valid
    intro p hp
    rw [hvn] at hp
    rcases List.mem_append.mp hp with hp' | hp'
    · exact hinv.vn_valid p hp'
    · rw [List.mem_singleton] at hp'
      rw [hp']
      exact hcurpath.last_valid

theorem dfsInv_reaches {g : Grid} {start goal : Pos} {opt : ℚ} {terrain : Option Terrain}
    {st stf : SearchState} (hinv : DfsInv g start goal terrain st)
    (h : DfsReaches g goal opt terrain st stf) : DfsInv g start goal terrain stf := by
  induction h with
  | refl => exact hinv
  | tail _ hstep ih => exact dfsInv_step ih hstep

/-- Everything the returned record of `dfs` guarantees, for a valid start
position. -/
theorem dfs_run_spec {g : Grid} {start goal : Pos} {opt : ℚ} {terrain : Option Terrain}
    (hs : validCell g start = true) {r : SearchResult}
    (hr : r = dfs g start goal opt terrain) :
    (r.success = true →
      IsPath g start goal r.path ∧
      r.pathCost = some (walkCost terrain r.path) ∧
      r.pathLength = r.path.length ∧
      r.pathOptimalityRatio = some (opt / (r.pathLength : ℚ))) ∧
    (r.success = false → r.path = [] ∧ r.pathCost = none ∧ goal ∉ r.visitedNodes) ∧
    r.nodesExpanded = r.visitedNodes.length ∧
    r.visitedNodes.Nodup ∧
    (∀ p ∈ r.visitedNodes, validCell g p = true) ∧
    r.completionPercentage = (r.nodesExpanded : ℚ) / (r.totalFreeSpaces : ℚ) * 100 ∧
    r.totalFreeSpaces = totalFreeSpaces g ∧
    r.totalSuccessors = none ∧
    (r.success = true ↔ Reach g start goal) := by
  obtain ⟨stf, hreach, hexit⟩ := dfsLoop_exit g goal opt terrain (searchFuel g)
    (searchInit start) (searchMeasure_init_le g start)
  rw [← dfs] at hexit
  have hinvf : DfsInv g start goal terrain stf :=
    dfsInv_reaches (dfsInv_init hs) hreach
  rw [← hr] at hexit
  rcases dfsStep_inl_elim hexit with ⟨hqnil, rfl⟩ | ⟨cur, rest, hq, hgoal, rfl⟩
  · have hnotreach : ¬ Reach g start goal := by
      intro hre
      have hclosed : ∀ w ∈ stf.visited, ∀ d ∈ directions,
          validCell g (stepPos w d) = true → stepPos w d ∈ stf.visited := by
        intro w hw d hd hv
        have hw' : w ∈ stf.visitedNodes := by
          rcases (hinvf.visited_eq w).mp hw with h' | ⟨e, he, _⟩
          · exact h'
          · rw [hqnil] at he; simp at he
        exact hinvf.closure w hw' d hd hv
      have hgv : goal ∈ stf.visited :=
        reach_subset_of_closed hinvf.start_mem hclosed goal hre
      rcases (hinvf.visited_eq goal).mp hgv with h' | ⟨e, he, _⟩
      · exact hinvf.goal_not h'
      · rw [hqnil] at he; simp at he
    refine ⟨?_, ?_, ?_, ?_, ?_, ?_, ?_, ?_, ?_⟩
    · intro hsucc
      simp [searchFailResult] at hsucc
    · intro _
      exact ⟨rfl, rfl, hinvf.goal_not⟩
    · exact hinvf.count
    · exact (List.nodup_append.mp hinvf.nodup).1
    · exact hinvf.vn_valid
    · rfl
    · rfl
    · rfl
    · constructor
      · intro hsucc
        simp [searchFailResult] at hsucc
      · intro hre
        exact absurd hre hnotreach
  · have hcur_mem : cur ∈ stf.queue := by rw [hq]; exact List.mem_cons_self _ _
    have hcurpath : IsPath g start goal cur.path := by
      have := hinvf.q_path cur hcur_mem
      rwa [hgoal] at this
    have hnodup1 : (stf.visitedNodes ++ [cur.pos]).Nodup := by
      have := hinvf.nodup
      rw [hq] at this
      simp only [List.map_cons] at this
      have heq : stf.visitedNodes ++ cur.pos :: (rest.map (fun e => e.pos)) =
          (stf.visitedNodes ++ [cur.pos]) ++ rest.map (fun e => e.pos) := by simp
      rw [heq] at this
      exact (List.nodup_append.mp this).1
    refine ⟨?_, ?_, ?_, ?_, ?_, ?_, ?_, ?_, ?_⟩
    · intro _
      refine ⟨hcurpath, ?_, rfl, rfl⟩
      simp only [searchSuccessResult]
      rw [hinvf.q_cost cur hcur_mem]
    · intro hsucc
      simp [searchSuccessResult] at hsucc
    · simp only [searchSuccessResult]
      simp [hinvf.count]
    · exact hnodup1
    · intro p hp
      simp only [searchSuccessResult] at hp
      rcases List.mem_append.mp hp with hp' | hp'
      · exact hinvf.vn_valid p hp'
      · rw [List.mem_singleton] at hp'
        rw [hp', hgoal]
        exact hcurpath.last_valid
    · rfl
    · rfl
    · rfl
    · constructor
      · intro _
        exact ⟨cur.path, hcurpath⟩
      · intro _
        rfl

/-! ## The aStar loop: basic facts -/

theorem gLookup_cons (q : Pos) (v : Nat) (m : List (Pos × Nat)) (p : Pos) :
    gLookup ((q, v) :: m) p = if q = p then some v else gLookup m p := by
  rw [gLookup, List.find?]
  by_cases h : q = p
  · simp [h]
  · simp only [h, decide_False]
    rfl

theorem stepPos_inj {p d1 d2 : Pos} (h : stepPos p d1 = stepPos p d2) : d1 = d2 := by
  cases d1 with
  | mk r1 c1 =>
    cases d2 with
    | mk r2 c2 =>
      simp only [stepPos, Pos.mk.injEq] at h
      simp only [Pos.mk.injEq]
      omega

theorem directions_nodup : directions.Nodup := by decide

namespace PriorityQueue

theorem length_insertBehindLE {ι α : Type} [LinearOrder α] (x : PQItem ι α)
    (l : List (PQItem ι α)) : (insertBehindLE x l).length = l.length + 1 := by
  induction l with
  | nil => rfl
  | cons y l ih =>
    rw [insertBehindLE]
    split
    · simp
    · simp [ih]

theorem length_sortByPriority {ι α : Type} [LinearOrder α] (l : List (PQItem ι α)) :
    (sortByPriority l).length = l.length := by
  have main : ∀ (l acc : List (PQItem ι α)),
      (l.foldl (fun acc x => insertBehindLE x acc) acc).length = l.length + acc.length := by
    intro l
    induction l with
    | nil => intro acc; simp
    | cons x l ih =>
      intro acc
      rw [List.foldl_cons, ih, length_insertBehindLE]
      simp only [List.length_cons]
      omega
  rw [sortByPriority, main]
  simp

theorem length_enqueue {ι α : Type} [LinearOrder α] (items : List (PQItem ι α))
    (it : ι) (pr : α) : (enqueue items it pr).length = items.length + 1 := by
  rw [enqueue, length_sortByPriority]
  simp

end PriorityQueue

theorem aStarStep_nil {g : Grid} {goal : Pos} {hn : HeuristicName} {opt : ℝ}
    {terrain : Option Terrain} {st : AStarState} (hq : st.queue = []) :
    aStarStep g goal hn opt terrain st = .inl (aStarFailResult g hn terrain st) := by
  rw [aStarStep, hq]

theorem aStarStep_skip {g : Grid} {goal : Pos} {hn : HeuristicName} {opt : ℝ}
    {terrain : Option Terrain} {st : AStarState} {itm : PQItem AStarEntry ℝ}
    {rest : List (PQItem AStarEntry ℝ)} (hq : st.queue = itm :: rest)
    (hv : itm.item.pos ∈ st.visited) :
    aStarStep g goal hn opt terrain st = .inr { st with queue := rest } := by
  rw [aStarStep, hq]
  simp [hv]

theorem aStarStep_goal {g : Grid} {goal : Pos} {hn : HeuristicName} {opt : ℝ}
    {terrain : Option Terrain} {st : AStarState} {itm : PQItem AStarEntry ℝ}
    {rest : List (PQItem AStarEntry ℝ)} (hq : st.queue = itm :: rest)
    (hv : itm.item.pos ∉ st.visited) (hg : itm.item.pos = goal) :
    aStarStep g goal hn opt terrain st = .inl (aStarSuccessResult g hn opt terrain itm.item
      { st with
        queue := rest
        visited := itm.item.pos :: st.visited
        nodesExpanded := st.nodesExpanded + 1
        visitedNodes := st.visitedNodes ++ [itm.item.pos]
        totalHeuristic := st.totalHeuristic + HEURISTICS hn itm.item.pos goal
        totalFValue := st.totalFValue +
          ((itm.item.g : ℝ) + HEURISTICS hn itm.item.pos goal) }) := by
  rw [aStarStep, hq]
  simp [hv, hg]
  exact hg ▸ hv

theorem aStarStep_expand {g : Grid} {goal : Pos} {hn : HeuristicName} {opt : ℝ}
    {terrain : Option Terrain} {st : AStarState} {itm : PQItem AStarEntry ℝ}
    {rest : List (PQItem AStarEntry ℝ)} (hq : st.queue = itm :: rest)
    (hv : itm.item.pos ∉ st.visited) (hg : itm.item.pos ≠ goal) :
    aStarStep g goal hn opt terrain st = .inr (directions.foldl
      (aStarExpandDir g goal terrain (HEURISTICS hn) itm.item)
      { st with
        queue := rest
        visited := itm.item.pos :: st.visited
        nodesExpanded := st.nodesExpanded + 1
        visitedNodes := st.visitedNodes ++ [itm.item.pos]
        totalHeuristic := st.totalHeuristic + HEURISTICS hn itm.item.pos goal
        totalFValue := st.totalFValue +
          ((itm.item.g : ℝ) + HEURISTICS hn itm.item.pos goal) }) := by
  rw [aStarStep, hq]
  simp [hv, hg]

theorem aStarStep_inr_elim {g : Grid} {goal : Pos} {hn : HeuristicName} {opt : ℝ}
    {terrain : Option Terrain} {st st' : AStarState}
    (h : aStarStep g goal hn opt terrain st = .inr st') :
    ∃ itm rest, st.queue = itm :: rest ∧
      ((itm.item.pos ∈ st.visited ∧ st' = { st with queue := rest }) ∨
       (itm.item.pos ∉ st.visited ∧ itm.item.pos ≠ goal ∧
        st' = directions.foldl (aStarExpandDir g goal terrain (HEURISTICS hn) itm.item)
          { st with
            queue := rest
            visited := itm.item.pos :: st.visited
            nodesExpanded := st.nodesExpanded + 1
            visitedNodes := st.visitedNodes ++ [itm.item.pos]
            totalHeuristic := st.totalHeuristic + HEURISTICS hn itm.item.pos goal
            totalFValue := st.totalFValue +
              ((itm.item.g : ℝ) + HEURISTICS hn itm.item.pos goal) })) := by
  cases hq : st.queue with
  | nil => rw [aStarStep_nil hq] at h; exact absurd h (by simp)
  | cons itm rest =>
    by_cases hv : itm.item.pos ∈ st.visited
    · rw [aStarStep_skip hq hv] at h
      injection h with h
      exact ⟨itm, rest, rfl, Or.inl ⟨hv, h.symm⟩⟩
    · by_cases hg : itm.item.pos = goal
      · rw [aStarStep_goal hq hv hg] at h
        exact absurd h (by simp)
      · rw [aStarStep_expand hq hv hg] at h
        injection h with h
        exact ⟨itm, rest, rfl, Or.inr ⟨hv, hg, h.symm⟩⟩

theorem aStarStep_inl_elim {g : Grid} {goal : Pos} {hn : HeuristicName} {opt : ℝ}
    {terrain : Option Terrain} {st : AStarState} {r : AStarResult}
    (h : aStarStep g goal hn opt terrain st = .inl r) :
    (st.queue = [] ∧ r = aStarFailResult g hn terrain st) ∨
    (∃ itm rest, st.queue = itm :: rest ∧ itm.item.pos ∉ st.visited ∧
      itm.item.pos = goal ∧
      r = aStarSuccessResult g hn opt terrain itm.item
        { st with
          queue := rest
          visited := itm.item.pos :: st.visited
          nodesExpanded := st.nodesExpanded + 1
          visitedNodes := st.visitedNodes ++ [itm.item.pos]
          totalHeuristic := st.totalHeuristic + HEURISTICS hn itm.item.pos goal
          totalFValue := st.totalFValue +
            ((itm.item.g : ℝ) + HEURISTICS hn itm.item.pos goal) }) := by
  cases hq : st.queue with
  | nil =>
    rw [aStarStep_nil hq] at h
    injection h with h
    exact Or.inl ⟨rfl, h.symm⟩
  | cons itm rest =>
    by_cases hv : itm.item.pos ∈ st.visited
    · rw [aStarStep_skip hq hv] at h
      exact absurd h (by simp)
    · by_cases hg : itm.item.pos = goal
      · rw [aStarStep_goal hq hv hg] at h
        injection h with h
        exact Or.inr ⟨itm, rest, rfl, hv, hg, h.symm⟩
      · rw [aStarStep_expand hq hv hg] at h
        exact absurd h (by simp)

/-- What one pass of the `aStar` neighbour loop does to the state,
described by the list of queue items it pushes.  The last conjunct states
that a neighbour is pushed exactly when it passes the source's combined
test, evaluated against the state at the start of the pass (the four
neighbours are distinct, so the in-pass `gScore` updates never affect a
later direction's test). -/
theorem aStarExpand_spec (g : Grid) (goal : Pos) (terrain : Option Terrain)
    (h : Pos → Pos → ℝ) (cur : AStarEntry) :
    ∀ (ds : List Pos), ds.Nodup → ∀ (st : AStarState),
      ∃ pushedItems : List (PQItem AStarEntry ℝ),
        (ds.foldl (aStarExpandDir g goal terrain h cur) st).visited = st.visited ∧
        (ds.foldl (aStarExpandDir g goal terrain h cur) st).visitedNodes = st.visitedNodes ∧
        (ds.foldl (aStarExpandDir g goal terrain h cur) st).nodesExpanded = st.nodesExpanded ∧
        (ds.foldl (aStarExpandDir g goal terrain h cur) st).queue.length ≤
          st.queue.length + ds.length ∧
        (∀ it, it ∈ (ds.foldl (aStarExpandDir g goal terrain h cur) st).queue ↔
          it ∈ st.queue ∨ it ∈ pushedItems) ∧
        (st.queue.Pairwise (fun a b => a.priority ≤ b.priority) →
          (ds.foldl (aStarExpandDir g goal terrain h cur) st).queue.Pairwise
            (fun a b => a.priority ≤ b.priority)) ∧
        (∀ it ∈ pushedItems,
          it.item.path = cur.path ++ [it.item.pos] ∧
          it.item.g = cur.g + getTerrainCost terrain it.item.pos ∧
          it.priority = (it.item.g : ℝ) + h it.item.pos goal ∧
          validCell g it.item.pos = true ∧ it.item.pos ∉ st.visited ∧
          gLookup (ds.foldl (aStarExpandDir g goal terrain h cur) st).gScore
            it.item.pos = some it.item.g ∧
          ∃ d ∈ ds, stepPos cur.pos d = it.item.pos) ∧
        (∀ p, (∀ it ∈ pushedItems, it.item.pos ≠ p) →
          gLookup (ds.foldl (aStarExpandDir g goal terrain h cur) st).gScore p =
            gLookup st.gScore p) ∧
        (∀ d ∈ ds, ((∃ it ∈ pushedItems, it.item.pos = stepPos cur.pos d) ↔
          (validCell g (stepPos cur.pos d) = true ∧ stepPos cur.pos d ∉ st.visited ∧
            gUpdateGuard (gLookup st.gScore (stepPos cur.pos d))
              (cur.g + getTerrainCost terrain (stepPos cur.pos d)) = true))) := by
  intro ds
  induction ds with
  | nil =>
    intro _ st
    exact ⟨[], rfl, rfl, rfl, by simp, by simp, by simp, by simp, fun p _ => rfl, by simp⟩
  | cons d ds ih =>
    intro hnodup st
    obtain ⟨hd_not, hnd⟩ := List.nodup_cons.mp hnodup
    rw [List.foldl_cons]
    by_cases houter : validCell g (stepPos cur.pos d) = true ∧ stepPos cur.pos d ∉ st.visited
    · by_cases hguard : gUpdateGuard (gLookup st.gScore (stepPos cur.pos d))
          (cur.g + getTerrainCost terrain (stepPos cur.pos d)) = true
      · -- the neighbour is pushed
        have hexp : aStarExpandDir g goal terrain h cur st d =
            { st with
              gScore := (stepPos cur.pos d,
                cur.g + getTerrainCost terrain (stepPos cur.pos d)) :: st.gScore
              totalSuccessors := st.totalSuccessors + 1
              queue := PriorityQueue.enqueue st.queue
                ⟨stepPos cur.pos d, cur.path ++ [stepPos cur.pos d],
                  cur.g + getTerrainCost terrain (stepPos cur.pos d)⟩
                (((cur.g + getTerrainCost terrain (stepPos cur.pos d) : Nat) : ℝ) +
                  h (stepPos cur.pos d) goal) } := by
          simp only [aStarExpandDir]
          rw [if_pos houter, if_pos hguard]
        obtain ⟨pushed, h1, h2, h3, h4, h5, h6, h7, h8, h9⟩ :=
          ih hnd (aStarExpandDir g goal terrain h cur st d)
        have hppos : ∀ it ∈ pushed, it.item.pos ≠ stepPos cur.pos d := by
          intro it hit heq
          obtain ⟨_, _, _, _, _, _, d', hd', hd'eq⟩ := h7 it hit
          rw [heq] at hd'eq
          exact hd_not (stepPos_inj hd'eq ▸ hd')
        refine ⟨⟨⟨stepPos cur.pos d, cur.path ++ [stepPos cur.pos d],
            cur.g + getTerrainCost terrain (stepPos cur.pos d)⟩,
            (((cur.g + getTerrainCost terrain (stepPos cur.pos d) : Nat) : ℝ) +
              h (stepPos cur.pos d) goal)⟩ :: pushed, ?_, ?_, ?_, ?_, ?_, ?_, ?_, ?_, ?_⟩
        · rw [h1, hexp]
        · rw [h2, hexp]
        · rw [h3, hexp]
        · rw [hexp] at h4 ⊢
          simp only [PriorityQueue.length_enqueue, List.length_cons] at h4 ⊢
          omega
        · intro it
          rw [h5, hexp]
          simp only [PriorityQueue.mem_enqueue, List.mem_cons]
          tauto
        · intro hsorted
          apply h6
          rw [hexp]
          exact PriorityQueue.enqueue_sorted _ _ _
        · intro it hit
          rcases List.mem_cons.mp hit with rfl | hit'
          · refine ⟨rfl, rfl, rfl, houter.1, houter.2, ?_, d, List.mem_cons_self d ds, rfl⟩
            rw [h8 _ ?_]
            · rw [hexp]
              simp [gLookup_cons]
            · intro it' hit'
              exact hppos it' hit'
          · obtain ⟨p1, p2, p3, p4, p5, p6, p7⟩ := h7 it hit'
            rw [hexp] at p5
            simp only at p5
            obtain ⟨d', hd', hd'eq⟩ := p7
            exact ⟨p1, p2, p3, p4, p5, p6, d', List.mem_cons_of_mem d hd', hd'eq⟩
        · intro p hp
          have hp' : ∀ it ∈ pushed, it.item.pos ≠ p := by
            intro it hit
            exact hp it (List.mem_cons_of_mem _ hit)
          have hnp : stepPos cur.pos d ≠ p := by
            have := hp _ (List.mem_cons_self _ _)
            simpa using this
          rw [h8 p hp', hexp]
          simp only [gLookup_cons]
          rw [if_neg hnp]
        · intro d' hd'
          rcases List.mem_cons.mp hd' with rfl | hd''
          · refine iff_of_true ⟨_, List.mem_cons_self _ _, rfl⟩ ⟨houter.1, houter.2, hguard⟩
          · have hne : stepPos cur.pos d' ≠ stepPos cur.pos d := by
              intro heq
              exact hd_not ((stepPos_inj heq) ▸ hd'')
            have h9' := h9 d' hd''
            have hvis' : (aStarExpandDir g goal terrain h cur st d).visited = st.visited := by
              rw [hexp]
            have hg' : gLookup (aStarExpandDir g goal terrain h cur st d).gScore
                (stepPos cur.pos d') = gLookup st.gScore (stepPos cur.pos d') := by
              rw [hexp]
              simp only [gLookup_cons]
              rw [if_neg hne.symm]
            rw [hvis', hg'] at h9'
            rw [← h9']
            simp only [List.mem_cons]
            constructor
            · rintro ⟨it, rfl | hit, hpos⟩
              · exact absurd hpos hne.symm
              · exact ⟨it, hit, hpos⟩
            · rintro ⟨it, hit, hpos⟩
              exact ⟨it, Or.inr hit, hpos⟩
      · -- the neighbour fails the gScore update test: nothing happens
        have hexp : aStarExpandDir g goal terrain h cur st d = st := by
          simp only [aStarExpandDir]
          rw [if_pos houter, if_neg hguard]
        rw [hexp]
        obtain ⟨pushed, h1, h2, h3, h4, h5, h6, h7, h8, h9⟩ := ih hnd st
        have hppos : ∀ it ∈ pushed, it.item.pos ≠ stepPos cur.pos d := by
          intro it hit heq
          obtain ⟨_, _, _, _, _, _, d', hd', hd'eq⟩ := h7 it hit
          rw [heq] at hd'eq
          exact hd_not (stepPos_inj hd'eq ▸ hd')
        refine ⟨pushed, h1, h2, h3, by simpa using Nat.le_succ_of_le h4, h5, h6, ?_, h8, ?_⟩
        · intro it hit
          obtain ⟨p1, p2, p3, p4, p5, p6, d', hd', hd'eq⟩ := h7 it hit
          exact ⟨p1, p2, p3, p4, p5, p6, d', List.mem_cons_of_mem d hd', hd'eq⟩
        · intro d' hd'
          rcases List.mem_cons.mp hd' with rfl | hd''
          · refine iff_of_false ?_ ?_
            · rintro ⟨it, hit, hpos⟩
              exact hppos it hit hpos
            · rintro ⟨_, _, hg⟩
              exact hguard hg
          · exact h9 d' hd''
    · -- the neighbour is out of bounds, an obstacle, or closed
      have hexp : aStarExpandDir g goal terrain h cur st d = st := by
        simp only [aStarExpandDir]
        rw [if_neg houter]
      rw [hexp]
      obtain ⟨pushed, h1, h2, h3, h4, h5, h6, h7, h8, h9⟩ := ih hnd st
      have hppos : ∀ it ∈ pushed, it.item.pos ≠ stepPos cur.pos d := by
        intro it hit heq
        obtain ⟨_, _, _, _, _, _, d', hd', hd'eq⟩ := h7 it hit
        rw [heq] at hd'eq
        exact hd_not (stepPos_inj hd'eq ▸ hd')
      refine ⟨pushed, h1, h2, h3, by simpa using Nat.le_succ_of_le h4, h5, h6, ?_, h8, ?_⟩
      · intro it hit
        obtain ⟨p1, p2, p3, p4, p5, p6, d', hd', hd'eq⟩ := h7 it hit
        exact ⟨p1, p2, p3, p4, p5, p6, d', List.mem_cons_of_mem d hd', hd'eq⟩
      · intro d' hd'
        rcases List.mem_cons.mp hd' with rfl | hd''
        · refine iff_of_false ?_ ?_
          · rintro ⟨it, hit, hpos⟩
            exact hppos it hit hpos
          · rintro ⟨hv, hnvis, _⟩
            exact houter ⟨hv, hnvis⟩
        · exact h9 d' hd''

theorem aStarQueue_valid_step {g : Grid} {goal : Pos} {hn : HeuristicName} {opt : ℝ}
    {terrain : Option Terrain} {st st' : AStarState}
    (h : aStarStep g goal hn opt terrain st = .inr st')
    (hv : ∀ it ∈ st.queue, validCell g it.item.pos = true) :
    ∀ it ∈ st'.queue, validCell g it.item.pos = true := by
  obtain ⟨itm, rest, hq, hcase⟩ := aStarStep_inr_elim h
  rcases hcase with ⟨_, rfl⟩ | ⟨hnv, hng, rfl⟩
  · intro it hit
    exact hv it (by rw [hq]; exact List.mem_cons_of_mem _ hit)
  · obtain ⟨pushed, h1, h2, h3, h4, h5, h6, h7, h8, h9⟩ :=
      aStarExpand_spec g goal terrain (HEURISTICS hn) itm.item directions directions_nodup
        { st with
          queue := rest
          visited := itm.item.pos :: st.visited
          nodesExpanded := st.nodesExpanded + 1
          visitedNodes := st.visitedNodes ++ [itm.item.pos]
          totalHeuristic := st.totalHeuristic + HEURISTICS hn itm.item.pos goal
          totalFValue := st.totalFValue +
            ((itm.item.g : ℝ) + HEURISTICS hn itm.item.pos goal) }
    intro it hit
    rcases (h5 it).mp hit with hit' | hit'
    · exact hv it (by rw [hq]; exact List.mem_cons_of_mem _ hit')
    · exact (h7 it hit').2.2.2.1

theorem aStarStep_measure {g : Grid} {goal : Pos} {hn : HeuristicName} {opt : ℝ}
    {terrain : Option Terrain} {st st' : AStarState}
    (h : aStarStep g goal hn opt terrain st = .inr st')
    (hv : ∀ it ∈ st.queue, validCell g it.item.pos = true) :
    aStarMeasure g st' < aStarMeasure g st := by
  obtain ⟨itm, rest, hq, hcase⟩ := aStarStep_inr_elim h
  rcases hcase with ⟨_, rfl⟩ | ⟨hnv, hng, rfl⟩
  · simp only [aStarMeasure, hq]
    simp
  · obtain ⟨pushed, h1, h2, h3, h4, h5, h6, h7, h8, h9⟩ :=
      aStarExpand_spec g goal terrain (HEURISTICS hn) itm.item directions directions_nodup
        { st with
          queue := rest
          visited := itm.item.pos :: st.visited
          nodesExpanded := st.nodesExpanded + 1
          visitedNodes := st.visitedNodes ++ [itm.item.pos]
          totalHeuristic := st.totalHeuristic + HEURISTICS hn itm.item.pos goal
          totalFValue := st.totalFValue +
            ((itm.item.g : ℝ) + HEURISTICS hn itm.item.pos goal) }
    have hvalid : validCell g itm.item.pos = true :=
      hv itm (by rw [hq]; exact List.mem_cons_self _ _)
    have hmem : itm.item.pos ∈ inBoundsFinset g \ st.visited.toFinset := by
      rw [Finset.mem_sdiff]
      exact ⟨valid_mem_inBounds hvalid, by simpa using hnv⟩
    have hvis : (directions.foldl (aStarExpandDir g goal terrain (HEURISTICS hn) itm.item)
        { st with
          queue := rest
          visited := itm.item.pos :: st.visited
          nodesExpanded := st.nodesExpanded + 1
          visitedNodes := st.visitedNodes ++ [itm.item.pos]
          totalHeuristic := st.totalHeuristic + HEURISTICS hn itm.item.pos goal
          totalFValue := st.totalFValue +
            ((itm.item.g : ℝ) + HEURISTICS hn itm.item.pos goal) }).visited =
        itm.item.pos :: st.visited := h1
    have h4' : (directions.foldl (aStarExpandDir g goal terrain (HEURISTICS hn) itm.item)
        { st with
          queue := rest
          visited := itm.item.pos :: st.visited
          nodesExpanded := st.nodesExpanded + 1
          visitedNodes := st.visitedNodes ++ [itm.item.pos]
          totalHeuristic := st.totalHeuristic + HEURISTICS hn itm.item.pos goal
          totalFValue := st.totalFValue +
            ((itm.item.g : ℝ) + HEURISTICS hn itm.item.pos goal) }).queue.length ≤
        rest.length + 4 := h4
    have hcard := sdiff_insert_card_lt hmem
    simp only [aStarMeasure, hq, hvis, List.length_cons, List.toFinset_cons]
    omega

theorem aStarLoop_exit (g : Grid) (goal : Pos) (hn : HeuristicName) (opt : ℝ)
    (terrain : Option Terrain) :
    ∀ (fuel : Nat) (st : AStarState), aStarMeasure g st ≤ fuel →
      (∀ it ∈ st.queue, validCell g it.item.pos = true) →
      ∃ stf, AStarReaches g goal hn opt terrain st stf ∧
        aStarStep g goal hn opt terrain stf =
          .inl (aStarLoop g goal hn opt terrain fuel st) := by
  intro fuel
  induction fuel with
  | zero =>
    intro st hm _
    have hq : st.queue = [] := by
      simp only [aStarMeasure, Nat.le_zero] at hm
      exact List.length_eq_zero.mp (by omega)
    exact ⟨st, Relation.ReflTransGen.refl, by rw [aStarLoop, aStarStep_nil hq]⟩
  | succ fuel ih =>
    intro st hm hv
    rw [aStarLoop]
    match h : aStarStep g goal hn opt terrain st with
    | .inl r => exact ⟨st, Relation.ReflTransGen.refl, h⟩
    | .inr st' =>
      have hlt := aStarStep_measure h hv
      obtain ⟨stf, hreach, hexit⟩ := ih st' (by omega) (aStarQueue_valid_step h hv)
      exact ⟨stf, Relation.ReflTransGen.head h hreach, hexit⟩

theorem aStarMeasure_init_le (g : Grid) (start goal : Pos) (h : Pos → Pos → ℝ) :
    aStarMeasure g (aStarInit start goal h) ≤ aStarFuel g := by
  have h1 : ((inBoundsFinset g) \ (aStarInit start goal h).visited.toFinset).card ≤
      gridRows g * gridCols g :=
    le_trans (Finset.card_le_card (Finset.sdiff_subset)) (inBoundsFinset_card_le g)
  simp only [aStarMeasure, aStarInit, PriorityQueue.length_enqueue, List.length_nil,
    aStarFuel] at h1 ⊢
  omega

theorem aStarInv_init {g : Grid} {start goal : Pos} {terrain : Option Terrain}
    {h : Pos → Pos → ℝ} (hs : validCell g start = true) :
    AStarInv g start goal terrain h (aStarInit start goal h) := by
  have hq : (aStarInit start goal h).queue =
      [⟨⟨start, [start], 0⟩, h start goal⟩] := rfl
  have hginit : (aStarInit start goal h).gScore = [(start, 0)] := rfl
  have hstart0 : gLookup (aStarInit start goal h).gScore start = some 0 := by
    rw [hginit, gLookup_cons, if_pos rfl]
  have hlook : ∀ p v, gLookup (aStarInit start goal h).gScore p = some v →
      p = start ∧ v = 0 := by
    intro p v hv
    rw [hginit, gLookup_cons] at hv
    by_cases hp : start = p
    · rw [if_pos hp] at hv
      exact ⟨hp.symm, (Option.some_inj.mp hv).symm⟩
    · rw [if_neg hp] at hv
      simp [gLookup] at hv
  refine ⟨?_, ?_, ?_, ?_, ?_, ?_, ?_, ?_, ?_, ?_, ?_, ?_, ?_, ?_, ?_, ?_, ?_, ?_⟩
  · intro it hit
    rw [hq] at hit
    simp at hit
    rw [hit]
    exact IsPath.single hs
  · intro it hit
    rw [hq] at hit
    simp at hit
    rw [hit]
    rfl
  · intro it hit
    rw [hq] at hit
    simp at hit
    rw [hit]
    simp
  · rw [hq]
    simp
  · intro p v hv
    obtain ⟨hp1, rfl⟩ := hlook p v hv
    rw [hp1]
    exact ⟨[start], IsPath.single hs, rfl⟩
  · intro p v hv _
    obtain ⟨hp1, rfl⟩ := hlook p v hv
    rw [hp1]
    refine ⟨⟨⟨start, [start], 0⟩, h start goal⟩, ?_, rfl, rfl⟩
    rw [hq]
    simp
  · intro it hit
    rw [hq] at hit
    simp at hit
    rw [hit]
    exact ⟨0, hstart0, le_refl 0⟩
  · intro u hu
    simp [aStarInit] at hu
  · intro u hu
    simp [aStarInit] at hu
  · exact hstart0
  · intro p v hp hv
    exact absurd (hlook p v hv).1 hp
  · intro _ it hit
    rw [hq] at hit
    simp at hit
    rw [hit]
  · intro hvis
    exact absurd rfl hvis
  · rfl
  · simp [aStarInit]
  · rfl
  · simp [aStarInit]
  · left
    rw [hq]
    simp

theorem aStar_good_entry {g : Grid} {start goal : Pos} {terrain : Option Terrain}
    {h : Pos → Pos → ℝ} {st : AStarState}
    (inv : AStarInv g start goal terrain h st)
    (hcons : ∀ a b, isStep g a b = true →
      h a goal ≤ (getTerrainCost terrain b : ℝ) + h b goal) :
    ∀ (n : Nat) (z : Pos) (l : List Pos), IsPath g start z l →
      walkCost terrain l = minCost g terrain start z → l.length = n →
      z ∉ st.visited →
      ∃ it ∈ st.queue, it.priority ≤ (minCost g terrain start z : ℝ) + h z goal := by
  intro n
  induction n using Nat.strong_induction_on with
  | _ n ih =>
    intro z l hl hc hlen hnv
    subst hlen
    rcases l with _ | ⟨p, l0⟩
    · exact absurd rfl hl.ne_nil
    rcases l0 with _ | ⟨q, l'⟩
    · obtain ⟨hps, hpz⟩ := hl.single_eq
      have hzs : z = start := by rw [← hpz, hps]
      have hmc : minCost g terrain start z = 0 := by
        rw [← hc]
        rfl
      obtain ⟨it, hit, hpos, hgv⟩ := inv.g_entry z 0 (by rw [hzs]; exact inv.g_start) hnv
      refine ⟨it, hit, ?_⟩
      rw [inv.q_pr it hit, hpos, hgv, hmc]
    · have hlen2 : 2 ≤ (p :: q :: l').length := by
        simp
      obtain ⟨l1, w, heq, hl1, hstep, hc1, hsum⟩ := optimal_front hl hc hlen2
      by_cases hw : w ∈ st.visited
      · obtain ⟨d, hd, hdz⟩ := isStep_dir hstep
        have hzv : validCell g z = true := isStep_valid hstep
        obtain ⟨v, hv, hvle⟩ := inv.closed_edge w hw d hd
          (by rw [hdz]; exact hzv) (by rw [hdz]; exact hnv)
        rw [hdz] at hv hvle
        obtain ⟨l2, hl2, hl2c⟩ := inv.g_path z v hv
        have hge : minCost g terrain start z ≤ v := minCost_le ⟨l2, hl2, hl2c⟩
        have hveq : v = minCost g terrain start z := by omega
        obtain ⟨it, hit, hpos, hgv⟩ := inv.g_entry z v hv hnv
        refine ⟨it, hit, ?_⟩
        rw [inv.q_pr it hit, hpos, hgv, hveq]
      · have hlt : l1.length < (p :: q :: l').length := by
          have hle : (p :: q :: l').length = l1.length + 1 := by
            rw [heq]
            simp
          omega
        obtain ⟨it, hit, hle⟩ := ih l1.length hlt w l1 hl1 hc1 rfl hw
        refine ⟨it, hit, ?_⟩
        have hcz := hcons w z hstep
        have hcast : (minCost g terrain start z : ℝ) =
            (minCost g terrain start w : ℝ) + (getTerrainCost terrain z : ℝ) := by
          rw [hsum]
          push_cast
          ring
        rw [hcast]
        linarith

theorem aStar_pop_optimal {g : Grid} {start goal : Pos} {terrain : Option Terrain}
    {h : Pos → Pos → ℝ} {st : AStarState}
    (inv : AStarInv g start goal terrain h st)
    (hcons : ∀ a b, isStep g a b = true →
      h a goal ≤ (getTerrainCost terrain b : ℝ) + h b goal)
    {itm : PQItem AStarEntry ℝ} {rest : List (PQItem AStarEntry ℝ)}
    (hq : st.queue = itm :: rest) (hnv : itm.item.pos ∉ st.visited) :
    itm.item.g = minCost g terrain start itm.item.pos := by
  have hmem : itm ∈ st.queue := by
    rw [hq]
    exact List.mem_cons_self _ _
  have hpath := inv.q_path itm hmem
  have hcost := inv.q_cost itm hmem
  have hle : minCost g terrain start itm.item.pos ≤ itm.item.g :=
    minCost_le ⟨itm.item.path, hpath, hcost.symm⟩
  rcases Nat.lt_or_ge (minCost g terrain start itm.item.pos) itm.item.g with hlt | hge
  · exfalso
    obtain ⟨l, hl, hlc⟩ := minCost_mem ⟨itm.item.path, hpath⟩
    obtain ⟨it, hit, hple⟩ := aStar_good_entry inv hcons l.length itm.item.pos l hl hlc rfl hnv
    have h1 : itm.priority ≤ it.priority :=
      head_min_of_sorted inv.q_sorted (by rw [hq]; rfl) it hit
    have h2 : itm.priority = (itm.item.g : ℝ) + h itm.item.pos goal := inv.q_pr itm hmem
    have h3 : ((minCost g terrain start itm.item.pos : ℕ) : ℝ) < (itm.item.g : ℝ) := by
      exact_mod_cast hlt
    linarith
  · omega

theorem aStarInv_step {g : Grid} {start goal : Pos} {hn : HeuristicName} {opt : ℝ}
    {terrain : Option Terrain} {st st' : AStarState}
    (hterr : ∀ p, 1 ≤ getTerrainCost terrain p)
    (hcons : ∀ a b, isStep g a b = true →
      HEURISTICS hn a goal ≤ (getTerrainCost terrain b : ℝ) + HEURISTICS hn b goal)
    (inv : AStarInv g start goal terrain (HEURISTICS hn) st)
    (h : aStarStep g goal hn opt terrain st = .inr st') :
    AStarInv g start goal terrain (HEURISTICS hn) st' := by
  obtain ⟨itm, rest, hq, hcase⟩ := aStarStep_inr_elim h
  have hmem : itm ∈ st.queue := by
    rw [hq]
    exact List.mem_cons_self _ _
  have hsub : ∀ it ∈ rest, it ∈ st.queue := by
    intro it hit
    rw [hq]
    exact List.mem_cons_of_mem _ hit
  have hqs := inv.q_sorted
  rw [hq] at hqs
  have hrest_sorted := (List.pairwise_cons.mp hqs).2
  rcases hcase with ⟨hv, rfl⟩ | ⟨hnv, hng, rfl⟩
  · refine ⟨?_, ?_, ?_, hrest_sorted, inv.g_path, ?_, ?_, inv.closed_opt,
      inv.closed_edge, inv.g_start, inv.g_pos, ?_, inv.closed_start, inv.vn_rev,
      inv.vn_nodup, inv.count, inv.goal_not, ?_⟩
    · intro it hit
      exact inv.q_path it (hsub it hit)
    · intro it hit
      exact inv.q_cost it (hsub it hit)
    · intro it hit
      exact inv.q_pr it (hsub it hit)
    · intro p v hvp hnp
      obtain ⟨it, hit, hpos, hgv⟩ := inv.g_entry p v hvp hnp
      rw [hq] at hit
      rcases List.mem_cons.mp hit with rfl | hit'
      · exact absurd (hpos ▸ hv) hnp
      · exact ⟨it, hit', hpos, hgv⟩
    · intro it hit
      exact inv.g_le it (hsub it hit)
    · intro hnil it hit
      exact inv.fresh_start hnil it (hsub it hit)
    · right
      exact List.ne_nil_of_mem hv
  · obtain ⟨pushed, e1, e2, e3, e4, e5, e6, e7, e8, e9⟩ :=
      aStarExpand_spec g goal terrain (HEURISTICS hn) itm.item directions directions_nodup
        { st with
          queue := rest
          visited := itm.item.pos :: st.visited
          nodesExpanded := st.nodesExpanded + 1
          visitedNodes := st.visitedNodes ++ [itm.item.pos]
          totalHeuristic := st.totalHeuristic + HEURISTICS hn itm.item.pos goal
          totalFValue := st.totalFValue +
            ((itm.item.g : ℝ) + HEURISTICS hn itm.item.pos goal) }
    set stF := directions.foldl (aStarExpandDir g goal terrain (HEURISTICS hn) itm.item)
        { st with
          queue := rest
          visited := itm.item.pos :: st.visited
          nodesExpanded := st.nodesExpanded + 1
          visitedNodes := st.visitedNodes ++ [itm.item.pos]
          totalHeuristic := st.totalHeuristic + HEURISTICS hn itm.item.pos goal
          totalFValue := st.totalFValue +
            ((itm.item.g : ℝ) + HEURISTICS hn itm.item.pos goal) } with hstF
    have hupath : IsPath g start itm.item.pos itm.item.path := inv.q_path itm hmem
    have hucost : itm.item.g = walkCost terrain itm.item.path := inv.q_cost itm hmem
    have huopt : itm.item.g = minCost g terrain start itm.item.pos :=
      aStar_pop_optimal inv hcons hq hnv
    have hvis' : stF.visited = itm.item.pos :: st.visited := e1
    have hvn' : stF.visitedNodes = st.visitedNodes ++ [itm.item.pos] := e2
    have hne' : stF.nodesExpanded = st.nodesExpanded + 1 := e3
    have hpush_not_start : ∀ it ∈ pushed, it.item.pos ≠ start := by
      intro it hit heq
      have hnvis : it.item.pos ∉ itm.item.pos :: st.visited := (e7 it hit).2.2.2.2.1
      by_cases hsv : start ∈ st.visited
      · exact hnvis (by rw [heq]; exact List.mem_cons_of_mem _ hsv)
      · have hemp : st.visited = [] := by
          by_contra hne
          exact hsv (inv.closed_start hne)
        have hustart : itm.item.pos = start := inv.fresh_start hemp itm hmem
        apply hnvis
        rw [heq, ← hustart]
        exact List.mem_cons_self _ _
    have hpush_not_vis : ∀ it ∈ pushed,
        it.item.pos ∉ st.visited ∧ it.item.pos ≠ itm.item.pos := by
      intro it hit
      have hnvis : it.item.pos ∉ itm.item.pos :: st.visited := (e7 it hit).2.2.2.2.1
      simp only [List.mem_cons, not_or] at hnvis
      exact ⟨hnvis.2, hnvis.1⟩
    have hguard_lt : ∀ it ∈ pushed, ∀ v, gLookup st.gScore it.item.pos = some v →
        it.item.g < v := by
      intro it hit v hvv
      obtain ⟨d, hd, hdpos⟩ := (e7 it hit).2.2.2.2.2.2
      have hiff := (e9 d hd).mp ⟨it, hit, hdpos.symm⟩
      have hguard : gUpdateGuard (gLookup st.gScore (stepPos itm.item.pos d))
          (itm.item.g + getTerrainCost terrain (stepPos itm.item.pos d)) = true := hiff.2.2
      rw [hdpos, hvv] at hguard
      have hv1 : 1 ≤ v := inv.g_pos it.item.pos v (hpush_not_start it hit) hvv
      have hgq : it.item.g = itm.item.g + getTerrainCost terrain it.item.pos :=
        (e7 it hit).2.1
      simp only [gUpdateGuard, Bool.or_eq_true, decide_eq_true_eq] at hguard
      rcases hguard with h0 | hlt
      · omega
      · omega
    refine ⟨?_, ?_, ?_, ?_, ?_, ?_, ?_, ?_, ?_, ?_, ?_, ?_, ?_, ?_, ?_, ?_, ?_, ?_⟩
    · intro it hit
      rcases (e5 it).mp hit with hit' | hit'
      · exact inv.q_path it (hsub it hit')
      · obtain ⟨hpth, hgq, hpr, hval, hnvis3, hgl, d, hd, hdpos⟩ := e7 it hit'
        rw [hpth]
        exact hupath.append (isStep_of_dir ⟨d, hd, hdpos⟩ hval)
    · intro it hit
      rcases (e5 it).mp hit with hit' | hit'
      · exact inv.q_cost it (hsub it hit')
      · obtain ⟨hpth, hgq, hpr, hval, hnvis3, hgl, d, hd, hdpos⟩ := e7 it hit'
        rw [hgq, hpth, walkCost_append_last _ _ hupath.ne_nil, ← hucost]
    · intro it hit
      rcases (e5 it).mp hit with hit' | hit'
      · exact inv.q_pr it (hsub it hit')
      · exact (e7 it hit').2.2.1
    · exact e6 hrest_sorted
    · intro p v hvp
      by_cases hp : ∃ it ∈ pushed, it.item.pos = p
      · obtain ⟨it, hit, rfl⟩ := hp
        obtain ⟨hpth, hgq, hpr, hval, hnvis3, hgl, d, hd, hdpos⟩ := e7 it hit
        rw [hgl] at hvp
        have hveq : v = it.item.g := (Option.some_inj.mp hvp).symm
        refine ⟨itm.item.path ++ [it.item.pos],
          hupath.append (isStep_of_dir ⟨d, hd, hdpos⟩ hval), ?_⟩
        rw [walkCost_append_last _ _ hupath.ne_nil, ← hucost, hveq, hgq]
      · push_neg at hp
        rw [e8 p hp] at hvp
        exact inv.g_path p v hvp
    · intro p v hvp hnp
      rw [hvis'] at hnp
      by_cases hp : ∃ it ∈ pushed, it.item.pos = p
      · obtain ⟨it, hit, rfl⟩ := hp
        have hgl := (e7 it hit).2.2.2.2.2.1
        rw [hgl] at hvp
        exact ⟨it, (e5 it).mpr (Or.inr hit), rfl, Option.some_inj.mp hvp⟩
      · push_neg at hp
        rw [e8 p hp] at hvp
        obtain ⟨it0, hit0, hpos0, hg0⟩ := inv.g_entry p v hvp
          (fun hc => hnp (List.mem_cons_of_mem _ hc))
        rw [hq] at hit0
        rcases List.mem_cons.mp hit0 with rfl | hit0'
        · exfalso
          exact hnp (by rw [← hpos0]; exact List.mem_cons_self _ _)
        · exact ⟨it0, (e5 it0).mpr (Or.inl hit0'), hpos0, hg0⟩
    · intro it hit
      rcases (e5 it).mp hit with hit' | hit'
      · obtain ⟨v, hvv, hvle⟩ := inv.g_le it (hsub it hit')
        by_cases hp : ∃ itp ∈ pushed, itp.item.pos = it.item.pos
        · obtain ⟨itp, hitp, hpeq⟩ := hp
          have hgl := (e7 itp hitp).2.2.2.2.2.1
          refine ⟨itp.item.g, ?_, ?_⟩
          · rw [← hpeq]
            exact hgl
          · have hlt := hguard_lt itp hitp v (by rw [hpeq]; exact hvv)
            omega
        · push_neg at hp
          exact ⟨v, by rw [e8 it.item.pos hp]; exact hvv, hvle⟩
      · exact ⟨it.item.g, (e7 it hit').2.2.2.2.2.1, le_refl _⟩
    · intro u hu
      rw [hvis'] at hu
      have hnpush_u : ∀ itp ∈ pushed, itp.item.pos ≠ u := by
        intro itp hitp heq
        rcases List.mem_cons.mp hu with rfl | hu'
        · exact (hpush_not_vis itp hitp).2 heq
        · exact (hpush_not_vis itp hitp).1 (heq ▸ hu')
      rw [e8 u hnpush_u]
      rcases List.mem_cons.mp hu with hequ | hu'
      · obtain ⟨v, hvv, hvle⟩ := inv.g_le itm hmem
        obtain ⟨l2, hl2, hl2c⟩ := inv.g_path _ v hvv
        have hge : minCost g terrain start itm.item.pos ≤ v := minCost_le ⟨l2, hl2, hl2c⟩
        rw [hequ, hvv]
        exact congrArg some (by omega)
      · exact inv.closed_opt u hu'
    · intro w hw d hd hvalid hnvis2
      rw [hvis'] at hw hnvis2
      rcases List.mem_cons.mp hw with heqw | hw'
      · subst heqw
        by_cases hp : ∃ it ∈ pushed, it.item.pos = stepPos itm.item.pos d
        · obtain ⟨it, hit, hdeq⟩ := hp
          have hgl := (e7 it hit).2.2.2.2.2.1
          have hgq : it.item.g = itm.item.g + getTerrainCost terrain it.item.pos :=
            (e7 it hit).2.1
          refine ⟨it.item.g, by rw [← hdeq]; exact hgl, ?_⟩
          rw [hgq, ← huopt, hdeq]
        · have hguardC : ¬ (gUpdateGuard (gLookup st.gScore (stepPos itm.item.pos d))
              (itm.item.g + getTerrainCost terrain (stepPos itm.item.pos d)) = true) := by
            intro hgt
            exact hp ((e9 d hd).mpr ⟨hvalid, hnvis2, hgt⟩)
          push_neg at hp
          cases hgl : gLookup st.gScore (stepPos itm.item.pos d) with
          | none =>
            rw [hgl] at hguardC
            exact absurd rfl hguardC
          | some v0 =>
            rw [hgl] at hguardC
            simp only [gUpdateGuard, Bool.or_eq_true, decide_eq_true_eq, not_or,
              not_lt] at hguardC
            refine ⟨v0, ?_, ?_⟩
            · rw [e8 _ hp]
              exact hgl
            · rw [← huopt]
              omega
      · obtain ⟨v, hvv, hvle⟩ := inv.closed_edge w hw' d hd hvalid
          (fun hc => hnvis2 (List.mem_cons_of_mem _ hc))
        by_cases hp : ∃ it ∈ pushed, it.item.pos = stepPos w d
        · obtain ⟨it, hit, hdeq⟩ := hp
          have hgl := (e7 it hit).2.2.2.2.2.1
          have hlt := hguard_lt it hit v (by rw [hdeq]; exact hvv)
          refine ⟨it.item.g, by rw [← hdeq]; exact hgl, by omega⟩
        · push_neg at hp
          exact ⟨v, by rw [e8 _ hp]; exact hvv, hvle⟩
    · rw [e8 start hpush_not_start]
      exact inv.g_start
    · intro p v hp hvp
      by_cases hpu : ∃ it ∈ pushed, it.item.pos = p
      · obtain ⟨it, hit, rfl⟩ := hpu
        have hgl := (e7 it hit).2.2.2.2.2.1
        rw [hgl] at hvp
        have hveq := Option.some_inj.mp hvp
        have hgq : it.item.g = itm.item.g + getTerrainCost terrain it.item.pos :=
          (e7 it hit).2.1
        have hc1 := hterr it.item.pos
        omega
      · push_neg at hpu
        rw [e8 p hpu] at hvp
        exact inv.g_pos p v hp hvp
    · intro hnil
      rw [hvis'] at hnil
      exact absurd hnil (List.cons_ne_nil _ _)
    · intro _
      rw [hvis']
      by_cases hsv : start ∈ st.visited
      · exact List.mem_cons_of_mem _ hsv
      · have hemp : st.visited = [] := by
          by_contra hne
          exact hsv (inv.closed_start hne)
        have hustart : itm.item.pos = start := inv.fresh_start hemp itm hmem
        rw [← hustart]
        exact List.mem_cons_self _ _
    · rw [hvis', hvn', List.reverse_append, inv.vn_rev]
      simp
    · rw [hvn']
      have hu_notin : itm.item.pos ∉ st.visitedNodes := by
        intro hc
        apply hnv
        rw [inv.vn_rev]
        exact List.mem_reverse.mpr hc
      simp [List.nodup_append, inv.vn_nodup, hu_notin]
    · rw [hne', hvn']
      simp [inv.count]
    · rw [hvis']
      simp only [List.mem_cons, not_or]
      exact ⟨Ne.symm hng, inv.goal_not⟩
    · right
      rw [hvis']
      exact List.cons_ne_nil _ _

theorem aStarInv_reaches {g : Grid} {start goal : Pos} {hn : HeuristicName} {opt : ℝ}
    {terrain : Option Terrain} {st stf : AStarState}
    (hterr : ∀ p, 1 ≤ getTerrainCost terrain p)
    (hcons : ∀ a b, isStep g a b = true →
      HEURISTICS hn a goal ≤ (getTerrainCost terrain b : ℝ) + HEURISTICS hn b goal)
    (inv : AStarInv g start goal terrain (HEURISTICS hn) st)
    (h : AStarReaches g goal hn opt terrain st stf) :
    AStarInv g start goal terrain (HEURISTICS hn) stf := by
  induction h with
  | refl => exact inv
  | tail _ hstep ih => exact aStarInv_step hterr hcons ih hstep

/-- Everything the returned record of `aStar` guarantees, for a valid
start, positive terrain costs and a heuristic consistent on the grid:
path validity and minimum-cost optimality on success, empty path on
failure, counter consistency, the absent `totalSuccessors` key, and
success exactly on reachability. -/
theorem aStar_run_spec {g : Grid} {start goal : Pos} {hn : HeuristicName} {opt : ℝ}
    {terrain : Option Terrain}
    (hs : validCell g start = true)
    (hterr : ∀ p, 1 ≤ getTerrainCost terrain p)
    (hcons : ∀ a b, isStep g a b = true →
      HEURISTICS hn a goal ≤ (getTerrainCost terrain b : ℝ) + HEURISTICS hn b goal)
    {r : AStarResult} (hr : r = aStar g start goal hn opt terrain) :
    (r.success = true →
      IsPath g start goal r.path ∧
      r.pathCost = some (minCost g terrain start goal) ∧
      walkCost terrain r.path = minCost g terrain start goal ∧
      r.pathLength = r.path.length ∧
      r.pathOptimalityRatio = some (opt / (r.pathLength : ℝ))) ∧
    (r.success = false → r.path = [] ∧ r.pathCost = none ∧ goal ∉ r.visitedNodes) ∧
    r.nodesExpanded = r.visitedNodes.length ∧
    r.visitedNodes.Nodup ∧
    (∀ p ∈ r.visitedNodes, validCell g p = true) ∧
    r.completionPercentage = (r.nodesExpanded : ℝ) / (r.totalFreeSpaces : ℝ) * 100 ∧
    r.totalFreeSpaces = totalFreeSpaces g ∧
    r.totalSuccessors = none ∧
    (r.success = true ↔ Reach g start goal) := by
  have hqv : ∀ it ∈ (aStarInit start goal (HEURISTICS hn)).queue,
      validCell g it.item.pos = true := by
    intro it hit
    have hq0 : (aStarInit start goal (HEURISTICS hn)).queue =
        [⟨⟨start, [start], 0⟩, HEURISTICS hn start goal⟩] := rfl
    rw [hq0] at hit
    simp at hit
    rw [hit]
    exact hs
  obtain ⟨stf, hreach, hexit⟩ := aStarLoop_exit g goal hn opt terrain (aStarFuel g)
    (aStarInit start goal (HEURISTICS hn))
    (aStarMeasure_init_le g start goal (HEURISTICS hn)) hqv
  rw [← aStar] at hexit
  rw [← hr] at hexit
  have hinvf : AStarInv g start goal terrain (HEURISTICS hn) stf :=
    aStarInv_reaches hterr hcons (aStarInv_init hs) hreach
  rcases aStarStep_inl_elim hexit with ⟨hqnil, rfl⟩ | ⟨itm, rest, hq, hnv, hgoal, rfl⟩
  · have hnotreach : ¬ Reach g start goal := by
      intro hre
      have hclosed : ∀ w ∈ stf.visited, ∀ d ∈ directions,
          validCell g (stepPos w d) = true → stepPos w d ∈ stf.visited := by
        intro w hw d hd hv
        by_contra hnz
        obtain ⟨v, hvv, _⟩ := hinvf.closed_edge w hw d hd hv hnz
        obtain ⟨it, hit, _, _⟩ := hinvf.g_entry _ v hvv hnz
        rw [hqnil] at hit
        simp at hit
      have hsv : start ∈ stf.visited := by
        apply hinvf.closed_start
        rcases hinvf.nonempty with hne | hne
        · exact absurd hqnil hne
        · exact hne
      have hgv : goal ∈ stf.visited := reach_subset_of_closed hsv hclosed goal hre
      exact hinvf.goal_not hgv
    have hgvn : goal ∉ stf.visitedNodes := by
      intro hc
      apply hinvf.goal_not
      rw [hinvf.vn_rev]
      exact List.mem_reverse.mpr hc
    refine ⟨?_, ?_, ?_, ?_, ?_, ?_, ?_, ?_, ?_⟩
    · intro hsucc
      simp [aStarFailResult] at hsucc
    · intro _
      exact ⟨rfl, rfl, hgvn⟩
    · exact hinvf.count
    · exact hinvf.vn_nodup
    · intro p hp
      have hpv : p ∈ stf.visited := by
        rw [hinvf.vn_rev]
        exact List.mem_reverse.mpr hp
      have hgl := hinvf.closed_opt p hpv
      obtain ⟨l, hl, _⟩ := hinvf.g_path p _ hgl
      exact hl.last_valid
    · rfl
    · rfl
    · rfl
    · constructor
      · intro hsucc
        simp [aStarFailResult] at hsucc
      · intro hre
        exact absurd hre hnotreach
  · have hmemq : itm ∈ stf.queue := by
      rw [hq]
      exact List.mem_cons_self _ _
    have hcurpath : IsPath g start goal itm.item.path := by
      have := hinvf.q_path itm hmemq
      rwa [hgoal] at this
    have hgmin : itm.item.g = minCost g terrain start goal := by
      have := aStar_pop_optimal hinvf hcons hq hnv
      rwa [hgoal] at this
    have hnotin : itm.item.pos ∉ stf.visitedNodes := by
      intro hc
      apply hnv
      rw [hinvf.vn_rev]
      exact List.mem_reverse.mpr hc
    refine ⟨?_, ?_, ?_, ?_, ?_, ?_, ?_, ?_, ?_⟩
    · intro _
      refine ⟨hcurpath, ?_, ?_, rfl, rfl⟩
      · simp only [aStarSuccessResult]
        rw [hgmin]
      · rw [← hgmin]
        exact (hinvf.q_cost itm hmemq).symm
    · intro hsucc
      simp [aStarSuccessResult] at hsucc
    · simp only [aStarSuccessResult]
      simp [hinvf.count]
    · simp only [aStarSuccessResult]
      simp [List.nodup_append, hinvf.vn_nodup, hnotin]
    · intro p hp
      simp only [aStarSuccessResult] at hp
      rcases List.mem_append.mp hp with hp' | hp'
      · have hpv : p ∈ stf.visited := by
          rw [hinvf.vn_rev]
          exact List.mem_reverse.mpr hp'
        have hgl := hinvf.closed_opt p hpv
        obtain ⟨l, hl, _⟩ := hinvf.g_path p _ hgl
        exact hl.last_valid
      · rw [List.mem_singleton] at hp'
        rw [hp', hgoal]
        exact hcurpath.last_valid
    · rfl
    · rfl
    · rfl
    · constructor
      · intro _
        exact ⟨itm.item.path, hcurpath⟩
      · intro _
        rfl

theorem step_coords {g : Grid} {a b : Pos} (h : isStep g a b = true) :
    (|(a.row : ℝ) - b.row| = 1 ∧ (a.col : ℝ) = b.col) ∨
    (|(a.col : ℝ) - b.col| = 1 ∧ (a.row : ℝ) = b.row) := by
  obtain ⟨d, hd, rfl⟩ := isStep_dir h
  simp only [directions, List.mem_cons, List.not_mem_nil, or_false] at hd
  rcases hd with rfl | rfl | rfl | rfl
  · left
    constructor
    · have he : (a.row : ℝ) - ((stepPos a ⟨-1, 0⟩).row : ℝ) = 1 := by
        simp only [stepPos]
        push_cast
        ring
      rw [he]
      exact abs_one
    · simp only [stepPos]
      push_cast
      ring
  · right
    constructor
    · have he : (a.col : ℝ) - ((stepPos a ⟨0, 1⟩).col : ℝ) = -1 := by
        simp only [stepPos]
        push_cast
        ring
      rw [he]
      simp
    · simp only [stepPos]
      push_cast
      ring
  · left
    constructor
    · have he : (a.row : ℝ) - ((stepPos a ⟨1, 0⟩).row : ℝ) = -1 := by
        simp only [stepPos]
        push_cast
        ring
      rw [he]
      simp
    · simp only [stepPos]
      push_cast
      ring
  · right
    constructor
    · have he : (a.col : ℝ) - ((stepPos a ⟨0, -1⟩).col : ℝ) = 1 := by
        simp only [stepPos]
        push_cast
        ring
      rw [he]
      exact abs_one
    · simp only [stepPos]
      push_cast
      ring

/-- `manhattan` is consistent on any grid whose move costs are at least 1. -/
theorem manhattan_consistent {g : Grid} {terrain : Option Terrain} (goal : Pos)
    (hterr : ∀ p, 1 ≤ getTerrainCost terrain p) :
    ∀ a b, isStep g a b = true →
      manhattanDistance a goal ≤ (getTerrainCost terrain b : ℝ) +
        manhattanDistance b goal := by
  intro a b hab
  have hc1 : (1 : ℝ) ≤ (getTerrainCost terrain b : ℝ) := by
    exact_mod_cast hterr b
  have tr := abs_sub_le ((a.row : ℝ)) ((b.row : ℝ)) ((goal.row : ℝ))
  have tc := abs_sub_le ((a.col : ℝ)) ((b.col : ℝ)) ((goal.col : ℝ))
  rcases step_coords hab with ⟨hr, hc⟩ | ⟨hcp, hrp⟩
  · have h2 : |(a.col : ℝ) - goal.col| = |(b.col : ℝ) - goal.col| := by
      rw [hc]
    simp only [manhattanDistance]
    rw [h2]
    linarith
  · have h2 : |(a.row : ℝ) - goal.row| = |(b.row : ℝ) - goal.row| := by
      rw [hrp]
    simp only [manhattanDistance]
    rw [h2]
    linarith

/-- `chebyshev` is consistent on any grid whose move costs are at least 1. -/
theorem chebyshev_consistent {g : Grid} {terrain : Option Terrain} (goal : Pos)
    (hterr : ∀ p, 1 ≤ getTerrainCost terrain p) :
    ∀ a b, isStep g a b = true →
      chebyshevDistance a goal ≤ (getTerrainCost terrain b : ℝ) +
        chebyshevDistance b goal := by
  intro a b hab
  have hc1 : (1 : ℝ) ≤ (getTerrainCost terrain b : ℝ) := by
    exact_mod_cast hterr b
  have tr := abs_sub_le ((a.row : ℝ)) ((b.row : ℝ)) ((goal.row : ℝ))
  have tc := abs_sub_le ((a.col : ℝ)) ((b.col : ℝ)) ((goal.col : ℝ))
  have hbr := le_max_left |(b.row : ℝ) - goal.row| |(b.col : ℝ) - goal.col|
  have hbc := le_max_right |(b.row : ℝ) - goal.row| |(b.col : ℝ) - goal.col|
  simp only [chebyshevDistance]
  rcases step_coords hab with ⟨hr, hc⟩ | ⟨hcp, hrp⟩
  · apply max_le
    · linarith
    · have h2 : |(a.col : ℝ) - goal.col| = |(b.col : ℝ) - goal.col| := by
        rw [hc]
      linarith
  · apply max_le
    · have h2 : |(a.row : ℝ) - goal.row| = |(b.row : ℝ) - goal.row| := by
        rw [hrp]
      linarith
    · linarith

theorem euclideanDistance_eq_complexAbs (a b : Pos) :
    euclideanDistance a b =
      Complex.abs ⟨(a.row : ℝ) - b.row, (a.col : ℝ) - b.col⟩ := by
  rw [euclideanDistance, Complex.abs_apply, Complex.normSq_mk]
  ring_nf

theorem euclideanDistance_triangle (a b t : Pos) :
    euclideanDistance a t ≤ euclideanDistance a b + euclideanDistance b t := by
  rw [euclideanDistance_eq_complexAbs, euclideanDistance_eq_complexAbs,
    euclideanDistance_eq_complexAbs]
  have h : (⟨(a.row : ℝ) - t.row, (a.col : ℝ) - t.col⟩ : ℂ) =
      ⟨(a.row : ℝ) - b.row, (a.col : ℝ) - b.col⟩ +
        ⟨(b.row : ℝ) - t.row, (b.col : ℝ) - t.col⟩ := by
    apply Complex.ext
    · simp [Complex.add_re]
    · simp [Complex.add_im]
  rw [h]
  exact Complex.abs.add_le _ _

theorem euclideanDistance_step {g : Grid} {a b : Pos} (h : isStep g a b = true) :
    euclideanDistance a b = 1 := by
  rcases step_coords h with ⟨hr, hc⟩ | ⟨hcp, hrp⟩
  · have h2 : ((a.row : ℝ) - b.row) ^ 2 = 1 := by
      rw [← sq_abs, hr]
      norm_num
    have h3 : ((a.col : ℝ) - b.col) ^ 2 = 0 := by
      rw [hc]
      ring
    rw [euclideanDistance, h2, h3]
    norm_num
  · have h2 : ((a.col : ℝ) - b.col) ^ 2 = 1 := by
      rw [← sq_abs, hcp]
      norm_num
    have h3 : ((a.row : ℝ) - b.row) ^ 2 = 0 := by
      rw [hrp]
      ring
    rw [euclideanDistance, h2, h3]
    norm_num

/-- `euclidean` is consistent on any grid whose move costs are at least 1. -/
theorem euclidean_consistent {g : Grid} {terrain : Option Terrain} (goal : Pos)
    (hterr : ∀ p, 1 ≤ getTerrainCost terrain p) :
    ∀ a b, isStep g a b = true →
      euclideanDistance a goal ≤ (getTerrainCost terrain b : ℝ) +
        euclideanDistance b goal := by
  intro a b hab
  have hc1 : (1 : ℝ) ≤ (getTerrainCost terrain b : ℝ) := by
    exact_mod_cast hterr b
  have htri := euclideanDistance_triangle a b goal
  have hone := euclideanDistance_step hab
  linarith

/-- Each heuristic of the `HEURISTICS` table is consistent when move
costs are at least 1. -/
theorem HEURISTICS_consistent {g : Grid} {terrain : Option Terrain}
    (hn : HeuristicName) (goal : Pos)
    (hterr : ∀ p, 1 ≤ getTerrainCost terrain p) :
    ∀ a b, isStep g a b = true →
      HEURISTICS hn a goal ≤ (getTerrainCost terrain b : ℝ) +
        HEURISTICS hn b goal := by
  cases hn with
  | manhattan => exact manhattan_consistent goal hterr
  | euclidean => exact euclidean_consistent goal hterr
  | chebyshev => exact chebyshev_consistent goal hterr

/-- A duplicate-free list of free cells avoiding one free cell cannot
exhaust the free cells. -/
theorem visited_lt_free {g : Grid} {vn : List Pos} {goal : Pos}
    (hnodup : vn.Nodup) (hvalid : ∀ p ∈ vn, validCell g p = true)
    (hgoal : validCell g goal = true) (hnot : goal ∉ vn) :
    vn.length < totalFreeSpaces g := by
  rw [totalFreeSpaces_eq_card]
  have hsub : vn.toFinset ⊆ (freeFinset g).erase goal := by
    intro p hp
    rw [List.mem_toFinset] at hp
    rw [Finset.mem_erase]
    exact ⟨fun he => hnot (he ▸ hp), mem_freeFinset.mpr (hvalid p hp)⟩
  have h1 : vn.toFinset.card ≤ ((freeFinset g).erase goal).card :=
    Finset.card_le_card hsub
  have h2 : ((freeFinset g).erase goal).card < (freeFinset g).card :=
    Finset.card_erase_lt_of_mem (mem_freeFinset.mpr hgoal)
  have h3 : vn.toFinset.card = vn.length := List.toFinset_card_of_nodup hnodup
  omega

theorem ratio_lt_100_rat {n T : Nat} (h : n < T) :
    (n : ℚ) / (T : ℚ) * 100 < 100 := by
  have hT : (0 : ℚ) < (T : ℚ) := by
    have : 0 < T := by omega
    exact_mod_cast this
  have hlt : (n : ℚ) / (T : ℚ) < 1 := by
    rw [div_lt_one hT]
    exact_mod_cast h
  nlinarith

theorem ratio_lt_100_real {n T : Nat} (h : n < T) :
    (n : ℝ) / (T : ℝ) * 100 < 100 := by
  have hT : (0 : ℝ) < (T : ℝ) := by
    have : 0 < T := by omega
    exact_mod_cast this
  have hlt : (n : ℝ) / (T : ℝ) < 1 := by
    rw [div_lt_one hT]
    exact_mod_cast h
  nlinarith

theorem bfsLoop_totalSuccessors_none (g : Grid) (goal : Pos) (opt : ℚ)
    (terrain : Option Terrain) :
    ∀ (fuel : Nat) (st : SearchState),
      (bfsLoop g goal opt terrain fuel st).totalSuccessors = none := by
  intro fuel
  induction fuel with
  | zero => intro st; rfl
  | succ fuel ih =>
    intro st
    rw [bfsLoop]
    match h : bfsStep g goal opt terrain st with
    | .inl r =>
      rcases bfsStep_inl_elim h with ⟨_, rfl⟩ | ⟨c, rest, _, _, rfl⟩ <;> rfl
    | .inr st' => exact ih st'

theorem dfsLoop_totalSuccessors_none (g : Grid) (goal : Pos) (opt : ℚ)
    (terrain : Option Terrain) :
    ∀ (fuel : Nat) (st : SearchState),
      (dfsLoop g goal opt terrain fuel st).totalSuccessors = none := by
  intro fuel
  induction fuel with
  | zero => intro st; rfl
  | succ fuel ih =>
    intro st
    rw [dfsLoop]
    match h : dfsStep g goal opt terrain st with
    | .inl r =>
      rcases dfsStep_inl_elim h with ⟨_, rfl⟩ | ⟨c, rest, _, _, rfl⟩ <;> rfl
    | .inr st' => exact ih st'

theorem aStarLoop_totalSuccessors_none (g : Grid) (goal : Pos) (hn : HeuristicName)
    (opt : ℝ) (terrain : Option Terrain) :
    ∀ (fuel : Nat) (st : AStarState),
      (aStarLoop g goal hn opt terrain fuel st).totalSuccessors = none := by
  intro fuel
  induction fuel with
  | zero => intro st; rfl
  | succ fuel ih =>
    intro st
    rw [aStarLoop]
    match h : aStarStep g goal hn opt terrain st with
    | .inl r =>
      rcases aStarStep_inl_elim h with ⟨_, rfl⟩ | ⟨c, rest, _, _, _, rfl⟩ <;> rfl
    | .inr st' => exact ih st'

/-- When every recorded score is at least 1, the source's truthiness
test agrees with the specification's ideal update test. -/
theorem guard_iff_ideal {v : Option Nat} {n : Nat} (hv : ∀ w, v = some w → 1 ≤ w) :
    gUpdateGuard v n = true ↔ gIdealGuard v n := by
  cases v with
  | none =>
    simp [gUpdateGuard, gIdealGuard]
  | some w =>
    have h1 := hv w rfl
    constructor
    · intro hg
      simp only [gUpdateGuard, Bool.or_eq_true, decide_eq_true_eq] at hg
      right
      exact ⟨w, rfl, by omega⟩
    · rintro (hnone | ⟨old, hold, hlt⟩)
      · exact absurd hnone (by simp)
      · have : w = old := Option.some_inj.mp hold
        simp only [gUpdateGuard, Bool.or_eq_true, decide_eq_true_eq]
        right
        omega

/-! ## The claims -/

/-- C1: with a valid start, positive move costs and a reachable goal,
`aStar` (under any of the three heuristics) succeeds and returns a
`pathCost` equal to the least accumulated terrain cost over all valid
traversals from start to goal; in particular that cost is at most any
`pathCost` returned by `bfs` or by `dfs` on the same grid and terrain. -/
theorem C1_aStar_pathCost_optimal (g : Grid) (start goal : Pos) (hn : HeuristicName)
    (opt : ℝ) (optQ : ℚ) (terrain : Option Terrain)
    (hs : validCell g start = true)
    (hterr : ∀ p, 1 ≤ getTerrainCost terrain p)
    (hre : Reach g start goal) :
    (aStar g start goal hn opt terrain).success = true ∧
    (aStar g start goal hn opt terrain).pathCost =
      some (minCost g terrain start goal) ∧
    IsLeast (costSet g terrain start goal) (minCost g terrain start goal) ∧
    (∀ cb, (bfs g start goal optQ terrain).pathCost = some cb →
      minCost g terrain start goal ≤ cb) ∧
    (∀ cd, (dfs g start goal optQ terrain).pathCost = some cd →
      minCost g terrain start goal ≤ cd) := by
  have hcons : ∀ a b, isStep g a b = true →
      HEURISTICS hn a goal ≤ (getTerrainCost terrain b : ℝ) + HEURISTICS hn b goal :=
    HEURISTICS_consistent hn goal hterr
  have hspec := aStar_run_spec hs hterr hcons
    (Eq.refl (aStar g start goal hn opt terrain))
  have hsucc : (aStar g start goal hn opt terrain).success = true :=
    hspec.2.2.2.2.2.2.2.2.mpr hre
  refine ⟨hsucc, (hspec.1 hsucc).2.1,
    ⟨minCost_mem hre, fun c hc => minCost_le hc⟩, ?_, ?_⟩
  · intro cb hcb
    have hbspec := bfs_run_spec hs (Eq.refl (bfs g start goal optQ terrain))
    cases hbs : (bfs g start goal optQ terrain).success with
    | false =>
      rw [(hbspec.2.1 hbs).2.1] at hcb
      exact absurd hcb (by simp)
    | true =>
      obtain ⟨hbp, hbc, _⟩ := hbspec.1 hbs
      rw [hbc] at hcb
      rw [← Option.some_inj.mp hcb]
      exact minCost_le ⟨_, hbp, rfl⟩
  · intro cd hcd
    have hdspec := dfs_run_spec hs (Eq.refl (dfs g start goal optQ terrain))
    cases hds : (dfs g start goal optQ terrain).success with
    | false =>
      rw [(hdspec.2.1 hds).2.1] at hcd
      exact absurd hcd (by simp)
    | true =>
      obtain ⟨hdp, hdc, _⟩ := hdspec.1 hds
      rw [hdc] at hcd
      rw [← Option.some_inj.mp hcd]
      exact minCost_le ⟨_, hdp, rfl⟩

theorem C1_aStar_pathCost_optimal_witness :
    validCell [[Cell.empty, Cell.empty]] ⟨0, 0⟩ = true ∧
    (∀ p, 1 ≤ getTerrainCost none p) ∧
    Reach [[Cell.empty, Cell.empty]] ⟨0, 0⟩ ⟨0, 1⟩ ∧
    ((aStar [[Cell.empty, Cell.empty]] ⟨0, 0⟩ ⟨0, 1⟩ HeuristicName.manhattan 0
        none).success = true ∧
      (aStar [[Cell.empty, Cell.empty]] ⟨0, 0⟩ ⟨0, 1⟩ HeuristicName.manhattan 0
        none).pathCost = some (minCost [[Cell.empty, Cell.empty]] none ⟨0, 0⟩ ⟨0, 1⟩) ∧
      IsLeast (costSet [[Cell.empty, Cell.empty]] none ⟨0, 0⟩ ⟨0, 1⟩)
        (minCost [[Cell.empty, Cell.empty]] none ⟨0, 0⟩ ⟨0, 1⟩) ∧
      (∀ cb, (bfs [[Cell.empty, Cell.empty]] ⟨0, 0⟩ ⟨0, 1⟩ 0 none).pathCost = some cb →
        minCost [[Cell.empty, Cell.empty]] none ⟨0, 0⟩ ⟨0, 1⟩ ≤ cb) ∧
      (∀ cd, (dfs [[Cell.empty, Cell.empty]] ⟨0, 0⟩ ⟨0, 1⟩ 0 none).pathCost = some cd →
        minCost [[Cell.empty, Cell.empty]] none ⟨0, 0⟩ ⟨0, 1⟩ ≤ cd)) :=
  ⟨by decide, fun p => le_refl 1, ⟨[⟨0, 0⟩, ⟨0, 1⟩], by decide⟩,
    C1_aStar_pathCost_optimal [[Cell.empty, Cell.empty]] ⟨0, 0⟩ ⟨0, 1⟩
      HeuristicName.manhattan 0 0 none (by decide) (fun p => le_refl 1)
      ⟨[⟨0, 0⟩, ⟨0, 1⟩], by decide⟩⟩

/-- C2: on a uniform-cost grid (no terrain overlay) whose goal is
reachable, `bfs` succeeds and its `pathLength` is the least number of
positions of any valid traversal from start to goal. -/
theorem C2_bfs_pathLength_shortest (g : Grid) (start goal : Pos) (opt : ℚ)
    (hs : validCell g start = true) (hre : Reach g start goal) :
    (bfs g start goal opt none).success = true ∧
    IsLeast (lenSet g start goal) (bfs g start goal opt none).pathLength := by
  have hspec := bfs_run_spec hs (Eq.refl (bfs g start goal opt none))
  have hsucc : (bfs g start goal opt none).success = true :=
    hspec.2.2.2.2.2.2.2.2.mpr hre
  exact ⟨hsucc, (hspec.1 hsucc).2.2.2.1⟩

theorem C2_bfs_pathLength_shortest_witness :
    validCell [[Cell.empty, Cell.empty, Cell.empty, Cell.empty, Cell.empty],
      [Cell.empty, Cell.empty, Cell.empty, Cell.empty, Cell.empty],
      [Cell.empty, Cell.empty, Cell.empty, Cell.empty, Cell.empty],
      [Cell.empty, Cell.empty, Cell.empty, Cell.empty, Cell.empty],
      [Cell.empty, Cell.empty, Cell.empty, Cell.empty, Cell.empty]] ⟨0, 0⟩ = true ∧
    (bfs [[Cell.empty, Cell.empty, Cell.empty, Cell.empty, Cell.empty],
      [Cell.empty, Cell.empty, Cell.empty, Cell.empty, Cell.empty],
      [Cell.empty, Cell.empty, Cell.empty, Cell.empty, Cell.empty],
      [Cell.empty, Cell.empty, Cell.empty, Cell.empty, Cell.empty],
      [Cell.empty, Cell.empty, Cell.empty, Cell.empty, Cell.empty]]
      ⟨0, 0⟩ ⟨4, 4⟩ 9 none).pathLength = 9 ∧
    ((bfs [[Cell.empty, Cell.empty, Cell.empty, Cell.empty, Cell.empty],
      [Cell.empty, Cell.empty, Cell.empty, Cell.empty, Cell.empty],
      [Cell.empty, Cell.empty, Cell.empty, Cell.empty, Cell.empty],
      [Cell.empty, Cell.empty, Cell.empty, Cell.empty, Cell.empty],
      [Cell.empty, Cell.empty, Cell.empty, Cell.empty, Cell.empty]]
      ⟨0, 0⟩ ⟨4, 4⟩ 9 none).success = true ∧
    IsLeast (lenSet [[Cell.empty, Cell.empty, Cell.empty, Cell.empty, Cell.empty],
      [Cell.empty, Cell.empty, Cell.empty, Cell.empty, Cell.empty],
      [Cell.empty, Cell.empty, Cell.empty, Cell.empty, Cell.empty],
      [Cell.empty, Cell.empty, Cell.empty, Cell.empty, Cell.empty],
      [Cell.empty, Cell.empty, Cell.empty, Cell.empty, Cell.empty]] ⟨0, 0⟩ ⟨4, 4⟩)
      (bfs [[Cell.empty, Cell.empty, Cell.empty, Cell.empty, Cell.empty],
        [Cell.empty, Cell.empty, Cell.empty, Cell.empty, Cell.empty],
        [Cell.empty, Cell.empty, Cell.empty, Cell.empty, Cell.empty],
        [Cell.empty, Cell.empty, Cell.empty, Cell.empty, Cell.empty],
        [Cell.empty, Cell.empty, Cell.empty, Cell.empty, Cell.empty]]
        ⟨0, 0⟩ ⟨4, 4⟩ 9 none).pathLength) :=
  ⟨by decide, by decide,
    C2_bfs_pathLength_shortest _ ⟨0, 0⟩ ⟨4, 4⟩ 9 (by decide)
      ⟨[⟨0, 0⟩, ⟨0, 1⟩, ⟨0, 2⟩, ⟨0, 3⟩, ⟨0, 4⟩, ⟨1, 4⟩, ⟨2, 4⟩, ⟨3, 4⟩, ⟨4, 4⟩],
        by decide⟩⟩

/-- C3: whenever one of the three algorithms succeeds, its returned path
is a valid traversal (starts at the start, ends at the goal, moves
4-directionally through free in-bounds cells) and its `pathCost` is the
sum of the terrain costs of the path's positions after the start (1 per
cell without a terrain overlay); whenever it fails, its path is empty. -/
theorem C3_path_validity (g : Grid) (start goal : Pos) (opt : ℚ) (optR : ℝ)
    (hn : HeuristicName) (terrain : Option Terrain)
    (hs : validCell g start = true)
    (hterr : ∀ p, 1 ≤ getTerrainCost terrain p) :
    ((bfs g start goal opt terrain).success = true →
      IsPath g start goal (bfs g start goal opt terrain).path ∧
      (∀ p ∈ (bfs g start goal opt terrain).path, validCell g p = true) ∧
      (bfs g start goal opt terrain).pathCost =
        some (walkCost terrain (bfs g start goal opt terrain).path)) ∧
    ((bfs g start goal opt terrain).success = false →
      (bfs g start goal opt terrain).path = []) ∧
    ((dfs g start goal opt terrain).success = true →
      IsPath g start goal (dfs g start goal opt terrain).path ∧
      (∀ p ∈ (dfs g start goal opt terrain).path, validCell g p = true) ∧
      (dfs g start goal opt terrain).pathCost =
        some (walkCost terrain (dfs g start goal opt terrain).path)) ∧
    ((dfs g start goal opt terrain).success = false →
      (dfs g start goal opt terrain).path = []) ∧
    ((aStar g start goal hn optR terrain).success = true →
      IsPath g start goal (aStar g start goal hn optR terrain).path ∧
      (∀ p ∈ (aStar g start goal hn optR terrain).path, validCell g p = true) ∧
      (aStar g start goal hn optR terrain).pathCost =
        some (walkCost terrain (aStar g start goal hn optR terrain).path)) ∧
    ((aStar g start goal hn optR terrain).success = false →
      (aStar g start goal hn optR terrain).path = []) := by
  have hcons : ∀ a b, isStep g a b = true →
      HEURISTICS hn a goal ≤ (getTerrainCost terrain b : ℝ) + HEURISTICS hn b goal :=
    HEURISTICS_consistent hn goal hterr
  have hb := bfs_run_spec hs (Eq.refl (bfs g start goal opt terrain))
  have hd := dfs_run_spec hs (Eq.refl (dfs g start goal opt terrain))
  have ha := aStar_run_spec hs hterr hcons
    (Eq.refl (aStar g start goal hn optR terrain))
  refine ⟨?_, ?_, ?_, ?_, ?_, ?_⟩
  · intro h
    obtain ⟨hp, hc, _⟩ := hb.1 h
    exact ⟨hp, hp.mem_valid, hc⟩
  · intro h
    exact (hb.2.1 h).1
  · intro h
    obtain ⟨hp, hc, _⟩ := hd.1 h
    exact ⟨hp, hp.mem_valid, hc⟩
  · intro h
    exact (hd.2.1 h).1
  · intro h
    obtain ⟨hp, hc, hwc, _⟩ := ha.1 h
    refine ⟨hp, hp.mem_valid, ?_⟩
    rw [hc, hwc]
  · intro h
    exact (ha.2.1 h).1

theorem C3_path_validity_witness :
    validCell [[Cell.empty, Cell.empty]] ⟨0, 0⟩ = true ∧
    (∀ p, 1 ≤ getTerrainCost none p) ∧
    (((bfs [[Cell.empty, Cell.empty]] ⟨0, 0⟩ ⟨0, 1⟩ 2 none).success = true →
      IsPath [[Cell.empty, Cell.empty]] ⟨0, 0⟩ ⟨0, 1⟩
        (bfs [[Cell.empty, Cell.empty]] ⟨0, 0⟩ ⟨0, 1⟩ 2 none).path ∧
      (∀ p ∈ (bfs [[Cell.empty, Cell.empty]] ⟨0, 0⟩ ⟨0, 1⟩ 2 none).path,
        validCell [[Cell.empty, Cell.empty]] p = true) ∧
      (bfs [[Cell.empty, Cell.empty]] ⟨0, 0⟩ ⟨0, 1⟩ 2 none).pathCost =
        some (walkCost none (bfs [[Cell.empty, Cell.empty]] ⟨0, 0⟩ ⟨0, 1⟩ 2 none).path)) ∧
    ((bfs [[Cell.empty, Cell.empty]] ⟨0, 0⟩ ⟨0, 1⟩ 2 none).success = false →
      (bfs [[Cell.empty, Cell.empty]] ⟨0, 0⟩ ⟨0, 1⟩ 2 none).path = []) ∧
    ((dfs [[Cell.empty, Cell.empty]] ⟨0, 0⟩ ⟨0, 1⟩ 2 none).success = true →
      IsPath [[Cell.empty, Cell.empty]] ⟨0, 0⟩ ⟨0, 1⟩
        (dfs [[Cell.empty, Cell.empty]] ⟨0, 0⟩ ⟨0, 1⟩ 2 none).path ∧
      (∀ p ∈ (dfs [[Cell.empty, Cell.empty]] ⟨0, 0⟩ ⟨0, 1⟩ 2 none).path,
        validCell [[Cell.empty, Cell.empty]] p = true) ∧
      (dfs [[Cell.empty, Cell.empty]] ⟨0, 0⟩ ⟨0, 1⟩ 2 none).pathCost =
        some (walkCost none (dfs [[Cell.empty, Cell.empty]] ⟨0, 0⟩ ⟨0, 1⟩ 2 none).path)) ∧
    ((dfs [[Cell.empty, Cell.empty]] ⟨0, 0⟩ ⟨0, 1⟩ 2 none).success = false →
      (dfs [[Cell.empty, Cell.empty]] ⟨0, 0⟩ ⟨0, 1⟩ 2 none).path = []) ∧
    ((aStar [[Cell.empty, Cell.empty]] ⟨0, 0⟩ ⟨0, 1⟩ HeuristicName.manhattan 2
        none).success = true →
      IsPath [[Cell.empty, Cell.empty]] ⟨0, 0⟩ ⟨0, 1⟩
        (aStar [[Cell.empty, Cell.empty]] ⟨0, 0⟩ ⟨0, 1⟩ HeuristicName.manhattan 2 none).path ∧
      (∀ p ∈ (aStar [[Cell.empty, Cell.empty]] ⟨0, 0⟩ ⟨0, 1⟩ HeuristicName.manhattan 2
          none).path, validCell [[Cell.empty, Cell.empty]] p = true) ∧
      (aStar [[Cell.empty, Cell.empty]] ⟨0, 0⟩ ⟨0, 1⟩ HeuristicName.manhattan 2
        none).pathCost = some (walkCost none (aStar [[Cell.empty, Cell.empty]] ⟨0, 0⟩
          ⟨0, 1⟩ HeuristicName.manhattan 2 none).path)) ∧
    ((aStar [[Cell.empty, Cell.empty]] ⟨0, 0⟩ ⟨0, 1⟩ HeuristicName.manhattan 2
        none).success = false →
      (aStar [[Cell.empty, Cell.empty]] ⟨0, 0⟩ ⟨0, 1⟩ HeuristicName.manhattan 2
        none).path = [])) :=
  ⟨by decide, fun p => le_refl 1,
    C3_path_validity [[Cell.empty, Cell.empty]] ⟨0, 0⟩ ⟨0, 1⟩ 2 2
      HeuristicName.manhattan none (by decide) (fun p => le_refl 1)⟩

/-- C4 (counterexample): on the weighted 1×2 grid with terrain costs
`[1, 5]` and optimal reference 5, the successful `bfs` result is in
weighted mode and has `pathCost` 5, yet its `pathOptimalityRatio` is
5/2 — the optimal reference divided by the path length in positions —
not the claimed 5/5 with the path cost as denominator. -/
theorem C4_ratio_counterexample :
    (bfs [[Cell.empty, Cell.empty]] ⟨0, 0⟩ ⟨0, 1⟩ 5 (some [[1, 5]])).isWeighted = true ∧
    (bfs [[Cell.empty, Cell.empty]] ⟨0, 0⟩ ⟨0, 1⟩ 5 (some [[1, 5]])).pathCost = some 5 ∧
    (bfs [[Cell.empty, Cell.empty]] ⟨0, 0⟩ ⟨0, 1⟩ 5 (some [[1, 5]])).pathOptimalityRatio =
      some (5 / 2 : ℚ) ∧
    (5 / 2 : ℚ) ≠ 5 / 5 := by
  have hspec := bfs_run_spec
    (show validCell [[Cell.empty, Cell.empty]] ⟨0, 0⟩ = true by decide)
    (Eq.refl (bfs [[Cell.empty, Cell.empty]] ⟨0, 0⟩ ⟨0, 1⟩ 5 (some [[1, 5]])))
  have hsucc : (bfs [[Cell.empty, Cell.empty]] ⟨0, 0⟩ ⟨0, 1⟩ 5
      (some [[1, 5]])).success = true := by decide
  obtain ⟨_, _, hlen, _, hratio⟩ := hspec.1 hsucc
  have hplen : (bfs [[Cell.empty, Cell.empty]] ⟨0, 0⟩ ⟨0, 1⟩ 5
      (some [[1, 5]])).pathLength = 2 := by decide
  refine ⟨by decide, by decide, ?_, by norm_num⟩
  rw [hratio, hplen]
  norm_num

/-- C4 (amended): the `pathOptimalityRatio` field written by the
algorithms divides the optimal reference by the path length in
positions, in weighted and uniform mode alike; only the metrics display
component divides by the path cost when a terrain overlay is active. -/
theorem C4_ratio_field_uses_length (g : Grid) (start goal : Pos) (opt : ℚ)
    (optR : ℝ) (hn : HeuristicName) (terrain : Option Terrain)
    (hs : validCell g start = true)
    (hterr : ∀ p, 1 ≤ getTerrainCost terrain p) :
    ((bfs g start goal opt terrain).success = true →
      (bfs g start goal opt terrain).pathOptimalityRatio =
        some (opt / ((bfs g start goal opt terrain).pathLength : ℚ))) ∧
    ((dfs g start goal opt terrain).success = true →
      (dfs g start goal opt terrain).pathOptimalityRatio =
        some (opt / ((dfs g start goal opt terrain).pathLength : ℚ))) ∧
    ((aStar g start goal hn optR terrain).success = true →
      (aStar g start goal hn optR terrain).pathOptimalityRatio =
        some (optR / ((aStar g start goal hn optR terrain).pathLength : ℝ))) ∧
    (∀ c l : ℚ, metricsOptimalityRatio opt true c l = opt / c) ∧
    (∀ c l : ℚ, metricsOptimalityRatio opt false c l = opt / l) := by
  have hcons : ∀ a b, isStep g a b = true →
      HEURISTICS hn a goal ≤ (getTerrainCost terrain b : ℝ) + HEURISTICS hn b goal :=
    HEURISTICS_consistent hn goal hterr
  have hb := bfs_run_spec hs (Eq.refl (bfs g start goal opt terrain))
  have hd := dfs_run_spec hs (Eq.refl (dfs g start goal opt terrain))
  have ha := aStar_run_spec hs hterr hcons
    (Eq.refl (aStar g start goal hn optR terrain))
  exact ⟨fun h => (hb.1 h).2.2.2.2, fun h => (hd.1 h).2.2.2,
    fun h => (ha.1 h).2.2.2.2, fun c l => rfl, fun c l => rfl⟩

theorem terrain_one_five_pos : ∀ p : Pos, 1 ≤ getTerrainCost (some [[1, 5]]) p := by
  intro p
  simp only [getTerrainCost]
  cases hr : p.row.toNat with
  | zero =>
    cases hc : p.col.toNat with
    | zero => simp
    | succ c =>
      cases c with
      | zero => simp
      | succ c => simp
  | succ r => simp

theorem C4_ratio_field_uses_length_witness :
    validCell [[Cell.empty, Cell.empty]] ⟨0, 0⟩ = true ∧
    (∀ p, 1 ≤ getTerrainCost (some [[1, 5]]) p) ∧
    (((bfs [[Cell.empty, Cell.empty]] ⟨0, 0⟩ ⟨0, 1⟩ 5 (some [[1, 5]])).success = true →
      (bfs [[Cell.empty, Cell.empty]] ⟨0, 0⟩ ⟨0, 1⟩ 5 (some [[1, 5]])).pathOptimalityRatio =
        some (5 / ((bfs [[Cell.empty, Cell.empty]] ⟨0, 0⟩ ⟨0, 1⟩ 5
          (some [[1, 5]])).pathLength : ℚ))) ∧
    ((dfs [[Cell.empty, Cell.empty]] ⟨0, 0⟩ ⟨0, 1⟩ 5 (some [[1, 5]])).success = true →
      (dfs [[Cell.empty, Cell.empty]] ⟨0, 0⟩ ⟨0, 1⟩ 5 (some [[1, 5]])).pathOptimalityRatio =
        some (5 / ((dfs [[Cell.empty, Cell.empty]] ⟨0, 0⟩ ⟨0, 1⟩ 5
          (some [[1, 5]])).pathLength : ℚ))) ∧
    ((aStar [[Cell.empty, Cell.empty]] ⟨0, 0⟩ ⟨0, 1⟩ HeuristicName.manhattan 5
        (some [[1, 5]])).success = true →
      (aStar [[Cell.empty, Cell.empty]] ⟨0, 0⟩ ⟨0, 1⟩ HeuristicName.manhattan 5
        (some [[1, 5]])).pathOptimalityRatio =
        some (5 / ((aStar [[Cell.empty, Cell.empty]] ⟨0, 0⟩ ⟨0, 1⟩
          HeuristicName.manhattan 5 (some [[1, 5]])).pathLength : ℝ))) ∧
    (∀ c l : ℚ, metricsOptimalityRatio 5 true c l = 5 / c) ∧
    (∀ c l : ℚ, metricsOptimalityRatio 5 false c l = 5 / l)) :=
  ⟨by decide, terrain_one_five_pos,
    C4_ratio_field_uses_length [[Cell.empty, Cell.empty]] ⟨0, 0⟩ ⟨0, 1⟩ 5 5
      HeuristicName.manhattan (some [[1, 5]]) (by decide) terrain_one_five_pos⟩

/-- C5: contrary to the specification, no result record of `bfs`, `dfs`
or `aStar` carries a `totalSuccessors` value — every return statement of
the three algorithms omits the key, on success and on failure alike, so
a consumer reading it (as the metrics component does) finds it absent. -/
theorem C5_totalSuccessors_absent (g : Grid) (start goal : Pos) (opt : ℚ)
    (optR : ℝ) (hn : HeuristicName) (terrain : Option Terrain) :
    (bfs g start goal opt terrain).totalSuccessors = none ∧
    (dfs g start goal opt terrain).totalSuccessors = none ∧
    (aStar g start goal hn optR terrain).totalSuccessors = none :=
  ⟨bfsLoop_totalSuccessors_none g goal opt terrain (searchFuel g) (searchInit start),
   dfsLoop_totalSuccessors_none g goal opt terrain (searchFuel g) (searchInit start),
   aStarLoop_totalSuccessors_none g goal hn optR terrain (aStarFuel g)
     (aStarInit start goal (HEURISTICS hn))⟩

/-- C6 (counterexample): on the 3×3 grid whose lower-right goal corner
is walled off, `bfs` does fail with an empty path, but its
`completionPercentage` is 600/7, not the claimed 100: the enclosed goal
cell and its free unreachable neighbour still count into
`totalFreeSpaces`. -/
theorem C6_completion_counterexample :
    (bfs [[Cell.empty, Cell.empty, Cell.empty],
      [Cell.empty, Cell.empty, Cell.obstacle],
      [Cell.empty, Cell.obstacle, Cell.empty]] ⟨0, 0⟩ ⟨2, 2⟩ 0 none).success = false ∧
    (bfs [[Cell.empty, Cell.empty, Cell.empty],
      [Cell.empty, Cell.empty, Cell.obstacle],
      [Cell.empty, Cell.obstacle, Cell.empty]] ⟨0, 0⟩ ⟨2, 2⟩ 0 none).path = [] ∧
    (bfs [[Cell.empty, Cell.empty, Cell.empty],
      [Cell.empty, Cell.empty, Cell.obstacle],
      [Cell.empty, Cell.obstacle, Cell.empty]] ⟨0, 0⟩ ⟨2, 2⟩ 0
        none).completionPercentage = 600 / 7 ∧
    (600 / 7 : ℚ) ≠ 100 := by
  have hspec := bfs_run_spec
    (show validCell [[Cell.empty, Cell.empty, Cell.empty],
      [Cell.empty, Cell.empty, Cell.obstacle],
      [Cell.empty, Cell.obstacle, Cell.empty]] ⟨0, 0⟩ = true by decide)
    (Eq.refl (bfs [[Cell.empty, Cell.empty, Cell.empty],
      [Cell.empty, Cell.empty, Cell.obstacle],
      [Cell.empty, Cell.obstacle, Cell.empty]] ⟨0, 0⟩ ⟨2, 2⟩ 0 none))
  have hne : (bfs [[Cell.empty, Cell.empty, Cell.empty],
      [Cell.empty, Cell.empty, Cell.obstacle],
      [Cell.empty, Cell.obstacle, Cell.empty]] ⟨0, 0⟩ ⟨2, 2⟩ 0
        none).nodesExpanded = 6 := by decide
  have htf : (bfs [[Cell.empty, Cell.empty, Cell.empty],
      [Cell.empty, Cell.empty, Cell.obstacle],
      [Cell.empty, Cell.obstacle, Cell.empty]] ⟨0, 0⟩ ⟨2, 2⟩ 0
        none).totalFreeSpaces = 7 := by decide
  refine ⟨by decide, by decide, ?_, by norm_num⟩
  rw [hspec.2.2.2.2.2.1, hne, htf]
  norm_num

/-- C6 (amended): when the goal cell is free but unreachable from the
start, each of the three algorithms returns `success: false` with an
empty path, and its `completionPercentage` — `nodesExpanded` over
`totalFreeSpaces`, times 100 — is strictly below 100, because the free
goal cell counts into the denominator but is never expanded. -/
theorem C6_enclosed_goal (g : Grid) (start goal : Pos) (opt : ℚ) (optR : ℝ)
    (hn : HeuristicName) (terrain : Option Terrain)
    (hs : validCell g start = true) (hgv : validCell g goal = true)
    (hterr : ∀ p, 1 ≤ getTerrainCost terrain p)
    (hnr : ¬ Reach g start goal) :
    ((bfs g start goal opt terrain).success = false ∧
      (bfs g start goal opt terrain).path = [] ∧
      (bfs g start goal opt terrain).completionPercentage < 100) ∧
    ((dfs g start goal opt terrain).success = false ∧
      (dfs g start goal opt terrain).path = [] ∧
      (dfs g start goal opt terrain).completionPercentage < 100) ∧
    ((aStar g start goal hn optR terrain).success = false ∧
      (aStar g start goal hn optR terrain).path = [] ∧
      (aStar g start goal hn optR terrain).completionPercentage < 100) := by
  have hcons : ∀ a b, isStep g a b = true →
      HEURISTICS hn a goal ≤ (getTerrainCost terrain b : ℝ) + HEURISTICS hn b goal :=
    HEURISTICS_consistent hn goal hterr
  have hb := bfs_run_spec hs (Eq.refl (bfs g start goal opt terrain))
  have hd := dfs_run_spec hs (Eq.refl (dfs g start goal opt terrain))
  have ha := aStar_run_spec hs hterr hcons
    (Eq.refl (aStar g start goal hn optR terrain))
  refine ⟨?_, ?_, ?_⟩
  · have hbf : (bfs g start goal opt terrain).success = false := by
      cases hsb : (bfs g start goal opt terrain).success with
      | false => rfl
      | true => exact absurd (hb.2.2.2.2.2.2.2.2.mp hsb) hnr
    obtain ⟨hpath, _, hgvn⟩ := hb.2.1 hbf
    have hlt : (bfs g start goal opt terrain).nodesExpanded <
        (bfs g start goal opt terrain).totalFreeSpaces := by
      rw [hb.2.2.1, hb.2.2.2.2.2.2.1]
      exact visited_lt_free hb.2.2.2.1 hb.2.2.2.2.1 hgv hgvn
    refine ⟨hbf, hpath, ?_⟩
    rw [hb.2.2.2.2.2.1]
    exact ratio_lt_100_rat hlt
  · have hdf : (dfs g start goal opt terrain).success = false := by
      cases hsd : (dfs g start goal opt terrain).success with
      | false => rfl
      | true => exact absurd (hd.2.2.2.2.2.2.2.2.mp hsd) hnr
    obtain ⟨hpath, _, hgvn⟩ := hd.2.1 hdf
    have hlt : (dfs g start goal opt terrain).nodesExpanded <
        (dfs g start goal opt terrain).totalFreeSpaces := by
      rw [hd.2.2.1, hd.2.2.2.2.2.2.1]
      exact visited_lt_free hd.2.2.2.1 hd.2.2.2.2.1 hgv hgvn
    refine ⟨hdf, hpath, ?_⟩
    rw [hd.2.2.2.2.2.1]
    exact ratio_lt_100_rat hlt
  · have haf : (aStar g start goal hn optR terrain).success = false := by
      cases hsa : (aStar g start goal hn optR terrain).success with
      | false => rfl
      | true => exact absurd (ha.2.2.2.2.2.2.2.2.mp hsa) hnr
    obtain ⟨hpath, _, hgvn⟩ := ha.2.1 haf
    have hlt : (aStar g start goal hn optR terrain).nodesExpanded <
        (aStar g start goal hn optR terrain).totalFreeSpaces := by
      rw [ha.2.2.1, ha.2.2.2.2.2.2.1]
      exact visited_lt_free ha.2.2.2.1 ha.2.2.2.2.1 hgv hgvn
    refine ⟨haf, hpath, ?_⟩
    rw [ha.2.2.2.2.2.1]
    exact ratio_lt_100_real hlt

theorem C6_enclosed_goal_witness :
    validCell [[Cell.empty, Cell.empty, Cell.empty],
      [Cell.empty, Cell.empty, Cell.obstacle],
      [Cell.empty, Cell.obstacle, Cell.empty]] ⟨0, 0⟩ = true ∧
    validCell [[Cell.empty, Cell.empty, Cell.empty],
      [Cell.empty, Cell.empty, Cell.obstacle],
      [Cell.empty, Cell.obstacle, Cell.empty]] ⟨2, 2⟩ = true ∧
    (¬ Reach [[Cell.empty, Cell.empty, Cell.empty],
      [Cell.empty, Cell.empty, Cell.obstacle],
      [Cell.empty, Cell.obstacle, Cell.empty]] ⟨0, 0⟩ ⟨2, 2⟩) ∧
    (((bfs [[Cell.empty, Cell.empty, Cell.empty],
        [Cell.empty, Cell.empty, Cell.obstacle],
        [Cell.empty, Cell.obstacle, Cell.empty]] ⟨0, 0⟩ ⟨2, 2⟩ 0 none).success = false ∧
      (bfs [[Cell.empty, Cell.empty, Cell.empty],
        [Cell.empty, Cell.empty, Cell.obstacle],
        [Cell.empty, Cell.obstacle, Cell.empty]] ⟨0, 0⟩ ⟨2, 2⟩ 0 none).path = [] ∧
      (bfs [[Cell.empty, Cell.empty, Cell.empty],
        [Cell.empty, Cell.empty, Cell.obstacle],
        [Cell.empty, Cell.obstacle, Cell.empty]] ⟨0, 0⟩ ⟨2, 2⟩ 0
          none).completionPercentage < 100) ∧
    ((dfs [[Cell.empty, Cell.empty, Cell.empty],
        [Cell.empty, Cell.empty, Cell.obstacle],
        [Cell.empty, Cell.obstacle, Cell.empty]] ⟨0, 0⟩ ⟨2, 2⟩ 0 none).success = false ∧
      (dfs [[Cell.empty, Cell.empty, Cell.empty],
        [Cell.empty, Cell.empty, Cell.obstacle],
        [Cell.empty, Cell.obstacle, Cell.empty]] ⟨0, 0⟩ ⟨2, 2⟩ 0 none).path = [] ∧
      (dfs [[Cell.empty, Cell.empty, Cell.empty],
        [Cell.empty, Cell.empty, Cell.obstacle],
        [Cell.empty, Cell.obstacle, Cell.empty]] ⟨0, 0⟩ ⟨2, 2⟩ 0
          none).completionPercentage < 100) ∧
    ((aStar [[Cell.empty, Cell.empty, Cell.empty],
        [Cell.empty, Cell.empty, Cell.obstacle],
        [Cell.empty, Cell.obstacle, Cell.empty]] ⟨0, 0⟩ ⟨2, 2⟩
          HeuristicName.manhattan 0 none).success = false ∧
      (aStar [[Cell.empty, Cell.empty, Cell.empty],
        [Cell.empty, Cell.empty, Cell.obstacle],
        [Cell.empty, Cell.obstacle, Cell.empty]] ⟨0, 0⟩ ⟨2, 2⟩
          HeuristicName.manhattan 0 none).path = [] ∧
      (aStar [[Cell.empty, Cell.empty, Cell.empty],
        [Cell.empty, Cell.empty, Cell.obstacle],
        [Cell.empty, Cell.obstacle, Cell.empty]] ⟨0, 0⟩ ⟨2, 2⟩
          HeuristicName.manhattan 0 none).completionPercentage < 100)) := by
  have hnr : ¬ Reach [[Cell.empty, Cell.empty, Cell.empty],
      [Cell.empty, Cell.empty, Cell.obstacle],
      [Cell.empty, Cell.obstacle, Cell.empty]] ⟨0, 0⟩ ⟨2, 2⟩ := by
    intro hre
    have hspec := bfs_run_spec
      (show validCell [[Cell.empty, Cell.empty, Cell.empty],
        [Cell.empty, Cell.empty, Cell.obstacle],
        [Cell.empty, Cell.obstacle, Cell.empty]] ⟨0, 0⟩ = true by decide)
      (Eq.refl (bfs [[Cell.empty, Cell.empty, Cell.empty],
        [Cell.empty, Cell.empty, Cell.obstacle],
        [Cell.empty, Cell.obstacle, Cell.empty]] ⟨0, 0⟩ ⟨2, 2⟩ 0 none))
    have hsucc := hspec.2.2.2.2.2.2.2.2.mpr hre
    have hf : (bfs [[Cell.empty, Cell.empty, Cell.empty],
      [Cell.empty, Cell.empty, Cell.obstacle],
      [Cell.empty, Cell.obstacle, Cell.empty]] ⟨0, 0⟩ ⟨2, 2⟩ 0 none).success =
        false := by decide
    rw [hf] at hsucc
    exact absurd hsucc (by decide)
  exact ⟨by decide, by decide, hnr,
    C6_enclosed_goal [[Cell.empty, Cell.empty, Cell.empty],
      [Cell.empty, Cell.empty, Cell.obstacle],
      [Cell.empty, Cell.obstacle, Cell.empty]] ⟨0, 0⟩ ⟨2, 2⟩ 0 0
      HeuristicName.manhattan none (by decide) (by decide)
      (fun p => le_refl 1) hnr⟩

/-- C7: every result of `bfs`, `dfs` and `aStar` — success or failure —
has `nodesExpanded` equal to the length of `visitedNodes`, no position
occurring twice in `visitedNodes`, and every visited position an
in-bounds non-obstacle cell of the grid. -/
theorem C7_visited_counters (g : Grid) (start goal : Pos) (opt : ℚ) (optR : ℝ)
    (hn : HeuristicName) (terrain : Option Terrain)
    (hs : validCell g start = true)
    (hterr : ∀ p, 1 ≤ getTerrainCost terrain p) :
    ((bfs g start goal opt terrain).nodesExpanded =
        (bfs g start goal opt terrain).visitedNodes.length ∧
      (bfs g start goal opt terrain).visitedNodes.Nodup ∧
      (∀ p ∈ (bfs g start goal opt terrain).visitedNodes, validCell g p = true)) ∧
    ((dfs g start goal opt terrain).nodesExpanded =
        (dfs g start goal opt terrain).visitedNodes.length ∧
      (dfs g start goal opt terrain).visitedNodes.Nodup ∧
      (∀ p ∈ (dfs g start goal opt terrain).visitedNodes, validCell g p = true)) ∧
    ((aStar g start goal hn optR terrain).nodesExpanded =
        (aStar g start goal hn optR terrain).visitedNodes.length ∧
      (aStar g start goal hn optR terrain).visitedNodes.Nodup ∧
      (∀ p ∈ (aStar g start goal hn optR terrain).visitedNodes,
        validCell g p = true)) := by
  have hcons : ∀ a b, isStep g a b = true →
      HEURISTICS hn a goal ≤ (getTerrainCost terrain b : ℝ) + HEURISTICS hn b goal :=
    HEURISTICS_consistent hn goal hterr
  have hb := bfs_run_spec hs (Eq.refl (bfs g start goal opt terrain))
  have hd := dfs_run_spec hs (Eq.refl (dfs g start goal opt terrain))
  have ha := aStar_run_spec hs hterr hcons
    (Eq.refl (aStar g start goal hn optR terrain))
  exact ⟨⟨hb.2.2.1, hb.2.2.2.1, hb.2.2.2.2.1⟩,
    ⟨hd.2.2.1, hd.2.2.2.1, hd.2.2.2.2.1⟩,
    ⟨ha.2.2.1, ha.2.2.2.1, ha.2.2.2.2.1⟩⟩

theorem C7_visited_counters_witness :
    validCell [[Cell.empty, Cell.empty]] ⟨0, 0⟩ = true ∧
    (((bfs [[Cell.empty, Cell.empty]] ⟨0, 0⟩ ⟨0, 1⟩ 2 none).nodesExpanded =
        (bfs [[Cell.empty, Cell.empty]] ⟨0, 0⟩ ⟨0, 1⟩ 2 none).visitedNodes.length ∧
      (bfs [[Cell.empty, Cell.empty]] ⟨0, 0⟩ ⟨0, 1⟩ 2 none).visitedNodes.Nodup ∧
      (∀ p ∈ (bfs [[Cell.empty, Cell.empty]] ⟨0, 0⟩ ⟨0, 1⟩ 2 none).visitedNodes,
        validCell [[Cell.empty, Cell.empty]] p = true)) ∧
    ((dfs [[Cell.empty, Cell.empty]] ⟨0, 0⟩ ⟨0, 1⟩ 2 none).nodesExpanded =
        (dfs [[Cell.empty, Cell.empty]] ⟨0, 0⟩ ⟨0, 1⟩ 2 none).visitedNodes.length ∧
      (dfs [[Cell.empty, Cell.empty]] ⟨0, 0⟩ ⟨0, 1⟩ 2 none).visitedNodes.Nodup ∧
      (∀ p ∈ (dfs [[Cell.empty, Cell.empty]] ⟨0, 0⟩ ⟨0, 1⟩ 2 none).visitedNodes,
        validCell [[Cell.empty, Cell.empty]] p = true)) ∧
    ((aStar [[Cell.empty, Cell.empty]] ⟨0, 0⟩ ⟨0, 1⟩ HeuristicName.manhattan 2
        none).nodesExpanded = (aStar [[Cell.empty, Cell.empty]] ⟨0, 0⟩ ⟨0, 1⟩
        HeuristicName.manhattan 2 none).visitedNodes.length ∧
      (aStar [[Cell.empty, Cell.empty]] ⟨0, 0⟩ ⟨0, 1⟩ HeuristicName.manhattan 2
        none).visitedNodes.Nodup ∧
      (∀ p ∈ (aStar [[Cell.empty, Cell.empty]] ⟨0, 0⟩ ⟨0, 1⟩
          HeuristicName.manhattan 2 none).visitedNodes,
        validCell [[Cell.empty, Cell.empty]] p = true))) :=
  ⟨by decide, C7_visited_counters [[Cell.empty, Cell.empty]] ⟨0, 0⟩ ⟨0, 1⟩ 2 2
    HeuristicName.manhattan none (by decide) (fun p => le_refl 1)⟩

/-- C8: after any sequence of enqueue and dequeue operations starting
from an empty `PriorityQueue` (each enqueue tagged with its serial
number), a dequeue returns an element of minimum priority, and among
elements of equal priority the earliest-enqueued one — ties break by
insertion order, deterministically. -/
theorem C8_dequeue_min_stable (ops : List PQOp) (x : PQItem Nat ℚ)
    (hx : PriorityQueue.dequeue (PQrun ops).items = some x) :
    (∀ y ∈ (PQrun ops).items, x.priority ≤ y.priority) ∧
    (∀ y ∈ (PQrun ops).items, y.priority = x.priority → x.item ≤ y.item) := by
  obtain ⟨hsort, hstab, _⟩ := PQrun_invariant ops
  have hx' : (PQrun ops).items.head? = some x := hx
  refine ⟨head_min_of_sorted hsort hx', ?_⟩
  intro y hy hpr
  cases hitems : (PQrun ops).items with
  | nil =>
    rw [hitems] at hx'
    simp at hx'
  | cons a l =>
    rw [hitems] at hx' hy hstab
    simp only [List.head?_cons, Option.some_inj] at hx'
    subst hx'
    rcases List.mem_cons.mp hy with rfl | hy'
    · exact le_refl _
    · exact le_of_lt ((List.pairwise_cons.mp hstab).1 y hy' hpr.symm)

theorem C8_dequeue_min_stable_witness :
    PriorityQueue.dequeue (PQrun [PQOp.enq 2, PQOp.enq 1, PQOp.enq 1]).items =
      some ⟨1, 1⟩ ∧
    ((∀ y ∈ (PQrun [PQOp.enq 2, PQOp.enq 1, PQOp.enq 1]).items,
        (⟨1, 1⟩ : PQItem Nat ℚ).priority ≤ y.priority) ∧
      (∀ y ∈ (PQrun [PQOp.enq 2, PQOp.enq 1, PQOp.enq 1]).items,
        y.priority = (⟨1, 1⟩ : PQItem Nat ℚ).priority →
          (⟨1, 1⟩ : PQItem Nat ℚ).item ≤ y.item)) :=
  ⟨rfl, C8_dequeue_min_stable [PQOp.enq 2, PQOp.enq 1, PQOp.enq 1] ⟨1, 1⟩ rfl⟩

/-- C9: on every finite grid whose goal is joined to the start by some
valid traversal, `dfs` returns success (it is complete, though its path
need be neither shortest nor cheapest). -/
theorem C9_dfs_complete (g : Grid) (start goal : Pos) (opt : ℚ)
    (terrain : Option Terrain) (hs : validCell g start = true)
    (hre : Reach g start goal) :
    (dfs g start goal opt terrain).success = true := by
  have hspec := dfs_run_spec hs (Eq.refl (dfs g start goal opt terrain))
  exact hspec.2.2.2.2.2.2.2.2.mpr hre

theorem C9_dfs_complete_witness :
    validCell [[Cell.empty, Cell.empty]] ⟨0, 0⟩ = true ∧
    Reach [[Cell.empty, Cell.empty]] ⟨0, 0⟩ ⟨0, 1⟩ ∧
    (dfs [[Cell.empty, Cell.empty]] ⟨0, 0⟩ ⟨0, 1⟩ 2 none).success = true :=
  ⟨by decide, ⟨[⟨0, 0⟩, ⟨0, 1⟩], by decide⟩,
    C9_dfs_complete [[Cell.empty, Cell.empty]] ⟨0, 0⟩ ⟨0, 1⟩ 2 none (by decide)
      ⟨[⟨0, 0⟩, ⟨0, 1⟩], by decide⟩⟩

/-- C10: at any reachable state of an `aStar` run (valid start, move
costs at least 1), every g-score recorded for a position other than the
start is at least 1 — so the source's truthiness test `!gScore[key]`
never mistakes a recorded score for an absent one — and when the popped
head is expanded, a neighbour is pushed onto the open set exactly when
it is in-bounds, free, not closed once the current node is closed, and
the specification's ideal update test holds: no g recorded for it, or
the tentative g strictly below the recorded one. -/
theorem C10_push_guard_ideal (g : Grid) (start goal : Pos) (hn : HeuristicName)
    (opt : ℝ) (terrain : Option Terrain) (st st' : AStarState)
    (itm : PQItem AStarEntry ℝ) (rest : List (PQItem AStarEntry ℝ))
    (hs : validCell g start = true)
    (hterr : ∀ p, 1 ≤ getTerrainCost terrain p)
    (hreach : AStarReaches g goal hn opt terrain
      (aStarInit start goal (HEURISTICS hn)) st)
    (hq : st.queue = itm :: rest) (hnv : itm.item.pos ∉ st.visited)
    (hng : itm.item.pos ≠ goal)
    (hstep : aStarStep g goal hn opt terrain st = .inr st') :
    (∀ p v, p ≠ start → gLookup st.gScore p = some v → 1 ≤ v) ∧
    ∃ pushedItems : List (PQItem AStarEntry ℝ),
      (∀ it, it ∈ st'.queue ↔ it ∈ rest ∨ it ∈ pushedItems) ∧
      (∀ it ∈ pushedItems,
        it.item.g = itm.item.g + getTerrainCost terrain it.item.pos ∧
        it.item.path = itm.item.path ++ [it.item.pos]) ∧
      ∀ d ∈ directions,
        ((∃ it ∈ pushedItems, it.item.pos = stepPos itm.item.pos d) ↔
          (validCell g (stepPos itm.item.pos d) = true ∧
           stepPos itm.item.pos d ∉ itm.item.pos :: st.visited ∧
           gIdealGuard (gLookup st.gScore (stepPos itm.item.pos d))
             (itm.item.g + getTerrainCost terrain (stepPos itm.item.pos d)))) := by
  have hcons : ∀ a b, isStep g a b = true →
      HEURISTICS hn a goal ≤ (getTerrainCost terrain b : ℝ) + HEURISTICS hn b goal :=
    HEURISTICS_consistent hn goal hterr
  have inv := aStarInv_reaches hterr hcons (aStarInv_init hs) hreach
  have hg1 := inv.g_pos
  obtain ⟨itm', rest', hq', hcase⟩ := aStarStep_inr_elim hstep
  rw [hq] at hq'
  injection hq' with h1 h2
  subst h1
  subst h2
  rcases hcase with ⟨hvis, _⟩ | ⟨_, _, rfl⟩
  · exact absurd hvis hnv
  · obtain ⟨pushed, e1, e2, e3, e4, e5, e6, e7, e8, e9⟩ :=
      aStarExpand_spec g goal terrain (HEURISTICS hn) itm.item directions
        directions_nodup
        { st with
          queue := rest
          visited := itm.item.pos :: st.visited
          nodesExpanded := st.nodesExpanded + 1
          visitedNodes := st.visitedNodes ++ [itm.item.pos]
          totalHeuristic := st.totalHeuristic + HEURISTICS hn itm.item.pos goal
          totalFValue := st.totalFValue +
            ((itm.item.g : ℝ) + HEURISTICS hn itm.item.pos goal) }
    have hzstart : ∀ d, stepPos itm.item.pos d ∉ itm.item.pos :: st.visited →
        stepPos itm.item.pos d ≠ start := by
      intro d h2 heq
      by_cases hsv : start ∈ st.visited
      · exact h2 (by rw [heq]; exact List.mem_cons_of_mem _ hsv)
      · have hemp : st.visited = [] := by
          by_contra hne
          exact hsv (inv.closed_start hne)
        have hustart : itm.item.pos = start :=
          inv.fresh_start hemp itm (by rw [hq]; exact List.mem_cons_self _ _)
        exact h2 (by rw [heq, ← hustart]; exact List.mem_cons_self _ _)
    refine ⟨hg1, pushed, ?_, ?_, ?_⟩
    · intro it
      rw [e5 it]
    · intro it hit
      exact ⟨(e7 it hit).2.1, (e7 it hit).1⟩
    · intro d hd
      rw [e9 d hd]
      constructor
      · rintro ⟨h1, h2, h3⟩
        have h2' : stepPos itm.item.pos d ∉ itm.item.pos :: st.visited := h2
        refine ⟨h1, h2', ?_⟩
        exact (guard_iff_ideal (fun w hw => hg1 _ w (hzstart d h2') hw)).mp h3
      · rintro ⟨h1, h2, h3⟩
        refine ⟨h1, h2, ?_⟩
        exact (guard_iff_ideal (fun w hw => hg1 _ w (hzstart d h2) hw)).mpr h3

theorem C10_push_guard_ideal_witness :
    ∃ st', aStarStep [[Cell.empty, Cell.empty]] ⟨0, 1⟩ HeuristicName.manhattan 0 none
        (aStarInit ⟨0, 0⟩ ⟨0, 1⟩ (HEURISTICS HeuristicName.manhattan)) = Sum.inr st' ∧
      ((∀ p v, p ≠ (⟨0, 0⟩ : Pos) →
          gLookup (aStarInit (⟨0, 0⟩ : Pos) (⟨0, 1⟩ : Pos)
            (HEURISTICS HeuristicName.manhattan)).gScore p = some v → 1 ≤ v) ∧
       ∃ pushedItems : List (PQItem AStarEntry ℝ),
         (∀ it, it ∈ st'.queue ↔
           it ∈ ([] : List (PQItem AStarEntry ℝ)) ∨ it ∈ pushedItems) ∧
         (∀ it ∈ pushedItems,
           it.item.g = 0 + getTerrainCost none it.item.pos ∧
           it.item.path = [(⟨0, 0⟩ : Pos)] ++ [it.item.pos]) ∧
         ∀ d ∈ directions,
           ((∃ it ∈ pushedItems, it.item.pos = stepPos ⟨0, 0⟩ d) ↔
             (validCell [[Cell.empty, Cell.empty]] (stepPos ⟨0, 0⟩ d) = true ∧
              stepPos ⟨0, 0⟩ d ∉ (⟨0, 0⟩ : Pos) ::
                (aStarInit (⟨0, 0⟩ : Pos) (⟨0, 1⟩ : Pos)
                  (HEURISTICS HeuristicName.manhattan)).visited ∧
              gIdealGuard (gLookup (aStarInit (⟨0, 0⟩ : Pos) (⟨0, 1⟩ : Pos)
                  (HEURISTICS HeuristicName.manhattan)).gScore (stepPos ⟨0, 0⟩ d))
                (0 + getTerrainCost none (stepPos ⟨0, 0⟩ d))))) := by
  have hq : (aStarInit (⟨0, 0⟩ : Pos) (⟨0, 1⟩ : Pos)
      (HEURISTICS HeuristicName.manhattan)).queue =
      (⟨⟨⟨0, 0⟩, [⟨0, 0⟩], 0⟩, HEURISTICS HeuristicName.manhattan ⟨0, 0⟩ ⟨0, 1⟩⟩ :
        PQItem AStarEntry ℝ) :: [] := rfl
  have hnv : (⟨⟨⟨0, 0⟩, [⟨0, 0⟩], 0⟩,
      HEURISTICS HeuristicName.manhattan ⟨0, 0⟩ ⟨0, 1⟩⟩ :
      PQItem AStarEntry ℝ).item.pos ∉ (aStarInit (⟨0, 0⟩ : Pos) (⟨0, 1⟩ : Pos)
      (HEURISTICS HeuristicName.manhattan)).visited := by
    simp [aStarInit]
  have hng : (⟨⟨⟨0, 0⟩, [⟨0, 0⟩], 0⟩,
      HEURISTICS HeuristicName.manhattan ⟨0, 0⟩ ⟨0, 1⟩⟩ :
      PQItem AStarEntry ℝ).item.pos ≠ (⟨0, 1⟩ : Pos) := by
    decide
  exact ⟨_, aStarStep_expand hq hnv hng,
    C10_push_guard_ideal [[Cell.empty, Cell.empty]] ⟨0, 0⟩ ⟨0, 1⟩
      HeuristicName.manhattan 0 none _ _ _ _ (by decide) (fun p => le_refl 1)
      Relation.ReflTransGen.refl hq hnv hng (aStarStep_expand hq hnv hng)⟩
